import Mathlib

/-!
Shallow embedding of the constraint-island discovery subsystem
(`src/engine/engine_island.c`) of the MuJoCo physics engine, together with
proofs about the claims of its specification.

Conventions of the embedding:
* C `int` values carrying tree ids, island ids or `-1` sentinels are `Int`;
  counts and array addresses are `Nat`.
* C arrays are total functions from their index type; writes are
  `Function.update`.  Output arrays start from the junk value `-2`
  (arena memory is uninitialized in C; no claim depends on unwritten cells).
* `mjERROR` (a fatal, non-returning engine error) is an `Except.error`.
* The out-of-bounds read `tree_island[t]` for `t` outside `[0, ntree)`
  (undefined behavior in C) is made explicit by `treeRead`, which returns
  `Except.error .oobTreeRead` in that case.
* Loops become structural recursion over the iteration list, or carry fuel
  when the C loop bound is data dependent (`ffDFS`, `edgeChain`); the fuel
  supplied is proved sufficient where claims need it.
-/

/-- Enumeration `mjtConstraint`: constraint families appearing in `efc_type`. -/
inductive mjtConstraint where
  | EQUALITY
  | FRICTION_DOF
  | FRICTION_TENDON
  | LIMIT_JOINT
  | LIMIT_TENDON
  | CONTACT_FRICTIONLESS
  | CONTACT_PYRAMIDAL
  | CONTACT_ELLIPTIC
deriving DecidableEq, Repr

/-- Enumeration `mjtEq`: equality-constraint subtypes read from `eq_type`. -/
inductive mjtEq where
  | CONNECT
  | WELD
  | JOINT
  | TENDON
  | DISTANCE
deriving DecidableEq, Repr

/-- Error channel for the fatal `mjERROR` calls of `engine_island.c`, plus
`oobTreeRead` which makes the C undefined behavior of indexing
`tree_island` out of `[0, ntree)` explicit. -/
inductive IslandErr where
  | staticSelfEdge
  | edgeTooSmall
  | oobTreeRead
  | dofIslandMismatch
  | efcNoIsland
  | efcIslandMismatch
deriving DecidableEq, Repr

/-- Fields of `mjModel` read by the island code.  `tendon_limited` and
`tendon_frictionloss` are the nonzero tests of the corresponding numeric
model arrays; `sparse` is the representation flag tested by `mj_isSparse`. -/
structure MjModel where
  nv : Nat
  ntree : Nat
  ntendon : Nat
  tendon_num : Nat → Nat
  tendon_limited : Nat → Bool
  tendon_frictionloss : Nat → Bool
  dof_treeid : Nat → Int
  body_treeid : Nat → Int
  geom_bodyid : Nat → Nat
  jnt_dofadr : Nat → Nat
  eq_type : Nat → mjtEq
  eq_obj1id : Nat → Nat
  eq_obj2id : Nat → Nat
  sparse : Bool

/-- Fields of `mjData` read by the island code.  `efc_J i` is the nonzero
test of the dense Jacobian at flat index `i` (`efc_J[nv*row + col]`);
`con_geom1`/`con_geom2` are `contact[id].geom1` / `contact[id].geom2`. -/
structure MjData where
  nefc : Nat
  ncon : Nat
  ne : Nat
  nf : Nat
  efc_type : Nat → mjtConstraint
  efc_id : Nat → Nat
  efc_J_rownnz : Nat → Nat
  efc_J_rowadr : Nat → Nat
  efc_J_colind : Nat → Nat
  efc_J : Nat → Bool
  con_geom1 : Nat → Nat
  con_geom2 : Nat → Nat

/-- Representation flag test `mj_isSparse` (reads the model's jacobian
option in C; here carried directly as a model field). -/
def mj_isSparse (m : MjModel) : Bool :=
  m.sparse

/-- Tendon term of `countMaxEdge`: the C loop over `i < ntendon` adding
`tendon_num[i]` once for a frictional tendon and once for a limited one.
`tendonEdges m i` is the accumulator after the first `i` iterations. -/
def tendonEdges (m : MjModel) : Nat → Nat
  | 0 => 0
  | i + 1 =>
    tendonEdges m i
      + (if m.tendon_frictionloss i then m.tendon_num i else 0)
      + (if m.tendon_limited i then m.tendon_num i else 0)

/-- Upper bound on the number of tree-tree edge records
(`countMaxEdge`, engine_island.c:110-127): `2*ncon + 2*ne + nf` plus the
tendon terms.  Note there is no term for joint-limit constraints. -/
def countMaxEdge (m : MjModel) (d : MjData) : Nat :=
  2 * d.ncon + 2 * d.ne + d.nf + tendonEdges m m.ntendon

/-- Scan loop of the sparse branch of `treeNext` (engine_island.c:146-153):
`left` counts the remaining iterations of `for (j = j0; j < rownnz; j++)`
(the caller passes `rownnz - j0`, so the loop is exited exactly when
`j ≥ rownnz`); on finding an entry whose tree differs from `tree`, return
that tree and the position of the entry (C saves the loop variable `j` at
the break, i.e. the found position itself). -/
def treeNextSparseGo (m : MjModel) (d : MjData) (tree : Int) (i : Nat) :
    Nat → Nat → Int × Nat
  | j, 0 => (-1, j)
  | j, left + 1 =>
    let tree_j := m.dof_treeid (d.efc_J_colind (d.efc_J_rowadr i + j))
    if tree_j ≠ tree then (tree_j, j)
    else treeNextSparseGo m d tree i (j + 1) left

/-- Sparse branch of `treeNext` (engine_island.c:141-154). -/
def treeNextSparseAux (m : MjModel) (d : MjData) (tree : Int) (i : Nat) (j : Nat) :
    Int × Nat :=
  treeNextSparseGo m d tree i j (d.efc_J_rownnz i - j)

/-- Scan loop of the dense branch of `treeNext` (engine_island.c:161-170):
`left` counts the remaining iterations of `for (j = j0; j < nv; j++)`; a
true `efc_J (nv*i + j)` is an incidence. -/
def treeNextDenseGo (m : MjModel) (d : MjData) (tree : Int) (i : Nat) :
    Nat → Nat → Int × Nat
  | j, 0 => (-1, j)
  | j, left + 1 =>
    if d.efc_J (m.nv * i + j) then
      let tree_j := m.dof_treeid j
      if tree_j ≠ tree then (tree_j, j)
      else treeNextDenseGo m d tree i (j + 1) left
    else treeNextDenseGo m d tree i (j + 1) left

/-- Dense branch of `treeNext` (engine_island.c:157-171). -/
def treeNextDenseAux (m : MjModel) (d : MjData) (tree : Int) (i : Nat) (j : Nat) :
    Int × Nat :=
  treeNextDenseGo m d tree i j (m.nv - j)

/-- Jacobian tree scanner `treeNext` (engine_island.c:135-177): return the
id of the next tree in row `i` different from `tree`, `-1` if none, paired
with the final value of the cursor `j` (the C `*index` writeback).  A C
call with a NULL cursor corresponds to `j0 = 0` with the second component
discarded. -/
def treeNext (m : MjModel) (d : MjData) (tree : Int) (i : Nat) (j0 : Nat) : Int × Nat :=
  if mj_isSparse m then treeNextSparseAux m d tree i j0
  else treeNextDenseAux m d tree i j0

/-- Edge emitter `addEdge` (engine_island.c:183-236).  `edge` of the C code
is the list of emitted `(src, dst)` records (so the C `nedge` is
`edge.length`); `treenedge` counts records per tree id.  Folds a single
`-1` endpoint onto the other, errors on a double `-1`, suppresses a record
equal (up to flip) to the immediately previous one, and errors when the
record budget `nedge_max` would be exceeded. -/
def addEdge (treenedge : Int → Nat) (edge : List (Int × Int)) (tree1 tree2 : Int)
    (nedge_max : Nat) : Except IslandErr ((Int → Nat) × List (Int × Int)) :=
  if tree1 = -1 ∧ tree2 = -1 then .error .staticSelfEdge
  else
    let t1 : Int := if tree1 = -1 then tree2 else tree1
    let t2 : Int := if tree2 = -1 then t1 else tree2
    if t1 = t2 then
      if edge.getLast? = some (t1, t1) then .ok (treenedge, edge)
      else if edge.length ≥ nedge_max then .error .edgeTooSmall
      else .ok (Function.update treenedge t1 (treenedge t1 + 1), edge ++ [(t1, t1)])
    else
      if edge.getLast? = some (t1, t2) ∨ edge.getLast? = some (t2, t1) then .ok (treenedge, edge)
      else if edge.length + 2 > nedge_max then .error .edgeTooSmall
      else
        let f1 := Function.update treenedge t1 (treenedge t1 + 1)
        .ok (Function.update f1 t2 (f1 t2 + 1), edge ++ [(t1, t2), (t2, t1)])

/-- Length of the scan space of row `i` for `treeNext`: number of stored
entries (sparse) or `nv` (dense).  Used to size the fuel of `edgeChain`. -/
def scanLen (m : MjModel) (d : MjData) (i : Nat) : Nat :=
  if mj_isSparse m then d.efc_J_rownnz i else m.nv

/-- Chain loop of the generic case of `findEdges`
(engine_island.c:307-313): starting from the previously found `tree2` and
cursor `index`, repeatedly look for the next different tree and emit an
edge from the previous one to it.  The cursor strictly increases at every
iteration, so fuel `scanLen + 1` (supplied by `findEdgesRow`) never runs
out; on fuel exhaustion the current state is returned. -/
def edgeChain (m : MjModel) (d : MjData) (nedge_max : Nat) (i : Nat) :
    Nat → Int → Nat → (Int → Nat) → List (Int × Int) →
    Except IslandErr ((Int → Nat) × List (Int × Int))
  | 0, _, _, tn, E => .ok (tn, E)
  | fuel + 1, tree2, index, tn, E =>
    let r := treeNext m d tree2 i index
    if r.1 > -1 ∧ r.1 ≠ tree2 then
      match addEdge tn E tree2 r.1 nedge_max with
      | .error e => .error e
      | .ok s => edgeChain m d nedge_max i fuel r.1 r.2 s.1 s.2
    else .ok (tn, E)

/-- Generic case of `findEdges` (engine_island.c:296-314): scan the
Jacobian row; one tree found gives a self-edge, two or more gives a chain
of edges between consecutively found trees. -/
def findEdgesRow (m : MjModel) (d : MjData) (nedge_max : Nat) (i : Nat)
    (tn : Int → Nat) (E : List (Int × Int)) :
    Except IslandErr ((Int → Nat) × List (Int × Int)) :=
  let r1 := treeNext m d (-1) i 0
  let r2 := treeNext m d r1.1 i r1.2
  if r2.1 = -1 then addEdge tn E r1.1 r1.1 nedge_max
  else
    match addEdge tn E r1.1 r2.1 nedge_max with
    | .error e => .error e
    | .ok s => edgeChain m d nedge_max i (scanLen m d i + 1) r2.1 r2.2 s.1 s.2

/-- Main loop of `findEdges` (engine_island.c:251-315) over the remaining
row indices.  `prev` is the `(efc_type, efc_id)` of the last processed row
(`none` encodes the initial `-1, -1` pair): rows still in the same logical
constraint are skipped; otherwise the row is dispatched by family. -/
def findEdgesLoop (m : MjModel) (d : MjData) (nedge_max : Nat) :
    List Nat → Option (mjtConstraint × Nat) → (Int → Nat) → List (Int × Int) →
    Except IslandErr ((Int → Nat) × List (Int × Int))
  | [], _, tn, E => .ok (tn, E)
  | i :: rest, prev, tn, E =>
    if prev = some (d.efc_type i, d.efc_id i) then
      findEdgesLoop m d nedge_max rest prev tn E
    else
      let prev' := some (d.efc_type i, d.efc_id i)
      let step : Except IslandErr ((Int → Nat) × List (Int × Int)) :=
        match d.efc_type i with
        | .FRICTION_DOF =>
          let tree1 := m.dof_treeid (d.efc_id i)
          addEdge tn E tree1 tree1 nedge_max
        | .LIMIT_JOINT =>
          let tree1 := m.dof_treeid (m.jnt_dofadr (d.efc_id i))
          addEdge tn E tree1 tree1 nedge_max
        | .CONTACT_FRICTIONLESS | .CONTACT_PYRAMIDAL | .CONTACT_ELLIPTIC =>
          let tree1 := m.body_treeid (m.geom_bodyid (d.con_geom1 (d.efc_id i)))
          let tree2 := m.body_treeid (m.geom_bodyid (d.con_geom2 (d.efc_id i)))
          addEdge tn E tree1 tree2 nedge_max
        | .EQUALITY =>
          match m.eq_type (d.efc_id i) with
          | .CONNECT | .WELD =>
            let tree1 := m.body_treeid (m.eq_obj1id (d.efc_id i))
            let tree2 := m.body_treeid (m.eq_obj2id (d.efc_id i))
            addEdge tn E tree1 tree2 nedge_max
          | _ => findEdgesRow m d nedge_max i tn E
        | _ => findEdgesRow m d nedge_max i tn E
      match step with
      | .error e => .error e
      | .ok s => findEdgesLoop m d nedge_max rest prev' s.1 s.2

/-- Edge collector `findEdges` (engine_island.c:241-318): walk all `efc`
rows, emit tree-tree edge records and per-tree counts (`treenedge` starts
from the C `memset` to zero). -/
def findEdges (m : MjModel) (d : MjData) (nedge_max : Nat) :
    Except IslandErr ((Int → Nat) × List (Int × Int)) :=
  findEdgesLoop m d nedge_max (List.range d.nefc) none (fun _ => 0) []

/-- Row `v` of the sparse symmetric adjacency input of `mj_floodFill`: the
column indices `colind[rowadr v .. rowadr v + rownnz v)`. -/
def ffRow (rownnz : Int → Nat) (rowadr : Int → Nat) (colind : Nat → Int) (v : Int) :
    List Int :=
  (List.range (rownnz v)).map fun k => colind (rowadr v + k)

/-- DFS loop of `mj_floodFill` (engine_island.c:65-80).  The C stack array
is the list with its head at the top (the C array end); popping an already
assigned vertex skips it, otherwise the vertex is assigned the current
island id `c` and its row is bulk-pushed (reversed, since `memcpy` puts
the row's last entry on top).  Fuel decreases once per pop; the caller
supplies enough (`ffFuel`). -/
def ffDFS (rownnz : Int → Nat) (rowadr : Int → Nat) (colind : Nat → Int) (c : Int) :
    Nat → (Int → Int) → List Int → (Int → Int)
  | 0, island, _ => island
  | _ + 1, island, [] => island
  | fuel + 1, island, v :: st =>
    if island v ≠ -1 then ffDFS rownnz rowadr colind c fuel island st
    else
      ffDFS rownnz rowadr colind c fuel (Function.update island v c)
        ((ffRow rownnz rowadr colind v).reverse ++ st)

/-- Outer loop of `mj_floodFill` (engine_island.c:50-84): `ffOuter ... i`
is the pair `(island, nisland)` after the first `i` vertices have been
examined (island ids all start at `-1`). -/
def ffOuter (rownnz : Int → Nat) (rowadr : Int → Nat) (colind : Nat → Int) (fuel : Nat) :
    Nat → (Int → Int) × Nat
  | 0 => (fun _ => -1, 0)
  | i + 1 =>
    let p := ffOuter rownnz rowadr colind fuel i
    if p.1 (i : Int) ≠ -1 ∨ rownnz (i : Int) = 0 then p
    else (ffDFS rownnz rowadr colind (p.2 : Int) fuel p.1 [(i : Int)], p.2 + 1)

/-- Fuel bound for one `ffDFS` call: one more than the number of vertices
plus the total number of stored column indices, which dominates the number
of pops any DFS performs. -/
def ffFuel (nr : Nat) (rownnz : Int → Nat) : Nat :=
  1 + nr + (Finset.range nr).sum fun v => rownnz (v : Int)

/-- Flood fill `mj_floodFill` (engine_island.c:47-87): returns the island
assignment (the C output array `island`) and the number of islands (the C
return value).  The C scratch `stack` argument is the internal list of
`ffDFS`. -/
def mj_floodFill (nr : Nat) (rownnz : Int → Nat) (rowadr : Int → Nat) (colind : Nat → Int) :
    (Int → Int) × Nat :=
  ffOuter rownnz rowadr colind (ffFuel nr rownnz) nr

/-- Prefix-sum loop computing `rowadr` from the `treenedge` counts
(engine_island.c:345-349): `buildRowadr tn r` is `rowadr[r]`, with
`rowadr[0] = 0` and `rowadr[r+1] = rowadr[r] + treenedge[r]`. -/
def buildRowadr (tn : Int → Nat) : Nat → Nat
  | 0 => 0
  | r + 1 => buildRowadr tn r + tn (r : Int)

/-- Scatter loop copying edge records into the CSR column array
(engine_island.c:353-358): for each record `(row, col)` in order, write
`col` at `rowadr row + rownnz row` and increment the running count
`rownnz row` (counts restart from zero after the prefix-sum pass). -/
def scatterEdges (rowadr : Int → Nat) :
    List (Int × Int) → (Int → Nat) → (Nat → Int) → (Int → Nat) × (Nat → Int)
  | [], cnt, col => (cnt, col)
  | (r, c) :: rest, cnt, col =>
    scatterEdges rowadr rest (Function.update cnt r (cnt r + 1))
      (Function.update col (rowadr r + cnt r) c)

/-- Bounds-checked read of the `tree_island` scratch buffer (length
`ntree`): the C expression `tree_island[t]` is in bounds only for
`0 ≤ t < ntree`, otherwise it is undefined behavior, reported here as
`.error .oobTreeRead`. -/
def treeRead (ntree : Nat) (tree_island : Int → Int) (t : Int) : Except IslandErr Int :=
  if 0 ≤ t ∧ t < (ntree : Int) then .ok (tree_island t) else .error .oobTreeRead

/-- State of the two list-threading sweeps of `mj_island`: the per-element
island array (`dof_island` / `efc_island`), the next-links, the per-island
head addresses (`island_dofadr` / `island_efcadr`), the scratch
`island_last`, and the running `nisland_found` counter. -/
structure ThreadSt where
  isl : Int → Int
  nxt : Int → Int
  adr : Int → Int
  last : Int → Int
  nfound : Nat

/-- Initial sweep state: output arrays hold arena junk (`-2`),
`island_last` is initialized to `-1` (engine_island.c:393-396, 434-437),
`nisland_found = 0`. -/
def initThreadSt : ThreadSt :=
  { isl := fun _ => -2
    nxt := fun _ => -2
    adr := fun _ => -2
    last := fun _ => -1
    nfound := 0 }

/-- Body of the per-DoF sweep (engine_island.c:400-422) for DoF `i`: read
`tree_island[dof_treeid[i]]` (bounds-checked), record it in `dof_island`,
then either mark the DoF unthreaded (`-1`) or append it to its island's
intrusive list. -/
def dofSweepStep (m : MjModel) (ntree : Nat) (tree_island : Int → Int)
    (st : ThreadSt) (i : Nat) : Except IslandErr ThreadSt :=
  match treeRead ntree tree_island (m.dof_treeid i) with
  | .error e => .error e
  | .ok island =>
    let st1 := { st with isl := Function.update st.isl (i : Int) island }
    if island = -1 then
      .ok { st1 with nxt := Function.update st1.nxt (i : Int) (-1) }
    else
      let last := st1.last island
      if last = -1 then
        .ok { st1 with
              adr := Function.update st1.adr island (i : Int)
              last := Function.update st1.last island (i : Int)
              nfound := st1.nfound + 1 }
      else
        .ok { st1 with
              nxt := Function.update st1.nxt last (i : Int)
              last := Function.update st1.last island (i : Int) }

/-- Per-DoF sweep loop over the remaining DoF indices. -/
def dofSweepLoop (m : MjModel) (ntree : Nat) (tree_island : Int → Int) :
    List Nat → ThreadSt → Except IslandErr ThreadSt
  | [], st => .ok st
  | i :: rest, st =>
    match dofSweepStep m ntree tree_island st i with
    | .error e => .error e
    | .ok st' => dofSweepLoop m ntree tree_island rest st'

/-- Tail finalization (engine_island.c:430-432, 469-471): for each island
`k < nisland` set the next-link of its last element to `-1`;
`finalizeTails last nxt k` is the next-array after islands `[0, k)`. -/
def finalizeTails (last : Int → Int) (nxt : Int → Int) : Nat → (Int → Int)
  | 0 => nxt
  | k + 1 => Function.update (finalizeTails last nxt k) (last (k : Int)) (-1)

/-- Body of the per-constraint sweep (engine_island.c:441-461) for row `i`:
the island is `tree_island[treeNext(m, d, -1, i, NULL)]` (bounds-checked);
a `-1` island for an active row is the fatal "constraint not in any
island".  Threading is as in the DoF sweep. -/
def efcSweepStep (m : MjModel) (d : MjData) (ntree : Nat) (tree_island : Int → Int)
    (st : ThreadSt) (i : Nat) : Except IslandErr ThreadSt :=
  match treeRead ntree tree_island (treeNext m d (-1) i 0).1 with
  | .error e => .error e
  | .ok island =>
    let st1 := { st with isl := Function.update st.isl (i : Int) island }
    if island = -1 then .error .efcNoIsland
    else
      let last := st1.last island
      if last = -1 then
        .ok { st1 with
              adr := Function.update st1.adr island (i : Int)
              last := Function.update st1.last island (i : Int)
              nfound := st1.nfound + 1 }
      else
        .ok { st1 with
              nxt := Function.update st1.nxt last (i : Int)
              last := Function.update st1.last island (i : Int) }

/-- Per-constraint sweep loop over the remaining row indices. -/
def efcSweepLoop (m : MjModel) (d : MjData) (ntree : Nat) (tree_island : Int → Int) :
    List Nat → ThreadSt → Except IslandErr ThreadSt
  | [], st => .ok st
  | i :: rest, st =>
    match efcSweepStep m d ntree tree_island st i with
    | .error e => .error e
    | .ok st' => efcSweepLoop m d ntree tree_island rest st'

/-- Island outputs of `mj_island` (the contents of the arena arrays). -/
structure IslandOut where
  nisland : Nat
  dof_island : Int → Int
  dof_islandnext : Int → Int
  island_dofadr : Int → Int
  efc_island : Int → Int
  efc_islandnext : Int → Int
  island_efcadr : Int → Int
deriving Inhabited

/-- Functional core of `mj_island` (engine_island.c:324-474, for
`nefc > 0`, with the arena-allocation step abstracted away): compute the
edge budget, collect edges, build the CSR tree adjacency, flood-fill it,
and run the two threading sweeps with their sanity checks. -/
def mj_islandCore (m : MjModel) (d : MjData) : Except IslandErr IslandOut :=
  match findEdges m d (countMaxEdge m d) with
  | .error e => .error e
  | .ok fe =>
    let tn := fe.1
    let edge := fe.2
    let rowadr : Int → Nat := fun t => buildRowadr tn t.toNat
    let sc := scatterEdges rowadr edge (fun _ => 0) (fun _ => 0)
    let ff := mj_floodFill m.ntree sc.1 rowadr sc.2
    let tree_island := ff.1
    let nisland := ff.2
    match dofSweepLoop m m.ntree tree_island (List.range m.nv) initThreadSt with
    | .error e => .error e
    | .ok dsw =>
      if dsw.nfound ≠ nisland then .error .dofIslandMismatch
      else
        let dnxt := finalizeTails dsw.last dsw.nxt nisland
        match efcSweepLoop m d m.ntree tree_island (List.range d.nefc) initThreadSt with
        | .error e => .error e
        | .ok esw =>
          if esw.nfound ≠ nisland then .error .efcIslandMismatch
          else
            let enxt := finalizeTails esw.last esw.nxt nisland
            .ok { nisland := nisland
                  dof_island := dsw.isl
                  dof_islandnext := dnxt
                  island_dofadr := dsw.adr
                  efc_island := esw.isl
                  efc_islandnext := enxt
                  island_efcadr := esw.adr }

/-- Arena pointers of the X-macro `MJDATA_ARENA_POINTERS_ISLAND`.
Modelled from the spec: the macro itself lives in `mjxmacro.h` (not under
`src/`); per spec §3 the island outputs are exactly the six arrays
`dof_island[nv]`, `dof_islandnext[nv]`, `island_dofadr[nisland]`,
`efc_island[nefc]`, `efc_islandnext[nefc]`, `island_efcadr[nisland]`.
`none` is a NULL (unset) pointer. -/
structure IslandPtrs where
  dof_island : Option (Int → Int)
  dof_islandnext : Option (Int → Int)
  island_dofadr : Option (Int → Int)
  efc_island : Option (Int → Int)
  efc_islandnext : Option (Int → Int)
  island_efcadr : Option (Int → Int)

/-- All island pointers NULL. -/
def noPtrs : IslandPtrs :=
  { dof_island := none
    dof_islandnext := none
    island_dofadr := none
    efc_island := none
    efc_islandnext := none
    island_efcadr := none }

/-- Slice of the `mjData` context touched by `mj_island` beyond the
per-step inputs: the island count, the arena watermark `parena`, the total
stack size `nstack` (in `mjtNum` units), the emitted warning payloads, and
the island arena pointers. -/
structure MjCtx where
  d : MjData
  nisland : Int
  parena : Nat
  nstack : Nat
  warnings : List Nat
  ptrs : IslandPtrs

/-- Rollback `clearIsland` (engine_island.c:92-105): NULL every island
arena pointer (the X-macro loop), zero `nefc` and `nisland`, and set the
arena watermark to the given value.  Modelled from the spec: the pointer
list comes from `MJDATA_ARENA_POINTERS_ISLAND`, which is not under
`src/`. -/
def clearIsland (c : MjCtx) (parena : Nat) : MjCtx :=
  { c with
    d := { c.d with nefc := 0 }
    nisland := 0
    parena := parena
    ptrs := noPtrs }

/-- Byte sizes of the six island output allocations, in macro order.
Modelled from the spec: each array holds 32-bit integers, with the
shapes of §3. -/
def islandAllocSizes (nv nefc nisland : Nat) : List Nat :=
  [4 * nv, 4 * nv, 4 * nisland, 4 * nefc, 4 * nefc, 4 * nisland]

/-- Allocation loop for the island outputs (the X-macro loop of
engine_island.c:373-382): `oracle k` tells whether the `k`-th call to
`mj_arenaAlloc` succeeds; on success the watermark advances by the block
size, on the first failure the loop aborts with `none`.  Modelled from the
spec: `mj_arenaAlloc` itself is outside `src/`. -/
def allocIsland (oracle : Nat → Bool) : List Nat → Nat → Nat → Option Nat
  | [], _, parena => some parena
  | sz :: rest, k, parena =>
    if oracle k then allocIsland oracle rest (k + 1) (parena + sz) else none

/-- Island builder `mj_island` (engine_island.c:324-474) at the
data-context level: quick return for `nefc = 0`, edge collection, CSR
build, flood fill, the arena allocation of the six outputs (failure emits
one `mjWARN_CNSTRFULL` warning carrying `nstack * sizeof(mjtNum)` bytes
and rolls back via `clearIsland`), then the two threading sweeps. -/
def mj_island (m : MjModel) (c : MjCtx) (oracle : Nat → Bool) : Except IslandErr MjCtx :=
  let d := c.d
  if d.nefc = 0 then .ok { c with nisland := 0 }
  else
    match findEdges m d (countMaxEdge m d) with
    | .error e => .error e
    | .ok fe =>
      let tn := fe.1
      let edge := fe.2
      let rowadr : Int → Nat := fun t => buildRowadr tn t.toNat
      let sc := scatterEdges rowadr edge (fun _ => 0) (fun _ => 0)
      let ff := mj_floodFill m.ntree sc.1 rowadr sc.2
      let tree_island := ff.1
      let nisland := ff.2
      let parena_old := c.parena
      match allocIsland oracle (islandAllocSizes m.nv d.nefc nisland) 0 c.parena with
      | none =>
        .ok (clearIsland { c with warnings := c.warnings ++ [8 * c.nstack] } parena_old)
      | some parena' =>
        match dofSweepLoop m m.ntree tree_island (List.range m.nv) initThreadSt with
        | .error e => .error e
        | .ok dsw =>
          if dsw.nfound ≠ nisland then .error .dofIslandMismatch
          else
            let dnxt := finalizeTails dsw.last dsw.nxt nisland
            match efcSweepLoop m d m.ntree tree_island (List.range d.nefc) initThreadSt with
            | .error e => .error e
            | .ok esw =>
              if esw.nfound ≠ nisland then .error .efcIslandMismatch
              else
                let enxt := finalizeTails esw.last esw.nxt nisland
                .ok { c with
                      nisland := (nisland : Int)
                      parena := parena'
                      ptrs :=
                        { dof_island := some dsw.isl
                          dof_islandnext := some dnxt
                          island_dofadr := some dsw.adr
                          efc_island := some esw.isl
                          efc_islandnext := some enxt
                          island_efcadr := some esw.adr } }

/-- Concrete model exhibiting the missing joint-limit budget term: one DoF
in one tree, one joint at DoF 0, no contacts, equalities, friction or
tendons. -/
def mLim : MjModel :=
  { nv := 1
    ntree := 1
    ntendon := 0
    tendon_num := fun _ => 0
    tendon_limited := fun _ => false
    tendon_frictionloss := fun _ => false
    dof_treeid := fun _ => 0
    body_treeid := fun _ => 0
    geom_bodyid := fun _ => 0
    jnt_dofadr := fun _ => 0
    eq_type := fun _ => .CONNECT
    eq_obj1id := fun _ => 0
    eq_obj2id := fun _ => 0
    sparse := true }

/-- Concrete data for `mLim`: a single active joint-limit row on joint 0,
with `ncon = ne = nf = 0`. -/
def dLim : MjData :=
  { nefc := 1
    ncon := 0
    ne := 0
    nf := 0
    efc_type := fun _ => .LIMIT_JOINT
    efc_id := fun _ => 0
    efc_J_rownnz := fun _ => 1
    efc_J_rowadr := fun _ => 0
    efc_J_colind := fun _ => 0
    efc_J := fun _ => false
    con_geom1 := fun _ => 0
    con_geom2 := fun _ => 0 }


/-- Concrete model with two DoFs in one tree (tree 0), sparse Jacobian. -/
def mOne : MjModel :=
  { mLim with nv := 2, ntree := 1 }

/-- Concrete data for `mOne`: one DoF-friction row on DoF 0 (so `nf = 1`);
DoF 1 appears in no constraint row, but shares tree 0 with DoF 0. -/
def dOne : MjData :=
  { dLim with
    nf := 1
    efc_type := fun _ => .FRICTION_DOF }

/-- Concrete model with two DoFs in two distinct trees, sparse Jacobian. -/
def mTwo : MjModel :=
  { mLim with
    nv := 2
    ntree := 2
    dof_treeid := fun i => if i = 0 then 0 else 1 }

/-- Concrete data for `mTwo`: one tendon-friction row whose Jacobian row
holds columns `[0, 1]` (DoFs of both trees); `ntendon` stays 0 in `mTwo`
so the budget comes out as needed per test. -/
def dTwo : MjData :=
  { dLim with
    efc_type := fun _ => .FRICTION_TENDON
    efc_J_rownnz := fun _ => 2
    efc_J_colind := fun k => if k = 0 then 0 else 1 }


/-- Tree ids of the nonzero entries of Jacobian row `i`, in the order the
`treeNext` scan visits them: sparse storage order, or ascending column
order for the dense representation. -/
def rowTreeList (m : MjModel) (d : MjData) (i : Nat) : List Int :=
  if mj_isSparse m then
    (List.range (d.efc_J_rownnz i)).map fun k =>
      m.dof_treeid (d.efc_J_colind (d.efc_J_rowadr i + k))
  else
    ((List.range m.nv).filter fun j => d.efc_J (m.nv * i + j)).map m.dof_treeid

/-- DoF `j` appears in constraint row `i`: the row's Jacobian has a stored
entry (sparse) or a nonzero (dense) in column `j`. -/
def dofInRow (m : MjModel) (d : MjData) (i j : Nat) : Prop :=
  (mj_isSparse m = true ∧ ∃ k, k < d.efc_J_rownnz i ∧ d.efc_J_colind (d.efc_J_rowadr i + k) = j)
  ∨ (mj_isSparse m = false ∧ d.efc_J (m.nv * i + j) = true)

instance (m : MjModel) (d : MjData) (i j : Nat) : Decidable (dofInRow m d i j) := by
  unfold dofInRow
  infer_instance

theorem treeNextSparseGo_found (m : MjModel) (d : MjData) (tree : Int) (i : Nat) :
    ∀ left j, (treeNextSparseGo m d tree i j left).1 ≠ -1 →
      j ≤ (treeNextSparseGo m d tree i j left).2 ∧
      (treeNextSparseGo m d tree i j left).2 < j + left ∧
      m.dof_treeid (d.efc_J_colind (d.efc_J_rowadr i + (treeNextSparseGo m d tree i j left).2)) =
        (treeNextSparseGo m d tree i j left).1 ∧
      (treeNextSparseGo m d tree i j left).1 ≠ tree := by
  intro left
  induction left with
  | zero => intro j h; simp [treeNextSparseGo] at h
  | succ n ih =>
    intro j h
    by_cases hc : m.dof_treeid (d.efc_J_colind (d.efc_J_rowadr i + j)) ≠ tree
    · simp only [treeNextSparseGo, if_pos hc] at h ⊢
      exact ⟨Nat.le_refl j, by omega, by simp, hc⟩
    · simp only [treeNextSparseGo, if_neg hc] at h ⊢
      obtain ⟨h1, h2, h3, h4⟩ := ih (j + 1) h
      exact ⟨by omega, by omega, h3, h4⟩

theorem treeNextDenseGo_found (m : MjModel) (d : MjData) (tree : Int) (i : Nat) :
    ∀ left j, (treeNextDenseGo m d tree i j left).1 ≠ -1 →
      j ≤ (treeNextDenseGo m d tree i j left).2 ∧
      (treeNextDenseGo m d tree i j left).2 < j + left ∧
      d.efc_J (m.nv * i + (treeNextDenseGo m d tree i j left).2) = true ∧
      m.dof_treeid (treeNextDenseGo m d tree i j left).2 = (treeNextDenseGo m d tree i j left).1 ∧
      (treeNextDenseGo m d tree i j left).1 ≠ tree := by
  intro left
  induction left with
  | zero => intro j h; simp [treeNextDenseGo] at h
  | succ n ih =>
    intro j h
    by_cases hJ : d.efc_J (m.nv * i + j) = true
    · by_cases hc : m.dof_treeid j ≠ tree
      · simp only [treeNextDenseGo, hJ, if_true, if_pos hc] at h ⊢
        exact ⟨Nat.le_refl j, by omega, by simp [hJ], by simp, hc⟩
      · simp only [treeNextDenseGo, hJ, if_true, if_neg hc] at h ⊢
        obtain ⟨h1, h2, h3, h4, h5⟩ := ih (j + 1) h
        exact ⟨by omega, by omega, h3, h4, h5⟩
    · simp only [treeNextDenseGo, Bool.not_eq_true] at h ⊢
      rw [if_neg (by simp [hJ])] at h ⊢
      obtain ⟨h1, h2, h3, h4, h5⟩ := ih (j + 1) h
      exact ⟨by omega, by omega, h3, h4, h5⟩

/-- C1: the claim states that the budget computed by `countMaxEdge` covers
every constraint family processed by `findEdges`, including joint-limit
constraints, making the fatal "edge array too small" branch of `addEdge`
unreachable.  The code violates this: `countMaxEdge` has no term for
joint-limit constraints, so on a model with a single active
`mjCNSTR_LIMIT_JOINT` row (and nothing else) the budget is 0 and the
collector hits the fatal branch.  This theorem evaluates the code at that
failing input. -/
theorem c1_joint_limit_budget_bug :
    countMaxEdge mLim dLim = 0 ∧
    findEdges mLim dLim (countMaxEdge mLim dLim) = .error .edgeTooSmall ∧
    mj_islandCore mLim dLim = .error .edgeTooSmall :=
  ⟨rfl, rfl, rfl⟩

/-- C6 counterexample: on `mTwo`/`dTwo` the call
`treeNext mTwo dTwo (-1) 0 0` discovers the tree of the entry at position
`0` (tree id `0`, different from the input tree `-1`), yet the returned
cursor is not `1`, the position just past the discovered entry — the C
code saves the loop variable at the break, i.e. the found position
itself. -/
theorem c6_cursor_counterexample :
    (treeNext mTwo dTwo (-1) 0 0).1 = 0 ∧
    mTwo.dof_treeid (dTwo.efc_J_colind (dTwo.efc_J_rowadr 0 + 0)) = 0 ∧
    (treeNext mTwo dTwo (-1) 0 0).2 ≠ 0 + 1 := by
  decide

/-- C6 (amended): for every call to `treeNext` that finds a tree different
from the input tree, the cursor is updated to the position OF the
discovered nonzero entry (the entry whose tree id was returned), not one
past it; resumed scans still work since that entry's tree equals the
filter passed by the callers on the next call. -/
theorem c6_treeNext_cursor (m : MjModel) (d : MjData) (tree : Int) (i j0 : Nat)
    (h : (treeNext m d tree i j0).1 ≠ -1) :
    (treeNext m d tree i j0).1 ≠ tree ∧
    j0 ≤ (treeNext m d tree i j0).2 ∧
    (mj_isSparse m = true →
      (treeNext m d tree i j0).2 < d.efc_J_rownnz i ∧
      m.dof_treeid (d.efc_J_colind (d.efc_J_rowadr i + (treeNext m d tree i j0).2)) =
        (treeNext m d tree i j0).1) ∧
    (mj_isSparse m = false →
      (treeNext m d tree i j0).2 < m.nv ∧
      d.efc_J (m.nv * i + (treeNext m d tree i j0).2) = true ∧
      m.dof_treeid (treeNext m d tree i j0).2 = (treeNext m d tree i j0).1) := by
  by_cases hs : mj_isSparse m = true
  · have hru : treeNext m d tree i j0 = treeNextSparseGo m d tree i j0 (d.efc_J_rownnz i - j0) := by
      simp [treeNext, hs, treeNextSparseAux]
    rw [hru] at h ⊢
    obtain ⟨h1, h2, h3, h4⟩ := treeNextSparseGo_found m d tree i (d.efc_J_rownnz i - j0) j0 h
    refine ⟨h4, h1, fun _ => ⟨by omega, h3⟩, fun hf => absurd hs (by simp [hf])⟩
  · have hs' : mj_isSparse m = false := by simpa using hs
    have hru : treeNext m d tree i j0 = treeNextDenseGo m d tree i j0 (m.nv - j0) := by
      simp [treeNext, hs', treeNextDenseAux]
    rw [hru] at h ⊢
    obtain ⟨h1, h2, h3, h4, h5⟩ := treeNextDenseGo_found m d tree i (m.nv - j0) j0 h
    exact ⟨h5, h1, fun hf => absurd hf hs, fun _ => ⟨by omega, h3, h4⟩⟩

/-- Witness for `c6_treeNext_cursor` at the concrete input of the
counterexample. -/
theorem c6_treeNext_cursor_witness :
    (treeNext mTwo dTwo (-1) 0 0).1 ≠ -1 ∧
    ((treeNext mTwo dTwo (-1) 0 0).1 ≠ -1 ∧
     0 ≤ (treeNext mTwo dTwo (-1) 0 0).2 ∧
     (mj_isSparse mTwo = true →
       (treeNext mTwo dTwo (-1) 0 0).2 < dTwo.efc_J_rownnz 0 ∧
       mTwo.dof_treeid (dTwo.efc_J_colind (dTwo.efc_J_rowadr 0 + (treeNext mTwo dTwo (-1) 0 0).2)) =
         (treeNext mTwo dTwo (-1) 0 0).1) ∧
     (mj_isSparse mTwo = false →
       (treeNext mTwo dTwo (-1) 0 0).2 < mTwo.nv ∧
       dTwo.efc_J (mTwo.nv * 0 + (treeNext mTwo dTwo (-1) 0 0).2) = true ∧
       mTwo.dof_treeid (treeNext mTwo dTwo (-1) 0 0).2 = (treeNext mTwo dTwo (-1) 0 0).1)) :=
  ⟨by decide, c6_treeNext_cursor mTwo dTwo (-1) 0 0 (by decide)⟩

/-- Concrete context with no active constraints, used for the C8 witness:
nonzero junk in `nisland`, a nonempty arena watermark, preexisting
warnings, and set pointers, all of which must survive the quick return
except `nisland`. -/
def ctxEmpty : MjCtx :=
  { d := { dLim with nefc := 0 }
    nisland := 5
    parena := 7
    nstack := 3
    warnings := [11]
    ptrs := { noPtrs with dof_island := some fun _ => 9 } }

/-- C8: for every call with `nefc = 0`, `mj_island` sets `nisland := 0` and
returns immediately: no allocation is performed and every other modeled
field of the data context (including the arena watermark, the warning
list, and all island pointers) is unchanged. -/
theorem c8_quick_return (m : MjModel) (c : MjCtx) (oracle : Nat → Bool)
    (h : c.d.nefc = 0) :
    mj_island m c oracle = .ok { c with nisland := 0 } := by
  unfold mj_island
  simp [h]

/-- Witness for `c8_quick_return` on `ctxEmpty`. -/
theorem c8_quick_return_witness :
    ctxEmpty.d.nefc = 0 ∧
    mj_island mLim ctxEmpty (fun _ => true) = .ok { ctxEmpty with nisland := 0 } :=
  ⟨rfl, c8_quick_return mLim ctxEmpty (fun _ => true) rfl⟩

theorem dofSweepLoop_ok_iff (m : MjModel) (nt : Nat) (ti : Int → Int) :
    ∀ (l : List Nat) (st : ThreadSt),
      (dofSweepLoop m nt ti l st).isOk = true ↔
        ∀ i ∈ l, 0 ≤ m.dof_treeid i ∧ m.dof_treeid i < (nt : Int) := by
  intro l
  induction l with
  | nil => intro st; simp [dofSweepLoop, Except.isOk, Except.toBool]
  | cons i rest ih =>
    intro st
    by_cases hb : 0 ≤ m.dof_treeid i ∧ m.dof_treeid i < (nt : Int)
    · have hstep : ∃ st', dofSweepStep m nt ti st i = .ok st' := by
        unfold dofSweepStep treeRead
        rw [if_pos hb]
        by_cases h1 : ti (m.dof_treeid i) = -1
        · simp [h1]
        · simp only [h1, if_neg]
          by_cases h2 : ({ st with isl := Function.update st.isl (i : Int) (ti (m.dof_treeid i)) } : ThreadSt).last (ti (m.dof_treeid i)) = -1
          · rw [if_pos h2]; exact ⟨_, rfl⟩
          · rw [if_neg h2]; exact ⟨_, rfl⟩
      obtain ⟨st', hst'⟩ := hstep
      simp only [dofSweepLoop, hst']
      rw [ih st']
      simp only [List.mem_cons]
      constructor
      · intro hall j hj
        rcases hj with hj | hj
        · exact hj ▸ hb
        · exact hall j hj
      · intro hall j hj
        exact hall j (Or.inr hj)
    · have hstep : dofSweepStep m nt ti st i = .error .oobTreeRead := by
        unfold dofSweepStep treeRead
        rw [if_neg hb]
      simp only [dofSweepLoop, hstep, Except.isOk, Except.toBool]
      constructor
      · intro hfalse; cases hfalse
      · intro hall
        exact absurd (hall i (List.mem_cons_self i rest)) hb

/-- C10: with `nefc > 0` the per-DoF sweep of `mj_island` reads
`tree_island[dof_treeid[i]]` for every `i < nv` with no guard for the
static-tree sentinel; the sweep's reads are all in bounds — for every
choice of the `tree_island` buffer contents — exactly when every
`dof_treeid[i]` lies in `[0, ntree)`.  In particular, under that
precondition the sweep cannot fault, and a DoF carrying the `-1` sentinel
would index out of bounds. -/
theorem c10_dof_sweep_inbounds (m : MjModel) (ti : Int → Int) :
    (dofSweepLoop m m.ntree ti (List.range m.nv) initThreadSt).isOk = true ↔
      ∀ i, i < m.nv → 0 ≤ m.dof_treeid i ∧ m.dof_treeid i < (m.ntree : Int) := by
  rw [dofSweepLoop_ok_iff]
  constructor
  · intro h i hi; exact h i (List.mem_range.mpr hi)
  · intro h i hi; exact h i (List.mem_range.mp hi)

theorem except_isOk_exists {ε α : Type _} (x : Except ε α) (h : x.isOk = true) :
    ∃ a, x = .ok a := by
  cases x with
  | error e => simp [Except.isOk, Except.toBool] at h
  | ok a => exact ⟨a, rfl⟩

theorem allocIsland_none_iff (oracle : Nat → Bool) :
    ∀ (l : List Nat) (k p : Nat),
      allocIsland oracle l k p = none ↔ ∃ j, j < l.length ∧ oracle (k + j) = false := by
  intro l
  induction l with
  | nil => intro k p; simp [allocIsland]
  | cons sz rest ih =>
    intro k p
    by_cases h : oracle k = true
    · simp only [allocIsland, if_pos h, ih]
      constructor
      · rintro ⟨j, hj, ho⟩
        exact ⟨j + 1, by simpa using hj, by rw [← ho]; ring_nf⟩
      · rintro ⟨j, hj, ho⟩
        match j with
        | 0 => rw [Nat.add_zero] at ho; rw [ho] at h; cases h
        | j' + 1 =>
          refine ⟨j', by simpa using hj, ?_⟩
          rw [← ho]; ring_nf
    · simp only [allocIsland, if_neg h]
      simp only [Bool.not_eq_true] at h
      exact iff_of_true (by simp) ⟨0, by simp, by simpa using h⟩

/-- C7: whenever an output-array allocation fails during `mj_island` (the
edge-collection phase itself succeeding), the function returns with every
island arena pointer NULL, `nefc = 0`, `nisland = 0`, the arena watermark
equal to its value at entry to the allocation phase (= the value at call
entry, since nothing before the phase touches the arena), and exactly one
constraint-buffer-full warning appended carrying the arena byte budget
`nstack * sizeof(mjtNum)`. -/
theorem c7_alloc_failure_rollback (m : MjModel) (c : MjCtx) (oracle : Nat → Bool)
    (h0 : ¬ c.d.nefc = 0)
    (hfe : (findEdges m c.d (countMaxEdge m c.d)).isOk = true)
    (hal : ∃ k, k < 6 ∧ oracle k = false) :
    ∃ c', mj_island m c oracle = .ok c' ∧
      c'.ptrs = noPtrs ∧ c'.d.nefc = 0 ∧ c'.nisland = 0 ∧
      c'.parena = c.parena ∧ c'.warnings = c.warnings ++ [8 * c.nstack] := by
  obtain ⟨fe, hfe'⟩ := except_isOk_exists _ hfe
  have hnone : allocIsland oracle
      (islandAllocSizes m.nv c.d.nefc
        (mj_floodFill m.ntree
          (scatterEdges (fun t => buildRowadr fe.1 t.toNat) fe.2 (fun _ => 0) (fun _ => 0)).1
          (fun t => buildRowadr fe.1 t.toNat)
          (scatterEdges (fun t => buildRowadr fe.1 t.toNat) fe.2 (fun _ => 0) (fun _ => 0)).2).2)
      0 c.parena = none := by
    rw [allocIsland_none_iff]
    obtain ⟨k, hk, ho⟩ := hal
    exact ⟨k, by simpa [islandAllocSizes] using hk, by simpa using ho⟩
  refine ⟨clearIsland { c with warnings := c.warnings ++ [8 * c.nstack] } c.parena, ?_, rfl, rfl, rfl, rfl, rfl⟩
  unfold mj_island
  rw [if_neg h0, hfe']
  simp only [hnone]

/-- Concrete context with one active constraint row, used for the C7
witness. -/
def ctxBusy : MjCtx :=
  { d := dOne
    nisland := -2
    parena := 13
    nstack := 3
    warnings := [11]
    ptrs := noPtrs }

/-- Witness for `c7_alloc_failure_rollback`: on `ctxBusy` with an oracle
that fails every allocation. -/
theorem c7_alloc_failure_rollback_witness :
    ∃ c', mj_island mOne ctxBusy (fun _ => false) = .ok c' ∧
      c'.ptrs = noPtrs ∧ c'.d.nefc = 0 ∧ c'.nisland = 0 ∧
      c'.parena = ctxBusy.parena ∧
      c'.warnings = ctxBusy.warnings ++ [8 * ctxBusy.nstack] :=
  c7_alloc_failure_rollback mOne ctxBusy (fun _ => false) (by decide) (by decide)
    ⟨0, by decide, rfl⟩

/-- C5 counterexample: in `mOne`/`dOne`, DoF 1 appears in no active
constraint row (the only row's Jacobian touches only DoF 0), yet after a
successful `mj_island` run its `dof_island` is `0`, not `-1` — the code
broadcasts the island of the DoF's kinematic tree, and DoF 1 shares tree 0
with the constrained DoF 0. -/
theorem c5_unconstrained_dof_counterexample :
    (∀ i, i < dOne.nefc → ¬ dofInRow mOne dOne i 1) ∧
    (mj_islandCore mOne dOne).toOption.map (fun o => o.dof_island 1) = some 0 := by
  constructor
  · decide
  · rfl

/-- Bundled CSR input of `mj_floodFill` (the four arguments
`nr, rownnz, rowadr, colind`). -/
structure FFGraph where
  nr : Nat
  rownnz : Int → Nat
  rowadr : Int → Nat
  colind : Nat → Int

/-- Row of a bundled graph. -/
def FFGraph.row (g : FFGraph) (v : Int) : List Int :=
  ffRow g.rownnz g.rowadr g.colind v

/-- Adjacency read by the flood fill: `w` occurs among the stored column
indices of row `v`, for `v` a genuine vertex. -/
def ffAdj (g : FFGraph) (v w : Int) : Prop :=
  0 ≤ v ∧ v < (g.nr : Int) ∧ w ∈ g.row v

/-- Connectivity: reflexive-transitive closure of the adjacency. -/
def ffConn (g : FFGraph) : Int → Int → Prop :=
  Relation.ReflTransGen (ffAdj g)

/-- Validity of a flood-fill input: all stored column indices are vertex
ids, and adjacency is symmetric at the level of membership (duplicate and
self entries are allowed). -/
def FFValid (g : FFGraph) : Prop :=
  (∀ v : Nat, v < g.nr → ∀ w ∈ g.row (v : Int), 0 ≤ w ∧ w < (g.nr : Int)) ∧
  (∀ v : Nat, v < g.nr → ∀ w ∈ g.row (v : Int), (v : Int) ∈ g.row w)

instance (g : FFGraph) : Decidable (FFValid g) := by
  unfold FFValid
  infer_instance

/-- Result of `mj_floodFill` on a bundled graph. -/
def ffFill (g : FFGraph) : (Int → Int) × Nat :=
  mj_floodFill g.nr g.rownnz g.rowadr g.colind

theorem ffValid_adj_range {g : FFGraph} (hv : FFValid g) {v w : Int} (h : ffAdj g v w) :
    0 ≤ w ∧ w < (g.nr : Int) := by
  obtain ⟨h0, h1, h2⟩ := h
  have hvn : v.toNat < g.nr := by omega
  have hcast : ((v.toNat : Int)) = v := Int.toNat_of_nonneg h0
  exact hv.1 v.toNat hvn w (by rw [hcast]; exact h2)

theorem ffValid_adj_symm {g : FFGraph} (hv : FFValid g) {v w : Int} (h : ffAdj g v w) :
    ffAdj g w v := by
  obtain ⟨hw0, hw1⟩ := ffValid_adj_range hv h
  obtain ⟨h0, h1, h2⟩ := h
  have hvn : v.toNat < g.nr := by omega
  have hcast : ((v.toNat : Int)) = v := Int.toNat_of_nonneg h0
  refine ⟨hw0, hw1, ?_⟩
  have := hv.2 v.toNat hvn w (by rw [hcast]; exact h2)
  rwa [hcast] at this

theorem ffConn_symm {g : FFGraph} (hv : FFValid g) {a b : Int} (h : ffConn g a b) :
    ffConn g b a := by
  induction h with
  | refl => exact Relation.ReflTransGen.refl
  | tail _ hstep ih =>
    exact Relation.ReflTransGen.trans
      (Relation.ReflTransGen.single (ffValid_adj_symm hv hstep)) ih

/-- A vertex reached from somewhere else along a valid symmetric graph has
a nonempty row. -/
theorem ffConn_ne_rownnz {g : FFGraph} (hv : FFValid g) {a b : Int} (h : ffConn g a b)
    (hne : a ≠ b) : g.rownnz b ≠ 0 := by
  rcases (Relation.reflTransGen_iff_eq_or_transGen.mp h) with heq | ht
  · exact absurd heq.symm hne
  · obtain ⟨w, _, hstep⟩ := Relation.TransGen.tail'_iff.mp ht
    have hadj : ffAdj g b w := ffValid_adj_symm hv hstep
    obtain ⟨_, _, hmem⟩ := hadj
    intro hz
    rw [FFGraph.row, ffRow, hz] at hmem
    simp at hmem

/-- Potential of a DFS state: stack length plus, for every unassigned
vertex, its row length plus one.  Strictly decreases at every `ffDFS`
step. -/
def ffPhi (g : FFGraph) (island : Int → Int) (stack : List Int) : Nat :=
  stack.length +
    ∑ v ∈ Finset.range g.nr, (if island (v : Int) = -1 then g.rownnz (v : Int) + 1 else 0)

theorem ffPhi_update (g : FFGraph) (island : Int → Int) (v : Int) (c : Int)
    (h0 : 0 ≤ v) (h1 : v < (g.nr : Int)) (hv : island v = -1) (hc : c ≠ -1) :
    (∑ x ∈ Finset.range g.nr,
        (if Function.update island v c (x : Int) = -1 then g.rownnz (x : Int) + 1 else 0))
      + (g.rownnz v + 1)
    = ∑ x ∈ Finset.range g.nr, (if island (x : Int) = -1 then g.rownnz (x : Int) + 1 else 0) := by
  have ha : v.toNat ∈ Finset.range g.nr := Finset.mem_range.mpr (by omega)
  have hcast : ((v.toNat : Int)) = v := Int.toNat_of_nonneg h0
  have e1 := Finset.sum_erase_add (Finset.range g.nr)
    (fun x : Nat => (if Function.update island v c (x : Int) = -1 then g.rownnz (x : Int) + 1 else 0)) ha
  have e2 := Finset.sum_erase_add (Finset.range g.nr)
    (fun x : Nat => (if island (x : Int) = -1 then g.rownnz (x : Int) + 1 else 0)) ha
  simp only at e1 e2
  have hterm1 : (if Function.update island v c ((v.toNat : Int)) = -1
      then g.rownnz ((v.toNat : Int)) + 1 else 0) = 0 := by
    rw [hcast, Function.update_same]
    simp [hc]
  have hterm2 : (if island ((v.toNat : Int)) = -1
      then g.rownnz ((v.toNat : Int)) + 1 else 0) = g.rownnz v + 1 := by
    rw [hcast, if_pos hv]
  rw [hterm1] at e1
  rw [hterm2] at e2
  have hsides : ∀ x ∈ (Finset.range g.nr).erase v.toNat,
      (if Function.update island v c (x : Int) = -1 then g.rownnz (x : Int) + 1 else 0)
      = (if island (x : Int) = -1 then g.rownnz (x : Int) + 1 else 0) := by
    intro x hx
    have hxne : x ≠ v.toNat := (Finset.mem_erase.mp hx).1
    have hxi : (x : Int) ≠ v := by omega
    rw [Function.update_noteq hxi]
  have hcongr := Finset.sum_congr rfl hsides
  omega

/-- Invariant induction for one DFS call of the flood fill rooted at `r`
with id `c`: with fuel dominating the potential, the run (1) only turns
unassigned vertices of `r`'s component into `c`, (2) leaves the `c`-set
adjacency-closed, and (3) assigns `r`. -/
theorem ffDFS_go (g : FFGraph) (hval : FFValid g) (c : Int) (hc : c ≠ -1)
    (island0 : Int → Int) (r : Int) (hr0 : island0 r = -1) :
    ∀ (fuel : Nat) (island : Int → Int) (stack : List Int),
      ffPhi g island stack ≤ fuel →
      (∀ v, island v = island0 v ∨ (island v = c ∧ island0 v = -1 ∧ ffConn g r v)) →
      (∀ v ∈ stack, (0 ≤ v ∧ v < (g.nr : Int)) ∧ ffConn g r v) →
      (∀ v w, island v = c → ffAdj g v w → island w ≠ -1 ∨ w ∈ stack) →
      (island r = c ∨ r ∈ stack) →
      (∀ v, ffDFS g.rownnz g.rowadr g.colind c fuel island stack v = island v ∨
        (ffDFS g.rownnz g.rowadr g.colind c fuel island stack v = c ∧ island v = -1 ∧
          ffConn g r v)) ∧
      (∀ v w, ffDFS g.rownnz g.rowadr g.colind c fuel island stack v = c → ffAdj g v w →
        ffDFS g.rownnz g.rowadr g.colind c fuel island stack w ≠ -1) ∧
      ffDFS g.rownnz g.rowadr g.colind c fuel island stack r = c := by
  intro fuel
  induction fuel with
  | zero =>
    intro island stack hphi hI1 hI2 hI3 hI4
    have hstack : stack = [] := by
      cases stack with
      | nil => rfl
      | cons a l => exfalso; simp [ffPhi] at hphi
    subst hstack
    simp only [ffDFS]
    refine ⟨fun v => Or.inl (by simp), ?_, ?_⟩
    · intro v w hvc hadj
      rcases hI3 v w hvc hadj with h | h
      · exact h
      · simp at h
    · rcases hI4 with h | h
      · exact h
      · simp at h
  | succ fuel ih =>
    intro island stack hphi hI1 hI2 hI3 hI4
    cases stack with
    | nil =>
      simp only [ffDFS]
      refine ⟨fun v => Or.inl (by simp), ?_, ?_⟩
      · intro v w hvc hadj
        rcases hI3 v w hvc hadj with h | h
        · exact h
        · simp at h
      · rcases hI4 with h | h
        · exact h
        · simp at h
    | cons v st =>
      by_cases hva : island v = -1
      · -- pop an unassigned vertex: assign it and push its row
        have hred : ffDFS g.rownnz g.rowadr g.colind c (fuel + 1) island (v :: st)
            = ffDFS g.rownnz g.rowadr g.colind c fuel (Function.update island v c)
                ((ffRow g.rownnz g.rowadr g.colind v).reverse ++ st) := by
          simp only [ffDFS]
          rw [if_neg (not_not_intro hva)]
        obtain ⟨⟨hv0, hv1⟩, hvconn⟩ := hI2 v (List.mem_cons_self v st)
        have hisl0v : island0 v = -1 := by
          rcases hI1 v with h | h
          · rw [← h]; exact hva
          · exact absurd (h.1.symm.trans hva) hc
        have hstep := ih (Function.update island v c)
          ((ffRow g.rownnz g.rowadr g.colind v).reverse ++ st)
          (by
            have hupd := ffPhi_update g island v c hv0 hv1 hva hc
            simp only [ffPhi, List.length_append, List.length_reverse, List.length_cons]
              at hphi ⊢
            have hrowlen : (ffRow g.rownnz g.rowadr g.colind v).length = g.rownnz v := by
              simp [ffRow]
            omega)
          (by
            intro x
            by_cases hx : x = v
            · subst hx
              right
              rw [Function.update_same]
              exact ⟨rfl, hisl0v, hvconn⟩
            · rw [Function.update_noteq hx]
              exact hI1 x)
          (by
            intro w hw
            rcases List.mem_append.mp hw with hw | hw
            · have hwrow : w ∈ g.row v := List.mem_reverse.mp hw
              have hadj : ffAdj g v w := ⟨hv0, hv1, hwrow⟩
              exact ⟨ffValid_adj_range hval hadj, hvconn.tail hadj⟩
            · exact hI2 w (List.mem_cons_of_mem v hw))
          (by
            intro x w hxc hadj
            by_cases hx : x = v
            · subst hx
              right
              exact List.mem_append.mpr (Or.inl (List.mem_reverse.mpr hadj.2.2))
            · rw [Function.update_noteq hx] at hxc
              rcases hI3 x w hxc hadj with h | h
              · left
                by_cases hwv : w = v
                · subst hwv; rw [Function.update_same]; exact fun he => hc he
                · rwa [Function.update_noteq hwv]
              · rcases List.mem_cons.mp h with he | he
                · left; rw [he, Function.update_same]; exact fun hcon => hc hcon
                · right; exact List.mem_append.mpr (Or.inr he))
          (by
            by_cases hr : r = v
            · left; rw [hr, Function.update_same]
            · rcases hI4 with h | h
              · left; rwa [Function.update_noteq hr]
              · rcases List.mem_cons.mp h with he | he
                · exact absurd he hr
                · right; exact List.mem_append.mpr (Or.inr he))
        obtain ⟨hP1, hP2, hP3⟩ := hstep
        rw [hred]
        refine ⟨?_, hP2, hP3⟩
        intro x
        rcases hP1 x with h | h
        · by_cases hx : x = v
          · subst hx
            rw [Function.update_same] at h
            right
            exact ⟨h, hva, hvconn⟩
          · rw [Function.update_noteq hx] at h
            exact Or.inl h
        · by_cases hx : x = v
          · subst hx
            rw [Function.update_same] at h
            exact absurd h.2.1 hc
          · rw [Function.update_noteq hx] at h
            exact Or.inr h
      · -- pop an already assigned vertex: skip it
        have hred : ffDFS g.rownnz g.rowadr g.colind c (fuel + 1) island (v :: st)
            = ffDFS g.rownnz g.rowadr g.colind c fuel island st := by
          simp only [ffDFS]
          rw [if_pos hva]
        rw [hred]
        refine ih island st ?_ hI1 ?_ ?_ ?_
        · simp only [ffPhi, List.length_cons] at hphi ⊢
          omega
        · exact fun w hw => hI2 w (List.mem_cons_of_mem v hw)
        · intro x w hxc hadj
          rcases hI3 x w hxc hadj with h | h
          · exact Or.inl h
          · rcases List.mem_cons.mp h with he | he
            · exact Or.inl (he ▸ hva)
            · exact Or.inr he
        · rcases hI4 with h | h
          · exact Or.inl h
          · rcases List.mem_cons.mp h with he | he
            · subst he
              rcases hI1 r with h1 | h1
              · exact absurd (h1.trans hr0) hva
              · exact Or.inl h1.1
            · exact Or.inr he

/-- Propagation of assignedness along connectivity when the assigned set
is adjacency-closed. -/
theorem ffConn_assigned (g : FFGraph) (island0 : Int → Int)
    (hcl : ∀ v w, island0 v ≠ -1 → ffAdj g v w → island0 w ≠ -1)
    {a b : Int} (h : ffConn g a b) (ha : island0 a ≠ -1) : island0 b ≠ -1 := by
  induction h with
  | refl => exact ha
  | tail hseg hstep ih => exact hcl _ _ ih hstep

/-- Characterization of one DFS call as issued by the outer loop: with a
fresh id `c`, an unassigned root, and an adjacency-closed preexisting
assignment, the run assigns `c` to exactly the (entirely unassigned)
component of the root and touches nothing else. -/
theorem ffDFS_call (g : FFGraph) (hval : FFValid g) (c : Int) (hc : c ≠ -1)
    (island0 : Int → Int) (r : Int)
    (hr0 : island0 r = -1) (hrr : 0 ≤ r ∧ r < (g.nr : Int))
    (hcl : ∀ v w, island0 v ≠ -1 → ffAdj g v w → island0 w ≠ -1)
    (hne : ∀ v, island0 v ≠ c)
    (fuel : Nat) (hfuel : ffPhi g island0 [r] ≤ fuel) :
    ∀ v,
      (island0 v = -1 ∧ ffConn g r v →
        ffDFS g.rownnz g.rowadr g.colind c fuel island0 [r] v = c) ∧
      (¬ (island0 v = -1 ∧ ffConn g r v) →
        ffDFS g.rownnz g.rowadr g.colind c fuel island0 [r] v = island0 v) := by
  obtain ⟨hP1, hP2, hP3⟩ := ffDFS_go g hval c hc island0 r hr0 fuel island0 [r]
    hfuel (fun v => Or.inl rfl)
    (fun v hv => by
      have hv' : v = r := List.mem_singleton.mp hv
      subst hv'
      exact ⟨hrr, Relation.ReflTransGen.refl⟩)
    (fun v w hvc _ => absurd hvc (hne v))
    (Or.inr (List.mem_singleton.mpr rfl))
  have hconn_unassigned : ∀ v, ffConn g r v → island0 v = -1 := by
    intro v hconn
    by_contra hne'
    exact ffConn_assigned g island0 hcl (ffConn_symm hval hconn) hne' hr0
  have hreach : ∀ v, ffConn g r v →
      ffDFS g.rownnz g.rowadr g.colind c fuel island0 [r] v = c := by
    intro v hconn
    induction hconn with
    | refl => exact hP3
    | tail hseg hstep ih =>
      have hy := hP2 _ _ ih hstep
      rcases hP1 _ with h | h
      · exact absurd (h.trans (hconn_unassigned _ (hseg.tail hstep))) hy
      · exact h.1
  intro v
  refine ⟨fun hcase => hreach v hcase.2, fun hcase => ?_⟩
  rcases hP1 v with h | h
  · exact h
  · exact absurd ⟨h.2.1, h.2.2⟩ hcase

/-- Fuel estimate: the potential of any DFS start state is at most
`ffFuel`. -/
theorem ffPhi_le_ffFuel (g : FFGraph) (island : Int → Int) (r : Int) :
    ffPhi g island [r] ≤ ffFuel g.nr g.rownnz := by
  simp only [ffPhi, ffFuel, List.length_cons, List.length_nil]
  have h1 : (∑ v ∈ Finset.range g.nr, (if island (v : Int) = -1 then g.rownnz (v : Int) + 1 else 0))
      ≤ ∑ v ∈ Finset.range g.nr, (g.rownnz (v : Int) + 1) :=
    Finset.sum_le_sum (fun i _ => by split <;> omega)
  have h2 : (∑ v ∈ Finset.range g.nr, (g.rownnz (v : Int) + 1))
      = (∑ v ∈ Finset.range g.nr, g.rownnz (v : Int)) + g.nr := by
    rw [Finset.sum_add_distrib, Finset.sum_const, Finset.card_range, smul_eq_mul, mul_one]
  omega

/-- Outer-loop invariant of the flood fill after examining the first `i`
vertices: (O1) a vertex is assigned iff it is connected to an already
examined vertex with a nonempty row; (O2) assignment is constant on
components; (O3) assigned ids lie in `[0, nisland)`; (O4) vertices with
the same assigned id are connected. -/
theorem ffOuter_inv (g : FFGraph) (hval : FFValid g) :
    ∀ i : Nat, i ≤ g.nr →
      (∀ v, (ffOuter g.rownnz g.rowadr g.colind (ffFuel g.nr g.rownnz) i).1 v ≠ -1 ↔
        ∃ u : Nat, u < i ∧ g.rownnz (u : Int) ≠ 0 ∧ ffConn g (u : Int) v) ∧
      (∀ v w, (ffOuter g.rownnz g.rowadr g.colind (ffFuel g.nr g.rownnz) i).1 v ≠ -1 →
        ffConn g v w →
        (ffOuter g.rownnz g.rowadr g.colind (ffFuel g.nr g.rownnz) i).1 w
          = (ffOuter g.rownnz g.rowadr g.colind (ffFuel g.nr g.rownnz) i).1 v) ∧
      (∀ v, (ffOuter g.rownnz g.rowadr g.colind (ffFuel g.nr g.rownnz) i).1 v ≠ -1 →
        0 ≤ (ffOuter g.rownnz g.rowadr g.colind (ffFuel g.nr g.rownnz) i).1 v ∧
        (ffOuter g.rownnz g.rowadr g.colind (ffFuel g.nr g.rownnz) i).1 v
          < ((ffOuter g.rownnz g.rowadr g.colind (ffFuel g.nr g.rownnz) i).2 : Int)) ∧
      (∀ v w, (ffOuter g.rownnz g.rowadr g.colind (ffFuel g.nr g.rownnz) i).1 v
          = (ffOuter g.rownnz g.rowadr g.colind (ffFuel g.nr g.rownnz) i).1 w →
        (ffOuter g.rownnz g.rowadr g.colind (ffFuel g.nr g.rownnz) i).1 v ≠ -1 →
        ffConn g v w) := by
  intro i
  induction i with
  | zero =>
    intro _
    refine ⟨fun v => ?_, fun v w hv _ => absurd rfl hv, fun v hv => absurd rfl hv,
      fun v w _ hv => absurd rfl hv⟩
    simp [ffOuter]
  | succ i ih =>
    intro hle
    have hlt : i < g.nr := by omega
    obtain ⟨O1, O2, O3, O4⟩ := ih (by omega)
    set st := ffOuter g.rownnz g.rowadr g.colind (ffFuel g.nr g.rownnz) i with hst
    have hunf : ffOuter g.rownnz g.rowadr g.colind (ffFuel g.nr g.rownnz) (i + 1)
        = if st.1 (i : Int) ≠ -1 ∨ g.rownnz (i : Int) = 0 then st
          else (ffDFS g.rownnz g.rowadr g.colind (st.2 : Int) (ffFuel g.nr g.rownnz) st.1
            [(i : Int)], st.2 + 1) := by
      simp only [ffOuter, hst]
    by_cases hskip : st.1 (i : Int) ≠ -1 ∨ g.rownnz (i : Int) = 0
    · rw [hunf, if_pos hskip]
      refine ⟨fun v => ?_, O2, O3, O4⟩
      constructor
      · intro hv
        obtain ⟨u, hu1, hu2, hu3⟩ := (O1 v).mp hv
        exact ⟨u, by omega, hu2, hu3⟩
      · rintro ⟨u, hu1, hu2, hu3⟩
        rcases Nat.lt_succ_iff_lt_or_eq.mp hu1 with hu | hu
        · exact (O1 v).mpr ⟨u, hu, hu2, hu3⟩
        · subst hu
          have hi : st.1 (u : Int) ≠ -1 := by
            rcases hskip with h | h
            · exact h
            · exact absurd h hu2
          rw [O2 (u : Int) v hi hu3]
          exact hi
    · push_neg at hskip
      obtain ⟨hia, hinz⟩ := hskip
      have hcall := ffDFS_call g hval (st.2 : Int) (by omega) st.1 (i : Int) hia
        ⟨by omega, by omega⟩
        (fun v w hv hadj => by
          rw [O2 v w hv (Relation.ReflTransGen.single hadj)]; exact hv)
        (fun v => by
          by_cases hv : st.1 v = -1
          · rw [hv]; omega
          · have := (O3 v hv).2; omega)
        (ffFuel g.nr g.rownnz) (ffPhi_le_ffFuel g st.1 (i : Int))
      rw [hunf, if_neg (by push_neg; exact ⟨hia, hinz⟩)]
      set res := ffDFS g.rownnz g.rowadr g.colind (st.2 : Int) (ffFuel g.nr g.rownnz) st.1
        [(i : Int)] with hres
      dsimp only
      have hres_ne : ∀ v, st.1 v ≠ -1 → res v = st.1 v := by
        intro v hv
        exact (hcall v).2 (fun hcon => hv hcon.1)
      have hres_cases : ∀ v, res v = st.1 v ∨
          (res v = (st.2 : Int) ∧ st.1 v = -1 ∧ ffConn g (i : Int) v) := by
        intro v
        by_cases hcon : st.1 v = -1 ∧ ffConn g (i : Int) v
        · exact Or.inr ⟨(hcall v).1 hcon, hcon.1, hcon.2⟩
        · exact Or.inl ((hcall v).2 hcon)
      refine ⟨fun v => ?_, fun v w hv hconn => ?_, fun v hv => ?_, fun v w heq hv => ?_⟩
      · constructor
        · intro hv
          rcases hres_cases v with h | h
          · obtain ⟨u, hu1, hu2, hu3⟩ := (O1 v).mp (by rw [← h]; exact hv)
            exact ⟨u, by omega, hu2, hu3⟩
          · exact ⟨i, by omega, hinz, h.2.2⟩
        · rintro ⟨u, hu1, hu2, hu3⟩
          rcases Nat.lt_succ_iff_lt_or_eq.mp hu1 with hu | hu
          · have hold : st.1 v ≠ -1 := (O1 v).mpr ⟨u, hu, hu2, hu3⟩
            rw [hres_ne v hold]; exact hold
          · subst hu
            by_cases hfv : st.1 v = -1
            · have : res v = (st.2 : Int) := (hcall v).1 ⟨hfv, hu3⟩
              rw [this]; omega
            · rw [hres_ne v hfv]; exact hfv
      · rcases hres_cases v with h | h
        · have hold : st.1 v ≠ -1 := by rw [← h]; exact hv
          have := O2 v w hold hconn
          rw [hres_ne w (by rw [this]; exact hold), this, h]
        · obtain ⟨hv2, hv3, hv4⟩ := h
          by_cases hfw : st.1 w = -1
          · have : res w = (st.2 : Int) := (hcall w).1 ⟨hfw, hv4.trans hconn⟩
            rw [this, hv2]
          · exfalso
            have heq2 := O2 w v hfw (ffConn_symm hval hconn)
            exact hfw (heq2.symm.trans hv3)
      · rcases hres_cases v with h | h
        · have hold : st.1 v ≠ -1 := by rw [← h]; exact hv
          have := O3 v hold
          rw [h]
          constructor
          · exact this.1
          · have : st.1 v < (st.2 : Int) := this.2
            push_cast
            omega
        · rw [h.1]
          constructor
          · omega
          · push_cast
            omega
      · rcases hres_cases v with h1 | h1 <;> rcases hres_cases w with h2 | h2
        · have holdv : st.1 v ≠ -1 := by rw [← h1]; exact hv
          exact O4 v w (by rw [← h1, ← h2]; exact heq) holdv
        · exfalso
          have holdv : st.1 v ≠ -1 := by rw [← h1]; exact hv
          have := (O3 v holdv).2
          rw [h1] at heq
          rw [heq, h2.1] at this
          exact absurd this (by omega)
        · exfalso
          have hwne : res w ≠ -1 := by rw [← heq]; exact hv
          have holdw : st.1 w ≠ -1 := by rw [← h2]; exact hwne
          have := (O3 w holdw).2
          rw [h2] at heq
          rw [← heq, h1.1] at this
          exact absurd this (by omega)
        · exact Relation.ReflTransGen.trans (ffConn_symm hval h1.2.2) h2.2.2

/-- Final characterization of `mj_floodFill` on a valid symmetric input,
at the `Int` level: isolated vertices get `-1`, non-isolated vertices get
ids in `[0, k)`, and two non-isolated vertices get the same id exactly
when they are connected. -/
theorem ffFill_spec (g : FFGraph) (hval : FFValid g) :
    (∀ v : Int, 0 ≤ v → v < (g.nr : Int) →
      ((ffFill g).1 v = -1 ↔ g.rownnz v = 0)) ∧
    (∀ v : Int, (ffFill g).1 v ≠ -1 →
      0 ≤ (ffFill g).1 v ∧ (ffFill g).1 v < ((ffFill g).2 : Int)) ∧
    (∀ v w : Int, 0 ≤ v → v < (g.nr : Int) → 0 ≤ w → w < (g.nr : Int) →
      g.rownnz v ≠ 0 → g.rownnz w ≠ 0 →
      ((ffFill g).1 v = (ffFill g).1 w ↔ ffConn g v w)) := by
  obtain ⟨O1, O2, O3, O4⟩ := ffOuter_inv g hval g.nr (Nat.le_refl _)
  have hfill : ffFill g = ffOuter g.rownnz g.rowadr g.colind (ffFuel g.nr g.rownnz) g.nr := rfl
  rw [hfill]
  have hnz_ne : ∀ v : Int, 0 ≤ v → v < (g.nr : Int) → g.rownnz v ≠ 0 →
      (ffOuter g.rownnz g.rowadr g.colind (ffFuel g.nr g.rownnz) g.nr).1 v ≠ -1 := by
    intro v h0 h1 hnz
    refine (O1 v).mpr ⟨v.toNat, by omega, ?_, ?_⟩
    · rwa [Int.toNat_of_nonneg h0]
    · rw [Int.toNat_of_nonneg h0]
      exact Relation.ReflTransGen.refl
  have hne_nz : ∀ v : Int, 0 ≤ v → v < (g.nr : Int) →
      (ffOuter g.rownnz g.rowadr g.colind (ffFuel g.nr g.rownnz) g.nr).1 v ≠ -1 →
      g.rownnz v ≠ 0 := by
    intro v h0 h1 hne
    obtain ⟨u, hu1, hu2, hu3⟩ := (O1 v).mp hne
    by_cases huv : (u : Int) = v
    · rwa [huv] at hu2
    · exact ffConn_ne_rownnz hval hu3 huv
  refine ⟨fun v h0 h1 => ?_, O3, fun v w hv0 hv1 hw0 hw1 hvnz hwnz => ?_⟩
  · constructor
    · intro heq
      by_contra hnz
      exact hnz_ne v h0 h1 hnz heq
    · intro hz
      by_contra hne
      exact hne_nz v h0 h1 hne hz
  · constructor
    · intro heq
      exact O4 v w heq (hnz_ne v hv0 hv1 hvnz)
    · intro hconn
      exact (O2 v w (hnz_ne v hv0 hv1 hvnz) hconn).symm

/-- Dropping self-steps does not change a reflexive-transitive closure. -/
theorem reflTransGen_nonself {α : Type _} (r : α → α → Prop) (a b : α) :
    Relation.ReflTransGen r a b ↔
      Relation.ReflTransGen (fun x y => r x y ∧ x ≠ y) a b := by
  constructor
  · intro h
    induction h with
    | refl => exact Relation.ReflTransGen.refl
    | tail hseg hstep ih =>
      rename_i x y
      by_cases he : x = y
      · rwa [← he]
      · exact ih.tail ⟨hstep, he⟩
  · intro h
    induction h with
    | refl => exact Relation.ReflTransGen.refl
    | tail hseg hstep ih => exact ih.tail hstep.1

/-- Two valid inputs with the same vertex count, the same isolation
pattern, and the same non-self neighbor sets have the same connectivity
relation. -/
theorem ffConn_congr (g g' : FFGraph) (hnr : g.nr = g'.nr)
    (hns : ∀ v : Nat, v < g.nr → ∀ w : Int, w ≠ (v : Int) →
      (w ∈ g.row (v : Int) ↔ w ∈ g'.row (v : Int))) :
    ∀ a b : Int, ffConn g a b ↔ ffConn g' a b := by
  have hadj : ∀ x y : Int, (ffAdj g x y ∧ x ≠ y) ↔ (ffAdj g' x y ∧ x ≠ y) := by
    intro x y
    constructor
    · rintro ⟨⟨h0, h1, h2⟩, hne⟩
      have hx : x.toNat < g.nr := by omega
      have hcast : ((x.toNat : Int)) = x := Int.toNat_of_nonneg h0
      refine ⟨⟨h0, by omega, ?_⟩, hne⟩
      have := (hns x.toNat hx y (by rw [hcast]; exact fun he => hne he.symm)).mp
        (by rw [hcast]; exact h2)
      rwa [hcast] at this
    · rintro ⟨⟨h0, h1, h2⟩, hne⟩
      have hx : x.toNat < g.nr := by omega
      have hcast : ((x.toNat : Int)) = x := Int.toNat_of_nonneg h0
      refine ⟨⟨h0, by omega, ?_⟩, hne⟩
      have := (hns x.toNat hx y (by rw [hcast]; exact fun he => hne he.symm)).mpr
        (by rw [hcast]; exact h2)
      rwa [hcast] at this
  intro a b
  rw [ffConn, ffConn, reflTransGen_nonself (ffAdj g), reflTransGen_nonself (ffAdj g')]
  constructor
  · intro h
    induction h with
    | refl => exact Relation.ReflTransGen.refl
    | tail hseg hstep ih => exact ih.tail ((hadj _ _).mp hstep)
  · intro h
    induction h with
    | refl => exact Relation.ReflTransGen.refl
    | tail hseg hstep ih => exact ih.tail ((hadj _ _).mpr hstep)

/-- Lockstep run: the flood fill depends only on the vertex count, the
isolation pattern, and the non-self neighbor sets, so duplicate column
indices and self-loops that preserve those do not alter its result. -/
theorem ffOuter_congr (g g' : FFGraph) (hval : FFValid g) (hval' : FFValid g')
    (hnr : g.nr = g'.nr)
    (hiso : ∀ v : Nat, v < g.nr → (g.rownnz (v : Int) = 0 ↔ g'.rownnz (v : Int) = 0))
    (hns : ∀ v : Nat, v < g.nr → ∀ w : Int, w ≠ (v : Int) →
      (w ∈ g.row (v : Int) ↔ w ∈ g'.row (v : Int))) :
    ∀ i, i ≤ g.nr →
      (∀ x, (ffOuter g.rownnz g.rowadr g.colind (ffFuel g.nr g.rownnz) i).1 x
        = (ffOuter g'.rownnz g'.rowadr g'.colind (ffFuel g'.nr g'.rownnz) i).1 x) ∧
      (ffOuter g.rownnz g.rowadr g.colind (ffFuel g.nr g.rownnz) i).2
        = (ffOuter g'.rownnz g'.rowadr g'.colind (ffFuel g'.nr g'.rownnz) i).2 := by
  have hconn := ffConn_congr g g' hnr hns
  intro i
  induction i with
  | zero => intro _; exact ⟨fun x => rfl, rfl⟩
  | succ i ih =>
    intro hle
    obtain ⟨hisl, hk⟩ := ih (by omega)
    obtain ⟨O1, O2, O3, O4⟩ := ffOuter_inv g hval i (by omega)
    obtain ⟨O1', O2', O3', O4'⟩ := ffOuter_inv g' hval' i (by omega)
    set st := ffOuter g.rownnz g.rowadr g.colind (ffFuel g.nr g.rownnz) i with hst
    set st' := ffOuter g'.rownnz g'.rowadr g'.colind (ffFuel g'.nr g'.rownnz) i with hst'
    have hunf : ffOuter g.rownnz g.rowadr g.colind (ffFuel g.nr g.rownnz) (i + 1)
        = if st.1 (i : Int) ≠ -1 ∨ g.rownnz (i : Int) = 0 then st
          else (ffDFS g.rownnz g.rowadr g.colind (st.2 : Int) (ffFuel g.nr g.rownnz) st.1
            [(i : Int)], st.2 + 1) := by
      simp only [ffOuter, hst]
    have hunf' : ffOuter g'.rownnz g'.rowadr g'.colind (ffFuel g'.nr g'.rownnz) (i + 1)
        = if st'.1 (i : Int) ≠ -1 ∨ g'.rownnz (i : Int) = 0 then st'
          else (ffDFS g'.rownnz g'.rowadr g'.colind (st'.2 : Int) (ffFuel g'.nr g'.rownnz) st'.1
            [(i : Int)], st'.2 + 1) := by
      simp only [ffOuter, hst']
    have hcond : (st.1 (i : Int) ≠ -1 ∨ g.rownnz (i : Int) = 0) ↔
        (st'.1 (i : Int) ≠ -1 ∨ g'.rownnz (i : Int) = 0) := by
      rw [hisl (i : Int)]
      exact or_congr Iff.rfl (hiso i (by omega))
    by_cases hskip : st.1 (i : Int) ≠ -1 ∨ g.rownnz (i : Int) = 0
    · rw [hunf, hunf', if_pos hskip, if_pos (hcond.mp hskip)]
      exact ⟨hisl, hk⟩
    · have hskip' : ¬ (st'.1 (i : Int) ≠ -1 ∨ g'.rownnz (i : Int) = 0) :=
        fun h => hskip (hcond.mpr h)
      rw [hunf, hunf', if_neg hskip, if_neg hskip']
      push_neg at hskip hskip'
      obtain ⟨hia, hinz⟩ := hskip
      obtain ⟨hia', hinz'⟩ := hskip'
      have hcall := ffDFS_call g hval (st.2 : Int) (by omega) st.1 (i : Int) hia
        ⟨by omega, by omega⟩
        (fun v w hv hadj => by
          rw [O2 v w hv (Relation.ReflTransGen.single hadj)]; exact hv)
        (fun v => by
          by_cases hv : st.1 v = -1
          · rw [hv]; omega
          · have := (O3 v hv).2; omega)
        (ffFuel g.nr g.rownnz) (ffPhi_le_ffFuel g st.1 (i : Int))
      have hcall' := ffDFS_call g' hval' (st'.2 : Int) (by omega) st'.1 (i : Int) hia'
        ⟨by omega, by omega⟩
        (fun v w hv hadj => by
          rw [O2' v w hv (Relation.ReflTransGen.single hadj)]; exact hv)
        (fun v => by
          by_cases hv : st'.1 v = -1
          · rw [hv]; omega
          · have := (O3' v hv).2; omega)
        (ffFuel g'.nr g'.rownnz) (ffPhi_le_ffFuel g' st'.1 (i : Int))
      refine ⟨fun x => ?_, ?_⟩
      · dsimp only
        by_cases hcx : st.1 x = -1 ∧ ffConn g (i : Int) x
        · rw [(hcall x).1 hcx,
            (hcall' x).1 ⟨by rw [← hisl x]; exact hcx.1, (hconn _ _).mp hcx.2⟩, hk]
        · have hcx' : ¬ (st'.1 x = -1 ∧ ffConn g' (i : Int) x) :=
            fun h => hcx ⟨by rw [hisl x]; exact h.1, (hconn _ _).mpr h.2⟩
          rw [(hcall x).2 hcx, (hcall' x).2 hcx', hisl x]
      · dsimp only
        rw [hk]

/-- C3: for every valid symmetric sparse adjacency input `(nr, rownnz,
rowadr, colind)`, `mj_floodFill` assigns `-1` exactly to the vertices with
`rownnz = 0`, assigns ids in `[0, k)` to all other vertices where `k` is
the returned count, gives two non-isolated vertices the same id iff they
are in the same connected component, and its result is unchanged by
duplicate column indices and self-loops in `colind`: any second valid
input with the same vertex count, the same isolation pattern and the same
non-self neighbor sets (e.g. the same rows with duplicates and self-loops
added) produces the identical assignment and count.  The C scratch stack
argument is modeled by an unbounded list, so the claim's stack-length
premise is vacuous here. -/
theorem c3_floodFill_spec (g g' : FFGraph) (hval : FFValid g) (hval' : FFValid g')
    (hnr : g.nr = g'.nr)
    (hiso : ∀ v : Nat, v < g.nr → (g.rownnz (v : Int) = 0 ↔ g'.rownnz (v : Int) = 0))
    (hns1 : ∀ v : Nat, v < g.nr → ∀ w ∈ g.row (v : Int), w ≠ (v : Int) → w ∈ g'.row (v : Int))
    (hns2 : ∀ v : Nat, v < g.nr → ∀ w ∈ g'.row (v : Int), w ≠ (v : Int) → w ∈ g.row (v : Int)) :
    (∀ v : Nat, v < g.nr →
      ((mj_floodFill g.nr g.rownnz g.rowadr g.colind).1 (v : Int) = -1 ↔
        g.rownnz (v : Int) = 0)) ∧
    (∀ v : Nat, v < g.nr → g.rownnz (v : Int) ≠ 0 →
      0 ≤ (mj_floodFill g.nr g.rownnz g.rowadr g.colind).1 (v : Int) ∧
      (mj_floodFill g.nr g.rownnz g.rowadr g.colind).1 (v : Int)
        < ((mj_floodFill g.nr g.rownnz g.rowadr g.colind).2 : Int)) ∧
    (∀ v w : Nat, v < g.nr → w < g.nr →
      g.rownnz (v : Int) ≠ 0 → g.rownnz (w : Int) ≠ 0 →
      ((mj_floodFill g.nr g.rownnz g.rowadr g.colind).1 (v : Int)
        = (mj_floodFill g.nr g.rownnz g.rowadr g.colind).1 (w : Int) ↔
       ffConn g (v : Int) (w : Int))) ∧
    (∀ x, (mj_floodFill g.nr g.rownnz g.rowadr g.colind).1 x
      = (mj_floodFill g'.nr g'.rownnz g'.rowadr g'.colind).1 x) ∧
    (mj_floodFill g.nr g.rownnz g.rowadr g.colind).2
      = (mj_floodFill g'.nr g'.rownnz g'.rowadr g'.colind).2 := by
  obtain ⟨S1, S2, S3⟩ := ffFill_spec g hval
  have hns : ∀ v : Nat, v < g.nr → ∀ w : Int, w ≠ (v : Int) →
      (w ∈ g.row (v : Int) ↔ w ∈ g'.row (v : Int)) := by
    intro v hv w hw
    exact ⟨fun h => hns1 v hv w h hw, fun h => hns2 v hv w h hw⟩
  have hcg := ffOuter_congr g g' hval hval' hnr hiso hns g.nr (Nat.le_refl _)
  have hcast : ∀ v : Nat, (0 : Int) ≤ (v : Int) := fun v => Int.ofNat_nonneg v
  refine ⟨fun v hv => S1 (v : Int) (hcast v) (by omega),
    fun v hv hnz => S2 (v : Int)
      (fun heq => hnz ((S1 (v : Int) (hcast v) (by omega)).mp heq)),
    fun v w hv hw hnzv hnzw =>
      S3 (v : Int) (w : Int) (hcast v) (by omega) (hcast w) (by omega) hnzv hnzw,
    fun x => ?_, ?_⟩
  · show (ffOuter g.rownnz g.rowadr g.colind (ffFuel g.nr g.rownnz) g.nr).1 x
      = (ffOuter g'.rownnz g'.rowadr g'.colind (ffFuel g'.nr g'.rownnz) g'.nr).1 x
    nth_rewrite 2 [← hnr]
    exact hcg.1 x
  · show (ffOuter g.rownnz g.rowadr g.colind (ffFuel g.nr g.rownnz) g.nr).2
      = (ffOuter g'.rownnz g'.rowadr g'.colind (ffFuel g'.nr g'.rownnz) g'.nr).2
    nth_rewrite 2 [← hnr]
    exact hcg.2

/-- Concrete flood-fill input: three vertices, edge 0-1, vertex 2
isolated. -/
def gSmall : FFGraph :=
  { nr := 3
    rownnz := fun v => if v = 0 then 1 else if v = 1 then 1 else 0
    rowadr := fun v => if v = 0 then 0 else 1
    colind := fun k => if k = 0 then 1 else 0 }

/-- The same graph with a duplicate entry and a self-loop added to row 0:
row 0 stores `[1, 1, 0]` instead of `[1]`. -/
def gSmallDup : FFGraph :=
  { nr := 3
    rownnz := fun v => if v = 0 then 3 else if v = 1 then 1 else 0
    rowadr := fun v => if v = 0 then 0 else 3
    colind := fun k => if k = 0 then 1 else if k = 1 then 1 else 0 }

/-- Witness for `c3_floodFill_spec` on `gSmall` and `gSmallDup`. -/
theorem c3_floodFill_spec_witness :
    (∀ v : Nat, v < gSmall.nr →
      ((mj_floodFill gSmall.nr gSmall.rownnz gSmall.rowadr gSmall.colind).1 (v : Int) = -1 ↔
        gSmall.rownnz (v : Int) = 0)) ∧
    (∀ v : Nat, v < gSmall.nr → gSmall.rownnz (v : Int) ≠ 0 →
      0 ≤ (mj_floodFill gSmall.nr gSmall.rownnz gSmall.rowadr gSmall.colind).1 (v : Int) ∧
      (mj_floodFill gSmall.nr gSmall.rownnz gSmall.rowadr gSmall.colind).1 (v : Int)
        < ((mj_floodFill gSmall.nr gSmall.rownnz gSmall.rowadr gSmall.colind).2 : Int)) ∧
    (∀ v w : Nat, v < gSmall.nr → w < gSmall.nr →
      gSmall.rownnz (v : Int) ≠ 0 → gSmall.rownnz (w : Int) ≠ 0 →
      ((mj_floodFill gSmall.nr gSmall.rownnz gSmall.rowadr gSmall.colind).1 (v : Int)
        = (mj_floodFill gSmall.nr gSmall.rownnz gSmall.rowadr gSmall.colind).1 (w : Int) ↔
       ffConn gSmall (v : Int) (w : Int))) ∧
    (∀ x, (mj_floodFill gSmall.nr gSmall.rownnz gSmall.rowadr gSmall.colind).1 x
      = (mj_floodFill gSmallDup.nr gSmallDup.rownnz gSmallDup.rowadr gSmallDup.colind).1 x) ∧
    (mj_floodFill gSmall.nr gSmall.rownnz gSmall.rowadr gSmall.colind).2
      = (mj_floodFill gSmallDup.nr gSmallDup.rownnz gSmallDup.rowadr gSmallDup.colind).2 :=
  c3_floodFill_spec gSmall gSmallDup (by decide) (by decide) (by decide) (by decide)
    (by decide) (by decide)

/-- Number of records of `E` whose source is `t` (the semantic content of
the `treenedge` counters). -/
def countSrc (E : List (Int × Int)) (t : Int) : Nat :=
  (E.filter (fun e => e.1 = t)).length

/-- Connectivity along the emitted edge records. -/
def EConn (E : List (Int × Int)) : Int → Int → Prop :=
  Relation.ReflTransGen (fun a b => (a, b) ∈ E)

/-- Well-formedness of an intermediate collector state `(treenedge, E)`:
the record list is flip-closed, the counters count sources, endpoints are
tree ids, and every record is justified by some constraint row whose
Jacobian trees contain both endpoints. -/
def EdgesOk (m : MjModel) (d : MjData) (tn : Int → Nat) (E : List (Int × Int)) : Prop :=
  (∀ e ∈ E, (e.2, e.1) ∈ E) ∧
  (∀ t, tn t = countSrc E t) ∧
  (∀ e ∈ E, 0 ≤ e.1 ∧ e.1 < (m.ntree : Int) ∧ 0 ≤ e.2 ∧ e.2 < (m.ntree : Int)) ∧
  (∀ e ∈ E, ∃ j, j < d.nefc ∧ e.1 ∈ rowTreeList m d j ∧ e.2 ∈ rowTreeList m d j)

/-- Static-tree folding of the first endpoint (`if (tree1 == -1) tree1 =
tree2` in `addEdge`). -/
def fold1 (t1 t2 : Int) : Int :=
  if t1 = -1 then t2 else t1

/-- Static-tree folding of the second endpoint (sequential after
`fold1`). -/
def fold2 (t1 t2 : Int) : Int :=
  if t2 = -1 then fold1 t1 t2 else t2

theorem countSrc_append (E : List (Int × Int)) (x : Int × Int) (t : Int) :
    countSrc (E ++ [x]) t = countSrc E t + (if x.1 = t then 1 else 0) := by
  simp only [countSrc, List.filter_append]
  by_cases h : x.1 = t
  · simp [h]
  · simp [h]

theorem mem_of_getLast?_eq {α : Type _} {l : List α} {a : α} (h : l.getLast? = some a) :
    a ∈ l := by
  cases l with
  | nil => simp at h
  | cons x xs =>
    rw [List.getLast?_eq_getLast_of_ne_nil (List.cons_ne_nil x xs)] at h
    injection h with h
    rw [← h]
    exact List.getLast_mem _

/-- Master lemma for a successful `addEdge` call: the folded endpoint pair
is connected by records of the output, the input records survive, and the
collector-state well-formedness is preserved (given that the folded
endpoints are trees of row `j`). -/
theorem addEdge_ok (m : MjModel) (d : MjData) (tn : Int → Nat) (E : List (Int × Int))
    (t1 t2 : Int) (nedge_max : Nat) (tn' : Int → Nat) (E' : List (Int × Int))
    (h : addEdge tn E t1 t2 nedge_max = .ok (tn', E'))
    (hok : EdgesOk m d tn E) (j : Nat) (hj : j < d.nefc)
    (hmem : ∀ t, (t = t1 ∨ t = t2) → t ≠ -1 → t ∈ rowTreeList m d j)
    (hrange : ∀ t ∈ rowTreeList m d j, 0 ≤ t ∧ t < (m.ntree : Int)) :
    EdgesOk m d tn' E' ∧ (∀ e ∈ E, e ∈ E') ∧
    (fold1 t1 t2, fold2 t1 t2) ∈ E' ∧ (fold2 t1 t2, fold1 t1 t2) ∈ E' := by
  simp only [addEdge] at h
  by_cases hboth : t1 = -1 ∧ t2 = -1
  · rw [if_pos hboth] at h; cases h
  rw [if_neg hboth] at h
  have hu1 : fold1 t1 t2 = (if t1 = -1 then t2 else t1) := rfl
  have hu2 : fold2 t1 t2 = (if t2 = -1 then fold1 t1 t2 else t2) := rfl
  set u1 := fold1 t1 t2 with hdefu1
  set u2 := fold2 t1 t2 with hdefu2
  rw [← hu1] at h
  rw [← hu2] at h
  have hu1ne : u1 ≠ -1 := by
    rw [hu1]
    by_cases h1 : t1 = -1
    · rw [if_pos h1]; exact fun h2 => hboth ⟨h1, h2⟩
    · rw [if_neg h1]; exact h1
  have hu2ne : u2 ≠ -1 := by
    rw [hu2]
    by_cases h2 : t2 = -1
    · rw [if_pos h2]; exact hu1ne
    · rw [if_neg h2]; exact h2
  have hu1or : u1 = t1 ∨ u1 = t2 := by
    rw [hu1]; by_cases h1 : t1 = -1
    · rw [if_pos h1]; exact Or.inr rfl
    · rw [if_neg h1]; exact Or.inl rfl
  have hu2or : u2 = t1 ∨ u2 = t2 := by
    rw [hu2]; by_cases h2 : t2 = -1
    · rw [if_pos h2]; exact hu1or
    · rw [if_neg h2]; exact Or.inr rfl
  have hu1row : u1 ∈ rowTreeList m d j := hmem u1 hu1or hu1ne
  have hu2row : u2 ∈ rowTreeList m d j := hmem u2 hu2or hu2ne
  have hu1rg := hrange u1 hu1row
  have hu2rg := hrange u2 hu2row
  obtain ⟨hsym, hcnt, hrg, hjust⟩ := hok
  by_cases heq : u1 = u2
  · rw [if_pos heq] at h
    by_cases hlast : E.getLast? = some (u1, u1)
    · rw [if_pos hlast] at h
      have hE : tn' = tn ∧ E' = E := by
        cases h; exact ⟨rfl, rfl⟩
      obtain ⟨htn', hE'⟩ := hE
      subst htn' hE'
      have hin := mem_of_getLast?_eq hlast
      refine ⟨⟨hsym, hcnt, hrg, hjust⟩, fun e he => he, ?_, ?_⟩
      · rw [← heq]; exact hin
      · rw [← heq]; exact hin
    · rw [if_neg hlast] at h
      by_cases hsz : E.length ≥ nedge_max
      · rw [if_pos hsz] at h; cases h
      · rw [if_neg hsz] at h
        have hE : tn' = Function.update tn u1 (tn u1 + 1) ∧ E' = E ++ [(u1, u1)] := by
          cases h; exact ⟨rfl, rfl⟩
        obtain ⟨htn', hE'⟩ := hE
        subst htn' hE'
        refine ⟨⟨?_, ?_, ?_, ?_⟩, fun e he => List.mem_append_left _ he, ?_, ?_⟩
        · intro e he
          rcases List.mem_append.mp he with he | he
          · exact List.mem_append_left _ (hsym e he)
          · simp at he
            rw [he]
            exact List.mem_append_right _ (by simp)
        · intro t
          rw [countSrc_append]
          by_cases ht : t = u1
          · rw [ht, Function.update_same, hcnt u1, if_pos (show ((u1, u1).1 = u1) from rfl)]
          · rw [Function.update_noteq ht, hcnt t,
              if_neg (show ¬ ((u1, u1).1 = t) from fun hc => ht hc.symm)]
            omega
        · intro e he
          rcases List.mem_append.mp he with he | he
          · exact hrg e he
          · simp at he
            rw [he]
            exact ⟨hu1rg.1, hu1rg.2, hu1rg.1, hu1rg.2⟩
        · intro e he
          rcases List.mem_append.mp he with he | he
          · exact hjust e he
          · simp at he
            rw [he]
            exact ⟨j, hj, hu1row, hu1row⟩
        · rw [← heq]; exact List.mem_append_right _ (by simp)
        · rw [← heq]; exact List.mem_append_right _ (by simp)
  · rw [if_neg heq] at h
    by_cases hlast : E.getLast? = some (u1, u2) ∨ E.getLast? = some (u2, u1)
    · rw [if_pos hlast] at h
      have hE : tn' = tn ∧ E' = E := by
        cases h; exact ⟨rfl, rfl⟩
      obtain ⟨htn', hE'⟩ := hE
      subst htn' hE'
      rcases hlast with hl | hl
      · have hthis := mem_of_getLast?_eq hl
        exact ⟨⟨hsym, hcnt, hrg, hjust⟩, fun e he => he, hthis, hsym _ hthis⟩
      · have hthis := mem_of_getLast?_eq hl
        exact ⟨⟨hsym, hcnt, hrg, hjust⟩, fun e he => he, hsym _ hthis, hthis⟩
    · rw [if_neg hlast] at h
      by_cases hsz : E.length + 2 > nedge_max
      · rw [if_pos hsz] at h; cases h
      · rw [if_neg hsz] at h
        have hE : tn' = Function.update (Function.update tn u1 (tn u1 + 1)) u2
              (Function.update tn u1 (tn u1 + 1) u2 + 1) ∧
            E' = E ++ [(u1, u2), (u2, u1)] := by
          cases h; exact ⟨rfl, rfl⟩
        obtain ⟨htn', hE'⟩ := hE
        subst htn' hE'
        have happ : E ++ [(u1, u2), (u2, u1)] = (E ++ [(u1, u2)]) ++ [(u2, u1)] := by simp
        refine ⟨⟨?_, ?_, ?_, ?_⟩, fun e he => List.mem_append_left _ he, ?_, ?_⟩
        · intro e he
          rcases List.mem_append.mp he with he | he
          · exact List.mem_append_left _ (hsym e he)
          · simp at he
            rcases he with he | he <;> rw [he] <;> simp
        · intro t
          rw [happ, countSrc_append, countSrc_append]
          by_cases ht1 : t = u1
          · rw [ht1, Function.update_noteq heq, Function.update_same, hcnt u1,
              if_pos (show ((u1, u2).1 = u1) from rfl),
              if_neg (show ¬ ((u2, u1).1 = u1) from fun hc => heq hc.symm)]
          · by_cases ht2 : t = u2
            · rw [ht2, Function.update_same,
                Function.update_noteq (show u2 ≠ u1 from fun hc => heq hc.symm), hcnt u2,
                if_neg (show ¬ ((u1, u2).1 = u2) from fun hc => heq hc),
                if_pos (show ((u2, u1).1 = u2) from rfl)]
            · rw [Function.update_noteq ht2, Function.update_noteq ht1, hcnt t,
                if_neg (show ¬ ((u1, u2).1 = t) from fun hc => ht1 hc.symm),
                if_neg (show ¬ ((u2, u1).1 = t) from fun hc => ht2 hc.symm)]
              omega
        · intro e he
          rcases List.mem_append.mp he with he | he
          · exact hrg e he
          · simp at he
            rcases he with he | he <;> rw [he]
            · exact ⟨hu1rg.1, hu1rg.2, hu2rg.1, hu2rg.2⟩
            · exact ⟨hu2rg.1, hu2rg.2, hu1rg.1, hu1rg.2⟩
        · intro e he
          rcases List.mem_append.mp he with he | he
          · exact hjust e he
          · simp at he
            rcases he with he | he <;> rw [he]
            · exact ⟨j, hj, hu1row, hu2row⟩
            · exact ⟨j, hj, hu2row, hu1row⟩
        · exact List.mem_append_right _ (by simp)
        · exact List.mem_append_right _ (by simp)

theorem treeNextSparseGo_spec (m : MjModel) (d : MjData) (tree : Int) (i : Nat) :
    ∀ left j,
      (∀ p, j ≤ p → p < j + left →
        m.dof_treeid (d.efc_J_colind (d.efc_J_rowadr i + p)) ≠ -1) →
      ((treeNextSparseGo m d tree i j left).1 = -1 →
        (treeNextSparseGo m d tree i j left).2 = j + left ∧
        ∀ p, j ≤ p → p < j + left →
          m.dof_treeid (d.efc_J_colind (d.efc_J_rowadr i + p)) = tree) ∧
      ((treeNextSparseGo m d tree i j left).1 ≠ -1 →
        ∀ p, j ≤ p → p < (treeNextSparseGo m d tree i j left).2 →
          m.dof_treeid (d.efc_J_colind (d.efc_J_rowadr i + p)) = tree) := by
  intro left
  induction left with
  | zero =>
    intro j _
    refine ⟨fun _ => ⟨by simp [treeNextSparseGo], fun p h1 h2 => by omega⟩, fun h => ?_⟩
    simp [treeNextSparseGo] at h
  | succ n ih =>
    intro j hnn
    by_cases hc : m.dof_treeid (d.efc_J_colind (d.efc_J_rowadr i + j)) ≠ tree
    · constructor
      · intro h
        simp only [treeNextSparseGo, if_pos hc] at h
        exact absurd h (hnn j (Nat.le_refl j) (by omega))
      · intro _ p h1 h2
        simp only [treeNextSparseGo, if_pos hc] at h2
        omega
    · have hrec := ih (j + 1) (fun p h1 h2 => hnn p (by omega) (by omega))
      push_neg at hc
      constructor
      · intro h
        simp only [treeNextSparseGo, if_neg (not_not_intro hc)] at h ⊢
        obtain ⟨ha, hb⟩ := hrec.1 h
        refine ⟨by omega, fun p h1 h2 => ?_⟩
        rcases Nat.eq_or_lt_of_le h1 with he | hlt
        · rw [← he]; exact hc
        · exact hb p (by omega) (by omega)
      · intro h p h1 h2
        simp only [treeNextSparseGo, if_neg (not_not_intro hc)] at h h2
        rcases Nat.eq_or_lt_of_le h1 with he | hlt
        · rw [← he]; exact hc
        · exact hrec.2 h p (by omega) h2

theorem treeNextDenseGo_spec (m : MjModel) (d : MjData) (tree : Int) (i : Nat) :
    ∀ left j,
      (∀ p, j ≤ p → p < j + left → d.efc_J (m.nv * i + p) = true →
        m.dof_treeid p ≠ -1) →
      ((treeNextDenseGo m d tree i j left).1 = -1 →
        (treeNextDenseGo m d tree i j left).2 = j + left ∧
        ∀ p, j ≤ p → p < j + left → d.efc_J (m.nv * i + p) = true →
          m.dof_treeid p = tree) ∧
      ((treeNextDenseGo m d tree i j left).1 ≠ -1 →
        ∀ p, j ≤ p → p < (treeNextDenseGo m d tree i j left).2 →
          d.efc_J (m.nv * i + p) = true → m.dof_treeid p = tree) := by
  intro left
  induction left with
  | zero =>
    intro j _
    refine ⟨fun _ => ⟨by simp [treeNextDenseGo], fun p h1 h2 => by omega⟩, fun h => ?_⟩
    simp [treeNextDenseGo] at h
  | succ n ih =>
    intro j hnn
    have hrec := ih (j + 1) (fun p h1 h2 => hnn p (by omega) (by omega))
    by_cases hJ : d.efc_J (m.nv * i + j) = true
    · by_cases hc : m.dof_treeid j ≠ tree
      · constructor
        · intro h
          simp only [treeNextDenseGo, hJ, if_true, if_pos hc] at h
          exact absurd h (hnn j (Nat.le_refl j) (by omega) hJ)
        · intro _ p h1 h2
          simp only [treeNextDenseGo, hJ, if_true, if_pos hc] at h2
          omega
      · push_neg at hc
        constructor
        · intro h
          simp only [treeNextDenseGo, hJ, if_true, if_neg (not_not_intro hc)] at h ⊢
          obtain ⟨ha, hb⟩ := hrec.1 h
          refine ⟨by omega, fun p h1 h2 hp => ?_⟩
          rcases Nat.eq_or_lt_of_le h1 with he | hlt
          · rw [← he]; exact hc
          · exact hb p (by omega) (by omega) hp
        · intro h p h1 h2 hp
          simp only [treeNextDenseGo, hJ, if_true, if_neg (not_not_intro hc)] at h h2
          rcases Nat.eq_or_lt_of_le h1 with he | hlt
          · rw [← he]; exact hc
          · exact hrec.2 h p (by omega) h2 hp
    · have hred : treeNextDenseGo m d tree i j (n + 1) = treeNextDenseGo m d tree i (j + 1) n := by
        simp only [treeNextDenseGo, Bool.not_eq_true] at hJ ⊢
        rw [if_neg (by simp [hJ])]
      rw [hred]
      constructor
      · intro h
        obtain ⟨ha, hb⟩ := hrec.1 h
        refine ⟨by omega, fun p h1 h2 hp => ?_⟩
        rcases Nat.eq_or_lt_of_le h1 with he | hlt
        · rw [← he] at hp; exact absurd hp hJ
        · exact hb p (by omega) (by omega) hp
      · intro h p h1 h2 hp
        rcases Nat.eq_or_lt_of_le h1 with he | hlt
        · rw [← he] at hp; exact absurd hp hJ
        · exact hrec.2 h p (by omega) h2 hp

theorem EConn_mono {E E' : List (Int × Int)} (hsub : ∀ e ∈ E, e ∈ E') {a b : Int}
    (h : EConn E a b) : EConn E' a b := by
  induction h with
  | refl => exact Relation.ReflTransGen.refl
  | tail hseg hstep ih => exact ih.tail (hsub _ hstep)

theorem EConn_symm {E : List (Int × Int)} (hsym : ∀ e ∈ E, (e.2, e.1) ∈ E) {a b : Int}
    (h : EConn E a b) : EConn E b a := by
  induction h with
  | refl => exact Relation.ReflTransGen.refl
  | tail hseg hstep ih =>
    exact Relation.ReflTransGen.trans (Relation.ReflTransGen.single (hsym _ hstep)) ih

/-- Tree of the `p`-th stored entry of sparse row `i`. -/
def entryS (m : MjModel) (d : MjData) (i p : Nat) : Int :=
  m.dof_treeid (d.efc_J_colind (d.efc_J_rowadr i + p))

theorem rowTreeList_sparse_mem (m : MjModel) (d : MjData) (i : Nat)
    (hs : mj_isSparse m = true) (t : Int) :
    t ∈ rowTreeList m d i ↔ ∃ p, p < d.efc_J_rownnz i ∧ entryS m d i p = t := by
  rw [rowTreeList, if_pos hs]
  simp [entryS, List.mem_map, List.mem_range]

theorem rowTreeList_dense_mem (m : MjModel) (d : MjData) (i : Nat)
    (hs : mj_isSparse m = false) (t : Int) :
    t ∈ rowTreeList m d i ↔
      ∃ c, c < m.nv ∧ d.efc_J (m.nv * i + c) = true ∧ m.dof_treeid c = t := by
  rw [rowTreeList, if_neg (by simp [hs])]
  simp only [List.mem_map, List.mem_filter, List.mem_range]
  constructor
  · rintro ⟨c, ⟨hc1, hc2⟩, hc3⟩
    exact ⟨c, hc1, hc2, hc3⟩
  · rintro ⟨c, hc1, hc2, hc3⟩
    exact ⟨c, ⟨hc1, hc2⟩, hc3⟩

/-- Chain-loop invariant, sparse case: starting at a found entry of the
current tree with all earlier entries connected to it, a successful run
leaves every entry of the row connected to the current tree and incident
to some record. -/
theorem edgeChain_sparse (m : MjModel) (d : MjData) (hs : mj_isSparse m = true)
    (nedge_max i : Nat) (hi : i < d.nefc)
    (hrange : ∀ t ∈ rowTreeList m d i, 0 ≤ t ∧ t < (m.ntree : Int)) :
    ∀ fuel q tree2 tn E tnF EF,
      q < d.efc_J_rownnz i →
      entryS m d i q = tree2 →
      EdgesOk m d tn E →
      (∀ p, p ≤ q → EConn E (entryS m d i p) tree2) →
      (∀ p, p ≤ q → ∃ x, (entryS m d i p, x) ∈ E) →
      d.efc_J_rownnz i - q ≤ fuel →
      edgeChain m d nedge_max i fuel tree2 q tn E = .ok (tnF, EF) →
      EdgesOk m d tnF EF ∧ (∀ e ∈ E, e ∈ EF) ∧
      (∀ p, p < d.efc_J_rownnz i → EConn EF (entryS m d i p) tree2) ∧
      (∀ p, p < d.efc_J_rownnz i → ∃ x, (entryS m d i p, x) ∈ EF) := by
  intro fuel
  induction fuel with
  | zero =>
    intro q tree2 tn E tnF EF hq _ _ _ _ hfuel _
    exfalso; omega
  | succ fuel ih =>
    intro q tree2 tn E tnF EF hq hentry hok hB1 hB2 hfuel hrun
    have hlen : q + (d.efc_J_rownnz i - q) = d.efc_J_rownnz i := by omega
    have hnn : ∀ p, q ≤ p → p < q + (d.efc_J_rownnz i - q) → entryS m d i p ≠ -1 := by
      intro p h1 h2
      have hmem : entryS m d i p ∈ rowTreeList m d i :=
        (rowTreeList_sparse_mem m d i hs _).mpr ⟨p, by omega, rfl⟩
      have := (hrange _ hmem).1
      omega
    have hrw : treeNext m d tree2 i q
        = treeNextSparseGo m d tree2 i q (d.efc_J_rownnz i - q) := by
      simp [treeNext, hs, treeNextSparseAux]
    have hspec := treeNextSparseGo_spec m d tree2 i (d.efc_J_rownnz i - q) q hnn
    by_cases hr1 : (treeNext m d tree2 i q).1 = -1
    · have hexit : edgeChain m d nedge_max i (fuel + 1) tree2 q tn E = .ok (tn, E) := by
        simp only [edgeChain]
        rw [if_neg]
        rintro ⟨hgt, _⟩
        rw [hr1] at hgt
        exact absurd hgt (by norm_num)
      rw [hexit] at hrun
      injection hrun with hrun
      injection hrun with h1 h2
      subst h1
      subst h2
      rw [hrw] at hr1
      obtain ⟨hq2, hall⟩ := hspec.1 hr1
      refine ⟨hok, fun e he => he, fun p hp => ?_, fun p hp => ?_⟩
      · by_cases hpq : p ≤ q
        · exact hB1 p hpq
        · have : entryS m d i p = tree2 := hall p (by omega) (by omega)
          rw [this]
          exact Relation.ReflTransGen.refl
      · by_cases hpq : p ≤ q
        · exact hB2 p hpq
        · have heq : entryS m d i p = tree2 := hall p (by omega) (by omega)
          have := hB2 q (Nat.le_refl q)
          rw [hentry] at this
          rw [heq]
          exact this
    · -- a different tree was found at position q' > q
      obtain ⟨hle, hlt, hat, hnetree⟩ :=
        treeNextSparseGo_found m d tree2 i (d.efc_J_rownnz i - q) q (hrw ▸ hr1)
      set q' := (treeNext m d tree2 i q).2 with hq'
      set t3 := (treeNext m d tree2 i q).1 with ht3
      rw [← hrw] at hle hlt hat hnetree
      have hatE : entryS m d i q' = t3 := hat
      have hq'lt : q' < d.efc_J_rownnz i := by omega
      have ht3row : t3 ∈ rowTreeList m d i :=
        (rowTreeList_sparse_mem m d i hs _).mpr ⟨q', hq'lt, hatE⟩
      have ht3rg := hrange _ ht3row
      have htree2row : tree2 ∈ rowTreeList m d i :=
        (rowTreeList_sparse_mem m d i hs _).mpr ⟨q, hq, hentry⟩
      have hcond : t3 > -1 ∧ t3 ≠ tree2 := ⟨by omega, hnetree⟩
      have hqlt : q < q' := by
        rcases Nat.eq_or_lt_of_le hle with he | h
        · exfalso
          have hq'q : entryS m d i q = t3 := by rw [he]; exact hatE
          exact hnetree (hq'q.symm.trans hentry)
        · exact h
      have hbetween : ∀ p, q ≤ p → p < q' → entryS m d i p = tree2 := by
        intro p h1 h2
        exact hspec.2 (hrw ▸ hr1) p h1 (by rw [← hrw]; exact h2)
      have hred : edgeChain m d nedge_max i (fuel + 1) tree2 q tn E
          = match addEdge tn E tree2 t3 nedge_max with
            | .error e => .error e
            | .ok s => edgeChain m d nedge_max i fuel t3 q' s.1 s.2 := by
        simp only [edgeChain]
        rw [if_pos hcond]
      rw [hred] at hrun
      cases haE : addEdge tn E tree2 t3 nedge_max with
      | error e => rw [haE] at hrun; cases hrun
      | ok s =>
        rw [haE] at hrun
        have htree2ne : tree2 ≠ -1 := by
          rw [← hentry]
          exact hnn q (Nat.le_refl q) (by omega)
        obtain ⟨hok', hsub', hin1, hin2⟩ := addEdge_ok m d tn E tree2 t3 nedge_max s.1 s.2
          (by rw [haE]) hok i hi
          (fun t ht hne => by
            rcases ht with ht | ht
            · rw [ht]; exact htree2row
            · rw [ht]; exact ht3row)
          hrange
        have hfold1 : fold1 tree2 t3 = tree2 := by rw [fold1, if_neg htree2ne]
        have hfold2 : fold2 tree2 t3 = t3 := by
          rw [fold2, if_neg (show ¬ t3 = -1 from hr1)]
        rw [hfold1, hfold2] at hin1 hin2
        have hstep := ih q' t3 s.1 s.2 tnF EF hq'lt hatE hok'
          (by
            intro p hp
            by_cases hpq : p ≤ q
            · exact ((EConn_mono hsub' (hB1 p hpq)).tail hin1)
            · by_cases hpq' : p = q'
              · rw [hpq', hatE]
                exact Relation.ReflTransGen.refl
              · have : entryS m d i p = tree2 := hbetween p (by omega) (by omega)
                rw [this]
                exact Relation.ReflTransGen.single hin1)
          (by
            intro p hp
            by_cases hpq : p ≤ q
            · obtain ⟨x, hx⟩ := hB2 p hpq
              exact ⟨x, hsub' _ hx⟩
            · by_cases hpq' : p = q'
              · rw [hpq', hatE]
                exact ⟨tree2, hin2⟩
              · have : entryS m d i p = tree2 := hbetween p (by omega) (by omega)
                rw [this]
                exact ⟨t3, hin1⟩)
          (by omega) hrun
        obtain ⟨hokF, hsubF, hB1F, hB2F⟩ := hstep
        refine ⟨hokF, fun e he => hsubF _ (hsub' _ he), fun p hp => ?_, hB2F⟩
        exact (hB1F p hp).tail (hsubF _ hin2)

/-- Chain-loop invariant, dense case: as `edgeChain_sparse`, with columns
of the dense pattern in place of stored entries. -/
theorem edgeChain_dense (m : MjModel) (d : MjData) (hs : mj_isSparse m = false)
    (nedge_max i : Nat) (hi : i < d.nefc)
    (hrange : ∀ t ∈ rowTreeList m d i, 0 ≤ t ∧ t < (m.ntree : Int)) :
    ∀ fuel q tree2 tn E tnF EF,
      q < m.nv →
      d.efc_J (m.nv * i + q) = true →
      m.dof_treeid q = tree2 →
      EdgesOk m d tn E →
      (∀ p, p ≤ q → d.efc_J (m.nv * i + p) = true → EConn E (m.dof_treeid p) tree2) →
      (∀ p, p ≤ q → d.efc_J (m.nv * i + p) = true → ∃ x, (m.dof_treeid p, x) ∈ E) →
      m.nv - q ≤ fuel →
      edgeChain m d nedge_max i fuel tree2 q tn E = .ok (tnF, EF) →
      EdgesOk m d tnF EF ∧ (∀ e ∈ E, e ∈ EF) ∧
      (∀ p, p < m.nv → d.efc_J (m.nv * i + p) = true → EConn EF (m.dof_treeid p) tree2) ∧
      (∀ p, p < m.nv → d.efc_J (m.nv * i + p) = true → ∃ x, (m.dof_treeid p, x) ∈ EF) := by
  intro fuel
  induction fuel with
  | zero =>
    intro q tree2 tn E tnF EF hq _ _ _ _ _ hfuel _
    exfalso; omega
  | succ fuel ih =>
    intro q tree2 tn E tnF EF hq hpat hentry hok hB1 hB2 hfuel hrun
    have hlen : q + (m.nv - q) = m.nv := by omega
    have hnn : ∀ p, q ≤ p → p < q + (m.nv - q) → d.efc_J (m.nv * i + p) = true →
        m.dof_treeid p ≠ -1 := by
      intro p h1 h2 hp
      have hmem : m.dof_treeid p ∈ rowTreeList m d i :=
        (rowTreeList_dense_mem m d i hs _).mpr ⟨p, by omega, hp, rfl⟩
      have := (hrange _ hmem).1
      omega
    have hrw : treeNext m d tree2 i q = treeNextDenseGo m d tree2 i q (m.nv - q) := by
      simp [treeNext, hs, treeNextDenseAux]
    have hspec := treeNextDenseGo_spec m d tree2 i (m.nv - q) q hnn
    by_cases hr1 : (treeNext m d tree2 i q).1 = -1
    · have hexit : edgeChain m d nedge_max i (fuel + 1) tree2 q tn E = .ok (tn, E) := by
        simp only [edgeChain]
        rw [if_neg]
        rintro ⟨hgt, _⟩
        rw [hr1] at hgt
        exact absurd hgt (by norm_num)
      rw [hexit] at hrun
      injection hrun with hrun
      injection hrun with h1 h2
      subst h1
      subst h2
      rw [hrw] at hr1
      obtain ⟨hq2, hall⟩ := hspec.1 hr1
      refine ⟨hok, fun e he => he, fun p hp hpp => ?_, fun p hp hpp => ?_⟩
      · by_cases hpq : p ≤ q
        · exact hB1 p hpq hpp
        · have : m.dof_treeid p = tree2 := hall p (by omega) (by omega) hpp
          rw [this]
          exact Relation.ReflTransGen.refl
      · by_cases hpq : p ≤ q
        · exact hB2 p hpq hpp
        · have heq : m.dof_treeid p = tree2 := hall p (by omega) (by omega) hpp
          have := hB2 q (Nat.le_refl q) hpat
          rw [hentry] at this
          rw [heq]
          exact this
    · obtain ⟨hle, hlt, hpat', hat, hnetree⟩ :=
        treeNextDenseGo_found m d tree2 i (m.nv - q) q (hrw ▸ hr1)
      set q' := (treeNext m d tree2 i q).2 with hq'
      set t3 := (treeNext m d tree2 i q).1 with ht3
      rw [← hrw] at hle hlt hpat' hat hnetree
      have hq'lt : q' < m.nv := by omega
      have ht3row : t3 ∈ rowTreeList m d i :=
        (rowTreeList_dense_mem m d i hs _).mpr ⟨q', hq'lt, hpat', hat⟩
      have ht3rg := hrange _ ht3row
      have htree2row : tree2 ∈ rowTreeList m d i :=
        (rowTreeList_dense_mem m d i hs _).mpr ⟨q, hq, hpat, hentry⟩
      have hcond : t3 > -1 ∧ t3 ≠ tree2 := ⟨by omega, hnetree⟩
      have hqlt : q < q' := by
        rcases Nat.eq_or_lt_of_le hle with he | h
        · exfalso
          have hq'q : m.dof_treeid q = t3 := by rw [he]; exact hat
          exact hnetree (hq'q.symm.trans hentry)
        · exact h
      have hbetween : ∀ p, q ≤ p → p < q' → d.efc_J (m.nv * i + p) = true →
          m.dof_treeid p = tree2 := by
        intro p h1 h2 hp
        exact hspec.2 (hrw ▸ hr1) p h1 (by rw [← hrw]; exact h2) hp
      have hred : edgeChain m d nedge_max i (fuel + 1) tree2 q tn E
          = match addEdge tn E tree2 t3 nedge_max with
            | .error e => .error e
            | .ok s => edgeChain m d nedge_max i fuel t3 q' s.1 s.2 := by
        simp only [edgeChain]
        rw [if_pos hcond]
      rw [hred] at hrun
      cases haE : addEdge tn E tree2 t3 nedge_max with
      | error e => rw [haE] at hrun; cases hrun
      | ok s =>
        rw [haE] at hrun
        have htree2ne : tree2 ≠ -1 := by
          rw [← hentry]
          exact hnn q (Nat.le_refl q) (by omega) hpat
        obtain ⟨hok', hsub', hin1, hin2⟩ := addEdge_ok m d tn E tree2 t3 nedge_max s.1 s.2
          (by rw [haE]) hok i hi
          (fun t ht hne => by
            rcases ht with ht | ht
            · rw [ht]; exact htree2row
            · rw [ht]; exact ht3row)
          hrange
        have hfold1 : fold1 tree2 t3 = tree2 := by rw [fold1, if_neg htree2ne]
        have hfold2 : fold2 tree2 t3 = t3 := by
          rw [fold2, if_neg (show ¬ t3 = -1 from hr1)]
        rw [hfold1, hfold2] at hin1 hin2
        have hstep := ih q' t3 s.1 s.2 tnF EF hq'lt hpat' hat hok'
          (by
            intro p hp hpp
            by_cases hpq : p ≤ q
            · exact ((EConn_mono hsub' (hB1 p hpq hpp)).tail hin1)
            · by_cases hpq' : p = q'
              · rw [hpq', hat]
                exact Relation.ReflTransGen.refl
              · have : m.dof_treeid p = tree2 := hbetween p (by omega) (by omega) hpp
                rw [this]
                exact Relation.ReflTransGen.single hin1)
          (by
            intro p hp hpp
            by_cases hpq : p ≤ q
            · obtain ⟨x, hx⟩ := hB2 p hpq hpp
              exact ⟨x, hsub' _ hx⟩
            · by_cases hpq' : p = q'
              · rw [hpq', hat]
                exact ⟨tree2, hin2⟩
              · have : m.dof_treeid p = tree2 := hbetween p (by omega) (by omega) hpp
                rw [this]
                exact ⟨t3, hin1⟩)
          (by omega) hrun
        obtain ⟨hokF, hsubF, hB1F, hB2F⟩ := hstep
        refine ⟨hokF, fun e he => hsubF _ (hsub' _ he), fun p hp hpp => ?_, hB2F⟩
        exact (hB1F p hp hpp).tail (hsubF _ hin2)

/-- Completion of one row by the collector: all trees of the row are
pairwise connected by records and each has an incident record. -/
def RowDone (m : MjModel) (d : MjData) (i : Nat) (E : List (Int × Int)) : Prop :=
  (∀ t ∈ rowTreeList m d i, ∀ t' ∈ rowTreeList m d i, EConn E t t') ∧
  (∀ t ∈ rowTreeList m d i, ∃ x, (t, x) ∈ E)

theorem RowDone_mono {m : MjModel} {d : MjData} {i : Nat} {E E' : List (Int × Int)}
    (hsub : ∀ e ∈ E, e ∈ E') (h : RowDone m d i E) : RowDone m d i E' := by
  refine ⟨fun t ht t' ht' => EConn_mono hsub (h.1 t ht t' ht'), fun t ht => ?_⟩
  obtain ⟨x, hx⟩ := h.2 t ht
  exact ⟨x, hsub _ hx⟩

/-- Generic row handler: a successful `findEdgesRow` preserves the
collector invariant and completes row `i`. -/
theorem findEdgesRow_ok (m : MjModel) (d : MjData) (nedge_max i : Nat) (hi : i < d.nefc)
    (hne : rowTreeList m d i ≠ [])
    (hrange : ∀ t ∈ rowTreeList m d i, 0 ≤ t ∧ t < (m.ntree : Int))
    (tn : Int → Nat) (E : List (Int × Int)) (tnF : Int → Nat) (EF : List (Int × Int))
    (hok : EdgesOk m d tn E)
    (hrun : findEdgesRow m d nedge_max i tn E = .ok (tnF, EF)) :
    EdgesOk m d tnF EF ∧ (∀ e ∈ E, e ∈ EF) ∧ RowDone m d i EF := by
  by_cases hs : mj_isSparse m = true
  · -- sparse representation
    set len := d.efc_J_rownnz i with hlendef
    have hlen0 : len ≠ 0 := by
      intro hz
      apply hne
      rw [rowTreeList, if_pos hs, ← hlendef, hz]
      simp
    have hnn : ∀ p, p < len → entryS m d i p ≠ -1 := by
      intro p hp
      have hmem : entryS m d i p ∈ rowTreeList m d i :=
        (rowTreeList_sparse_mem m d i hs _).mpr ⟨p, hp, rfl⟩
      have := (hrange _ hmem).1
      omega
    have hrw1 : treeNext m d (-1) i 0 = treeNextSparseGo m d (-1) i 0 len := by
      simp [treeNext, hs, treeNextSparseAux]
    have hspec1 := treeNextSparseGo_spec m d (-1) i len 0
      (fun p _ h2 => hnn p (by omega))
    have hr11 : (treeNext m d (-1) i 0).1 ≠ -1 := by
      intro hz
      rw [hrw1] at hz
      obtain ⟨_, hall⟩ := hspec1.1 hz
      exact hnn 0 (by omega) (hall 0 (by omega) (by omega))
    obtain ⟨hle1, hlt1, hat1, _⟩ :=
      treeNextSparseGo_found m d (-1) i len 0 (hrw1 ▸ hr11)
    set q1 := (treeNext m d (-1) i 0).2 with hq1def
    set tree1 := (treeNext m d (-1) i 0).1 with htree1def
    rw [← hrw1] at hle1 hlt1 hat1
    have hat1E : entryS m d i q1 = tree1 := hat1
    have hq1lt : q1 < len := by omega
    have hbefore1 : ∀ p, p < q1 → False := by
      intro p hp
      have := hspec1.2 (hrw1 ▸ hr11) p (by omega) (by rw [← hrw1]; exact hp)
      exact hnn p (by omega) this
    have htree1row : tree1 ∈ rowTreeList m d i :=
      (rowTreeList_sparse_mem m d i hs _).mpr ⟨q1, hq1lt, hat1E⟩
    have htree1ne : tree1 ≠ -1 := by
      have := (hrange _ htree1row).1
      omega
    -- second scan
    have hrw2 : treeNext m d tree1 i q1 = treeNextSparseGo m d tree1 i q1 (len - q1) := by
      simp [treeNext, hs, treeNextSparseAux]
    have hspec2 := treeNextSparseGo_spec m d tree1 i (len - q1) q1
      (fun p h1 h2 => hnn p (by omega))
    rw [findEdgesRow] at hrun
    by_cases hr21 : (treeNext m d tree1 i q1).1 = -1
    · -- single tree: self edge
      rw [if_pos (by rw [← htree1def, ← hq1def]; exact hr21)] at hrun
      obtain ⟨hq2, hall⟩ := hspec2.1 (hrw2 ▸ hr21)
      have hallt : ∀ t ∈ rowTreeList m d i, t = tree1 := by
        intro t ht
        obtain ⟨p, hp, hpt⟩ := (rowTreeList_sparse_mem m d i hs _).mp ht
        by_cases hpq : p < q1
        · exact absurd hpq (fun hc => hbefore1 p hc)
        · rw [← hpt]
          exact hall p (by omega) (by omega)
      obtain ⟨hok', hsub', hin1, hin2⟩ := addEdge_ok m d tn E tree1 tree1 nedge_max tnF EF
        hrun hok i hi
        (fun t ht _ => by rcases ht with ht | ht <;> (rw [ht]; exact htree1row))
        hrange
      have hfold : fold1 tree1 tree1 = tree1 ∧ fold2 tree1 tree1 = tree1 := by
        constructor
        · rw [fold1, if_neg htree1ne]
        · rw [fold2, if_neg htree1ne]
      rw [hfold.1, hfold.2] at hin1
      refine ⟨hok', hsub', fun t ht t' ht' => ?_, fun t ht => ?_⟩
      · rw [hallt t ht, hallt t' ht']
        exact Relation.ReflTransGen.refl
      · rw [hallt t ht]
        exact ⟨tree1, hin1⟩
    · -- at least two trees: chain
      rw [if_neg (by rw [← htree1def, ← hq1def]; exact hr21)] at hrun
      obtain ⟨hle2, hlt2, hat2, hne2⟩ :=
        treeNextSparseGo_found m d tree1 i (len - q1) q1 (hrw2 ▸ hr21)
      set q2 := (treeNext m d tree1 i q1).2 with hq2def
      set tree2 := (treeNext m d tree1 i q1).1 with htree2def
      rw [← hrw2] at hle2 hlt2 hat2 hne2
      have hat2E : entryS m d i q2 = tree2 := hat2
      have hq2lt : q2 < len := by omega
      have htree2row : tree2 ∈ rowTreeList m d i :=
        (rowTreeList_sparse_mem m d i hs _).mpr ⟨q2, hq2lt, hat2E⟩
      have hbetween2 : ∀ p, q1 ≤ p → p < q2 → entryS m d i p = tree1 := by
        intro p h1 h2
        exact hspec2.2 (hrw2 ▸ hr21) p h1 (by rw [← hrw2]; exact h2)
      cases haE : addEdge tn E tree1 tree2 nedge_max with
      | error e => rw [haE] at hrun; cases hrun
      | ok s =>
        rw [haE] at hrun
        obtain ⟨hok', hsub', hin1, hin2⟩ := addEdge_ok m d tn E tree1 tree2 nedge_max s.1 s.2
          (by rw [haE]) hok i hi
          (fun t ht _ => by
            rcases ht with ht | ht
            · rw [ht]; exact htree1row
            · rw [ht]; exact htree2row)
          hrange
        have hfold1 : fold1 tree1 tree2 = tree1 := by rw [fold1, if_neg htree1ne]
        have hfold2 : fold2 tree1 tree2 = tree2 := by
          rw [fold2, if_neg (show ¬ tree2 = -1 from hr21)]
        rw [hfold1, hfold2] at hin1 hin2
        have hchain := edgeChain_sparse m d hs nedge_max i hi hrange
          (scanLen m d i + 1) q2 tree2 s.1 s.2 tnF EF hq2lt hat2E hok'
          (by
            intro p hp
            by_cases hpq : p = q2
            · rw [hpq, hat2E]
              exact Relation.ReflTransGen.refl
            · by_cases hpq1 : p < q1
              · exact absurd hpq1 (fun hc => hbefore1 p hc)
              · have : entryS m d i p = tree1 := hbetween2 p (by omega) (by omega)
                rw [this]
                exact Relation.ReflTransGen.single hin1)
          (by
            intro p hp
            by_cases hpq : p = q2
            · rw [hpq, hat2E]
              exact ⟨tree1, hin2⟩
            · by_cases hpq1 : p < q1
              · exact absurd hpq1 (fun hc => hbefore1 p hc)
              · have : entryS m d i p = tree1 := hbetween2 p (by omega) (by omega)
                rw [this]
                exact ⟨tree2, hin1⟩)
          (by rw [scanLen, if_pos hs]; omega) hrun
        obtain ⟨hokF, hsubF, hB1F, hB2F⟩ := hchain
        have hsymF := hokF.1
        refine ⟨hokF, fun e he => hsubF _ (hsub' _ he), fun t ht t' ht' => ?_, fun t ht => ?_⟩
        · obtain ⟨p, hp, hpt⟩ := (rowTreeList_sparse_mem m d i hs _).mp ht
          obtain ⟨p', hp', hpt'⟩ := (rowTreeList_sparse_mem m d i hs _).mp ht'
          have h1 := hB1F p hp
          have h2 := hB1F p' hp'
          rw [hpt] at h1
          rw [hpt'] at h2
          exact Relation.ReflTransGen.trans h1 (EConn_symm hsymF h2)
        · obtain ⟨p, hp, hpt⟩ := (rowTreeList_sparse_mem m d i hs _).mp ht
          have := hB2F p hp
          rw [hpt] at this
          exact this
  · -- dense representation
    have hs' : mj_isSparse m = false := by simpa using hs
    have hnn : ∀ p, p < m.nv → d.efc_J (m.nv * i + p) = true → m.dof_treeid p ≠ -1 := by
      intro p hp hpat
      have hmem : m.dof_treeid p ∈ rowTreeList m d i :=
        (rowTreeList_dense_mem m d i hs' _).mpr ⟨p, hp, hpat, rfl⟩
      have := (hrange _ hmem).1
      omega
    have hrw1 : treeNext m d (-1) i 0 = treeNextDenseGo m d (-1) i 0 m.nv := by
      simp [treeNext, hs', treeNextDenseAux]
    have hspec1 := treeNextDenseGo_spec m d (-1) i m.nv 0
      (fun p _ h2 hp => hnn p (by omega) hp)
    have hr11 : (treeNext m d (-1) i 0).1 ≠ -1 := by
      intro hz
      rw [hrw1] at hz
      obtain ⟨_, hall⟩ := hspec1.1 hz
      have hex : ∃ c, c < m.nv ∧ d.efc_J (m.nv * i + c) = true := by
        by_contra hcon
        push_neg at hcon
        apply hne
        rw [rowTreeList, if_neg (by simp [hs'])]
        rw [List.map_eq_nil_iff, List.filter_eq_nil_iff]
        intro c hc
        simp only [List.mem_range] at hc
        simpa using hcon c hc
      obtain ⟨c, hc, hcp⟩ := hex
      exact hnn c hc hcp (hall c (by omega) (by omega) hcp)
    obtain ⟨hle1, hlt1, hpat1, hat1, _⟩ :=
      treeNextDenseGo_found m d (-1) i m.nv 0 (hrw1 ▸ hr11)
    set q1 := (treeNext m d (-1) i 0).2 with hq1def
    set tree1 := (treeNext m d (-1) i 0).1 with htree1def
    rw [← hrw1] at hle1 hlt1 hpat1 hat1
    have hq1lt : q1 < m.nv := by omega
    have hbefore1 : ∀ p, p < q1 → d.efc_J (m.nv * i + p) = true → False := by
      intro p hp hpat
      have := hspec1.2 (hrw1 ▸ hr11) p (by omega) (by rw [← hrw1]; exact hp) hpat
      exact hnn p (by omega) hpat this
    have htree1row : tree1 ∈ rowTreeList m d i :=
      (rowTreeList_dense_mem m d i hs' _).mpr ⟨q1, hq1lt, hpat1, hat1⟩
    have htree1ne : tree1 ≠ -1 := by
      have := (hrange _ htree1row).1
      omega
    have hrw2 : treeNext m d tree1 i q1 = treeNextDenseGo m d tree1 i q1 (m.nv - q1) := by
      simp [treeNext, hs', treeNextDenseAux]
    have hspec2 := treeNextDenseGo_spec m d tree1 i (m.nv - q1) q1
      (fun p h1 h2 hp => hnn p (by omega) hp)
    rw [findEdgesRow] at hrun
    by_cases hr21 : (treeNext m d tree1 i q1).1 = -1
    · rw [if_pos (by rw [← htree1def, ← hq1def]; exact hr21)] at hrun
      obtain ⟨hq2, hall⟩ := hspec2.1 (hrw2 ▸ hr21)
      have hallt : ∀ t ∈ rowTreeList m d i, t = tree1 := by
        intro t ht
        obtain ⟨p, hp, hppat, hpt⟩ := (rowTreeList_dense_mem m d i hs' _).mp ht
        by_cases hpq : p < q1
        · exact absurd hppat (fun hc => hbefore1 p hpq hc)
        · rw [← hpt]
          exact hall p (by omega) (by omega) hppat
      obtain ⟨hok', hsub', hin1, hin2⟩ := addEdge_ok m d tn E tree1 tree1 nedge_max tnF EF
        hrun hok i hi
        (fun t ht _ => by rcases ht with ht | ht <;> (rw [ht]; exact htree1row))
        hrange
      have hfold : fold1 tree1 tree1 = tree1 ∧ fold2 tree1 tree1 = tree1 := by
        constructor
        · rw [fold1, if_neg htree1ne]
        · rw [fold2, if_neg htree1ne]
      rw [hfold.1, hfold.2] at hin1
      refine ⟨hok', hsub', fun t ht t' ht' => ?_, fun t ht => ?_⟩
      · rw [hallt t ht, hallt t' ht']
        exact Relation.ReflTransGen.refl
      · rw [hallt t ht]
        exact ⟨tree1, hin1⟩
    · rw [if_neg (by rw [← htree1def, ← hq1def]; exact hr21)] at hrun
      obtain ⟨hle2, hlt2, hpat2, hat2, hne2⟩ :=
        treeNextDenseGo_found m d tree1 i (m.nv - q1) q1 (hrw2 ▸ hr21)
      set q2 := (treeNext m d tree1 i q1).2 with hq2def
      set tree2 := (treeNext m d tree1 i q1).1 with htree2def
      rw [← hrw2] at hle2 hlt2 hpat2 hat2 hne2
      have hq2lt : q2 < m.nv := by omega
      have htree2row : tree2 ∈ rowTreeList m d i :=
        (rowTreeList_dense_mem m d i hs' _).mpr ⟨q2, hq2lt, hpat2, hat2⟩
      have hbetween2 : ∀ p, q1 ≤ p → p < q2 → d.efc_J (m.nv * i + p) = true →
          m.dof_treeid p = tree1 := by
        intro p h1 h2 hp
        exact hspec2.2 (hrw2 ▸ hr21) p h1 (by rw [← hrw2]; exact h2) hp
      cases haE : addEdge tn E tree1 tree2 nedge_max with
      | error e => rw [haE] at hrun; cases hrun
      | ok s =>
        rw [haE] at hrun
        obtain ⟨hok', hsub', hin1, hin2⟩ := addEdge_ok m d tn E tree1 tree2 nedge_max s.1 s.2
          (by rw [haE]) hok i hi
          (fun t ht _ => by
            rcases ht with ht | ht
            · rw [ht]; exact htree1row
            · rw [ht]; exact htree2row)
          hrange
        have hfold1 : fold1 tree1 tree2 = tree1 := by rw [fold1, if_neg htree1ne]
        have hfold2 : fold2 tree1 tree2 = tree2 := by
          rw [fold2, if_neg (show ¬ tree2 = -1 from hr21)]
        rw [hfold1, hfold2] at hin1 hin2
        have hchain := edgeChain_dense m d hs' nedge_max i hi hrange
          (scanLen m d i + 1) q2 tree2 s.1 s.2 tnF EF hq2lt hpat2 hat2 hok'
          (by
            intro p hp hppat
            by_cases hpq : p = q2
            · rw [hpq, hat2]
              exact Relation.ReflTransGen.refl
            · by_cases hpq1 : p < q1
              · exact absurd hppat (fun hc => hbefore1 p hpq1 hc)
              · have : m.dof_treeid p = tree1 := hbetween2 p (by omega) (by omega) hppat
                rw [this]
                exact Relation.ReflTransGen.single hin1)
          (by
            intro p hp hppat
            by_cases hpq : p = q2
            · rw [hpq, hat2]
              exact ⟨tree1, hin2⟩
            · by_cases hpq1 : p < q1
              · exact absurd hppat (fun hc => hbefore1 p hpq1 hc)
              · have : m.dof_treeid p = tree1 := hbetween2 p (by omega) (by omega) hppat
                rw [this]
                exact ⟨tree2, hin1⟩)
          (by rw [scanLen, if_neg (by simp [hs'])]; omega) hrun
        obtain ⟨hokF, hsubF, hB1F, hB2F⟩ := hchain
        have hsymF := hokF.1
        refine ⟨hokF, fun e he => hsubF _ (hsub' _ he), fun t ht t' ht' => ?_, fun t ht => ?_⟩
        · obtain ⟨p, hp, hppat, hpt⟩ := (rowTreeList_dense_mem m d i hs' _).mp ht
          obtain ⟨p', hp', hppat', hpt'⟩ := (rowTreeList_dense_mem m d i hs' _).mp ht'
          have h1 := hB1F p hp hppat
          have h2 := hB1F p' hp' hppat'
          rw [hpt] at h1
          rw [hpt'] at h2
          exact Relation.ReflTransGen.trans h1 (EConn_symm hsymF h2)
        · obtain ⟨p, hp, hppat, hpt⟩ := (rowTreeList_dense_mem m d i hs' _).mp ht
          have := hB2F p hp hppat
          rw [hpt] at this
          exact this

/-- Fast-path endpoint pair of row `i` as dispatched by `findEdges`:
`some (a, b)` for the families handled without scanning the Jacobian,
`none` for the generic families (tendons, non-connect/weld equalities). -/
def eventTreePair (m : MjModel) (d : MjData) (i : Nat) : Option (Int × Int) :=
  match d.efc_type i with
  | .FRICTION_DOF =>
    some (m.dof_treeid (d.efc_id i), m.dof_treeid (d.efc_id i))
  | .LIMIT_JOINT =>
    some (m.dof_treeid (m.jnt_dofadr (d.efc_id i)), m.dof_treeid (m.jnt_dofadr (d.efc_id i)))
  | .CONTACT_FRICTIONLESS | .CONTACT_PYRAMIDAL | .CONTACT_ELLIPTIC =>
    some (m.body_treeid (m.geom_bodyid (d.con_geom1 (d.efc_id i))),
      m.body_treeid (m.geom_bodyid (d.con_geom2 (d.efc_id i))))
  | .EQUALITY =>
    match m.eq_type (d.efc_id i) with
    | .CONNECT | .WELD =>
      some (m.body_treeid (m.eq_obj1id (d.efc_id i)), m.body_treeid (m.eq_obj2id (d.efc_id i)))
    | _ => none
  | _ => none

/-- Legality of row `i`: for fast-path rows, the endpoints are not both
static and the Jacobian's incident trees are exactly the non-static
endpoints (the alignment that upstream constraint assembly guarantees);
for generic rows the Jacobian row touches at least one DoF. -/
def ValidRow (m : MjModel) (d : MjData) (i : Nat) : Prop :=
  match eventTreePair m d i with
  | some ab =>
    ¬ (ab.1 = -1 ∧ ab.2 = -1) ∧
    (∀ t ∈ rowTreeList m d i, (t = ab.1 ∨ t = ab.2) ∧ t ≠ -1) ∧
    (ab.1 ≠ -1 → ab.1 ∈ rowTreeList m d i) ∧
    (ab.2 ≠ -1 → ab.2 ∈ rowTreeList m d i)
  | none => rowTreeList m d i ≠ []

instance (m : MjModel) (d : MjData) (i : Nat) : Decidable (ValidRow m d i) := by
  unfold ValidRow
  cases h : eventTreePair m d i <;> simp only [h] <;> infer_instance

/-- Legality of a `(model, data)` pair for island discovery: DoF tree ids
are in range, every row's incident trees are tree ids, every row is
individually legal, and consecutive rows of one logical constraint have
the same incident trees. -/
def Valid (m : MjModel) (d : MjData) : Prop :=
  (∀ i, i < m.nv → 0 ≤ m.dof_treeid i ∧ m.dof_treeid i < (m.ntree : Int)) ∧
  (∀ i, i < d.nefc → ∀ t ∈ rowTreeList m d i, 0 ≤ t ∧ t < (m.ntree : Int)) ∧
  (∀ i, i < d.nefc → ValidRow m d i) ∧
  (∀ i, i < d.nefc → 0 < i →
    (d.efc_type i, d.efc_id i) = (d.efc_type (i - 1), d.efc_id (i - 1)) →
    rowTreeList m d i = rowTreeList m d (i - 1))

instance (m : MjModel) (d : MjData) : Decidable (Valid m d) := by
  unfold Valid
  infer_instance

/-- Dispatch of one non-skipped row of the collector loop: the fast-path
families reduce to a single `addEdge`, everything else to
`findEdgesRow`. -/
theorem findEdgesLoop_cons (m : MjModel) (d : MjData) (nedge_max i : Nat)
    (rest : List Nat) (prev : Option (mjtConstraint × Nat)) (tn : Int → Nat)
    (E : List (Int × Int)) (hskip : ¬ prev = some (d.efc_type i, d.efc_id i)) :
    findEdgesLoop m d nedge_max (i :: rest) prev tn E
      = match (match eventTreePair m d i with
               | some ab => addEdge tn E ab.1 ab.2 nedge_max
               | none => findEdgesRow m d nedge_max i tn E) with
        | .error e => .error e
        | .ok s => findEdgesLoop m d nedge_max rest (some (d.efc_type i, d.efc_id i)) s.1 s.2 := by
  simp only [findEdgesLoop]
  rw [if_neg hskip]
  cases ht : d.efc_type i <;> simp only [eventTreePair, ht]
  case EQUALITY =>
    cases he : m.eq_type (d.efc_id i) <;> simp only [he]

/-- Invariant of the collector loop: starting from a well-formed state
with all rows before `i` completed, a successful run over the remaining
indices yields a well-formed state with every row completed. -/
theorem findEdgesLoop_inv (m : MjModel) (d : MjData) (nedge_max : Nat) (hv : Valid m d) :
    ∀ cnt i prev tn E tnF EF,
      i + cnt = d.nefc →
      (i = 0 → prev = none) →
      (∀ i', i = i' + 1 → prev = some (d.efc_type i', d.efc_id i')) →
      EdgesOk m d tn E →
      (∀ j, j < i → RowDone m d j E) →
      findEdgesLoop m d nedge_max (List.range' i cnt) prev tn E = .ok (tnF, EF) →
      EdgesOk m d tnF EF ∧ ∀ j, j < d.nefc → RowDone m d j EF := by
  intro cnt
  induction cnt with
  | zero =>
    intro i prev tn E tnF EF hsum _ _ hok hdone hrun
    have hn : List.range' i 0 = [] := rfl
    rw [hn] at hrun
    simp only [findEdgesLoop] at hrun
    injection hrun with hrun
    injection hrun with h1 h2
    subst h1; subst h2
    exact ⟨hok, fun j hj => hdone j (by omega)⟩
  | succ cnt ih =>
    intro i prev tn E tnF EF hsum hprev0 hprevS hok hdone hrun
    have hi : i < d.nefc := by omega
    have hc : List.range' i (cnt + 1) = i :: List.range' (i + 1) cnt := rfl
    rw [hc] at hrun
    by_cases hskip : prev = some (d.efc_type i, d.efc_id i)
    · -- row in the same logical constraint as its predecessor: skipped
      have hskip0 := hskip
      simp only [findEdgesLoop] at hrun
      rw [if_pos hskip0] at hrun
      have hipos : 0 < i := by
        rcases Nat.eq_zero_or_pos i with h0 | h
        · rw [hprev0 h0] at hskip; cases hskip
        · exact h
      obtain ⟨i'', hi''⟩ : ∃ i'', i = i'' + 1 := ⟨i - 1, by omega⟩
      have hpe := hprevS i'' hi''
      rw [hpe] at hskip
      injection hskip with hinj
      have h12 : i - 1 = i'' := by omega
      have hpair : (d.efc_type i, d.efc_id i) = (d.efc_type (i - 1), d.efc_id (i - 1)) := by
        rw [h12]; exact hinj.symm
      have hrows := hv.2.2.2 i hi hipos hpair
      rw [h12] at hrows
      have hdone' : ∀ j, j < i + 1 → RowDone m d j E := by
        intro j hj
        rcases Nat.lt_or_ge j i with h | h
        · exact hdone j h
        · have hji : j = i := by omega
          subst hji
          have hd'' := hdone i'' (by omega)
          unfold RowDone at hd'' ⊢
          rw [hrows]
          exact hd''
      exact ih (i + 1) prev tn E tnF EF (by omega)
        (fun h => absurd h (by omega))
        (fun i' h => by
          have hii : i' = i := by omega
          rw [hii]; exact hskip0)
        hok hdone' hrun
    · -- processed row
      rw [findEdgesLoop_cons m d nedge_max i (List.range' (i + 1) cnt) prev tn E hskip] at hrun
      have hvr := hv.2.2.1 i hi
      unfold ValidRow at hvr
      cases hev : eventTreePair m d i with
      | some ab =>
        simp only [hev] at hrun hvr
        obtain ⟨hnb, hfwd, hm1, hm2⟩ := hvr
        cases hstep : addEdge tn E ab.1 ab.2 nedge_max with
        | error e => rw [hstep] at hrun; cases hrun
        | ok s =>
          simp only [hstep] at hrun
          have hadd := addEdge_ok m d tn E ab.1 ab.2 nedge_max s.1 s.2 (by rw [hstep])
            hok i hi
            (fun t ht htne => by
              rcases ht with h | h
              · rw [h]; exact hm1 (h ▸ htne)
              · rw [h]; exact hm2 (h ▸ htne))
            (hv.2.1 i hi)
          obtain ⟨hok', hsub', hrec1, hrec2⟩ := hadd
          have hkey : ∀ u, (u = ab.1 ∨ u = ab.2) → u ≠ -1 →
              u = fold1 ab.1 ab.2 ∨ u = fold2 ab.1 ab.2 := by
            intro u hu hune
            rcases hu with h | h
            · subst h; left; rw [fold1, if_neg hune]
            · subst h; right; rw [fold2, if_neg hune]
          have hdi : RowDone m d i s.2 := by
            constructor
            · intro t ht t' ht'
              obtain ⟨hto, htne⟩ := hfwd t ht
              obtain ⟨hto', htne'⟩ := hfwd t' ht'
              rcases hkey t hto htne with h1 | h1 <;>
                rcases hkey t' hto' htne' with h2 | h2 <;> subst h1 <;> subst h2
              · exact Relation.ReflTransGen.refl
              · exact Relation.ReflTransGen.single hrec1
              · exact Relation.ReflTransGen.single hrec2
              · exact Relation.ReflTransGen.refl
            · intro t ht
              obtain ⟨hto, htne⟩ := hfwd t ht
              rcases hkey t hto htne with h | h
              · subst h; exact ⟨_, hrec1⟩
              · subst h; exact ⟨_, hrec2⟩
          exact ih (i + 1) (some (d.efc_type i, d.efc_id i)) s.1 s.2 tnF EF (by omega)
            (fun h => absurd h (by omega))
            (fun i' h => by
              have hii : i' = i := by omega
              rw [hii])
            hok'
            (fun j hj => by
              rcases Nat.lt_or_ge j i with h | h
              · exact RowDone_mono hsub' (hdone j h)
              · have hji : j = i := by omega
                subst hji; exact hdi)
            hrun
      | none =>
        simp only [hev] at hrun hvr
        cases hstep : findEdgesRow m d nedge_max i tn E with
        | error e => rw [hstep] at hrun; cases hrun
        | ok s =>
          simp only [hstep] at hrun
          have hrow := findEdgesRow_ok m d nedge_max i hi hvr (hv.2.1 i hi)
            tn E s.1 s.2 hok (by rw [hstep])
          obtain ⟨hok', hsub', hdi⟩ := hrow
          exact ih (i + 1) (some (d.efc_type i, d.efc_id i)) s.1 s.2 tnF EF (by omega)
            (fun h => absurd h (by omega))
            (fun i' h => by
              have hii : i' = i := by omega
              rw [hii])
            hok'
            (fun j hj => by
              rcases Nat.lt_or_ge j i with h | h
              · exact RowDone_mono hsub' (hdone j h)
              · have hji : j = i := by omega
                subst hji; exact hdi)
            hrun

/-- Top-level collector correctness: a successful `findEdges` on a legal
pair returns a flip-closed, counted, ranged, justified record list that
completes every constraint row. -/
theorem findEdges_spec (m : MjModel) (d : MjData) (nedge_max : Nat) (hv : Valid m d)
    (tnF : Int → Nat) (EF : List (Int × Int))
    (hrun : findEdges m d nedge_max = .ok (tnF, EF)) :
    EdgesOk m d tnF EF ∧ ∀ j, j < d.nefc → RowDone m d j EF := by
  have hinit : EdgesOk m d (fun _ => 0) [] := by
    refine ⟨by simp, fun t => by simp [countSrc], by simp, by simp⟩
  have hrng : List.range d.nefc = List.range' 0 d.nefc := List.range_eq_range' d.nefc
  rw [findEdges, hrng] at hrun
  exact findEdgesLoop_inv m d nedge_max hv d.nefc 0 none (fun _ => 0) [] tnF EF
    (by omega) (fun _ => rfl) (fun i' h => absurd h (by omega)) hinit
    (fun j hj => absurd hj (by omega)) hrun

/-- The CSR row-address function of `mj_island`: prefix sums of the
per-tree record counts. -/
def csrAdr (tn : Int → Nat) : Int → Nat :=
  fun t => buildRowadr tn t.toNat

theorem countSrc_split (A B : List (Int × Int)) (t : Int) :
    countSrc (A ++ B) t = countSrc A t + countSrc B t := by
  simp [countSrc, List.filter_append]

theorem buildRowadr_mono (tn : Int → Nat) : ∀ a b, a ≤ b →
    buildRowadr tn a ≤ buildRowadr tn b := by
  intro a b
  induction b with
  | zero =>
    intro h
    have ha : a = 0 := by omega
    rw [ha]
  | succ b ih =>
    intro h
    rcases Nat.lt_or_ge a (b + 1) with h' | h'
    · have := ih (by omega)
      calc buildRowadr tn a ≤ buildRowadr tn b := this
        _ ≤ buildRowadr tn b + tn (b : Int) := by omega
        _ = buildRowadr tn (b + 1) := rfl
    · have : a = b + 1 := by omega
      rw [this]

/-- Distinct trees' CSR windows are disjoint. -/
theorem csr_pos_disjoint (tn : Int → Nat) (s t : Int) (hs : 0 ≤ s) (ht : 0 ≤ t)
    (hne : s ≠ t) (k1 k2 : Nat) (hk1 : k1 < tn s) (hk2 : k2 < tn t) :
    csrAdr tn s + k1 ≠ csrAdr tn t + k2 := by
  have hcast : ∀ u : Int, 0 ≤ u → ((u.toNat : Int)) = u := fun u hu => Int.toNat_of_nonneg hu
  have hkey : ∀ a b : Int, 0 ≤ a → 0 ≤ b → a.toNat < b.toNat →
      ∀ j1 j2 : Nat, j1 < tn a → csrAdr tn a + j1 < csrAdr tn b + j2 := by
    intro a b ha hb hab j1 j2 hj1
    have h1 : csrAdr tn a + j1 < buildRowadr tn a.toNat + tn a := by
      simp only [csrAdr]; omega
    have h2 : buildRowadr tn a.toNat + tn a = buildRowadr tn (a.toNat + 1) := by
      have : tn ((a.toNat : Nat) : Int) = tn a := by rw [hcast a ha]
      simp only [buildRowadr, this]
    have h3 : buildRowadr tn (a.toNat + 1) ≤ buildRowadr tn b.toNat :=
      buildRowadr_mono tn _ _ (by omega)
    simp only [csrAdr]
    omega
  have htne : s.toNat ≠ t.toNat := by
    intro h
    apply hne
    rw [← hcast s hs, ← hcast t ht, h]
  rcases Nat.lt_or_ge s.toNat t.toNat with h | h
  · exact Nat.ne_of_lt (hkey s t hs ht h k1 k2 hk1)
  · have h' : t.toNat < s.toNat := by omega
    exact (Nat.ne_of_lt (hkey t s ht hs h' k2 k1 hk2)).symm

/-- Invariant of the scatter loop (engine_island.c:353-358): after
processing a prefix, the partial counts count the prefix's sources and
each tree's CSR window holds, in order, the columns of the prefix's
records with that source. -/
theorem scatterEdges_go (tn : Int → Nat) (ntree : Nat) (EAll : List (Int × Int))
    (hrange : ∀ e ∈ EAll, 0 ≤ e.1 ∧ e.1 < (ntree : Int))
    (htn : ∀ t, tn t = countSrc EAll t) :
    ∀ rest pre cnt col,
      EAll = pre ++ rest →
      (∀ t, cnt t = countSrc pre t) →
      (∀ t : Int, 0 ≤ t → t < (ntree : Int) →
        (List.range (cnt t)).map (fun k => col (csrAdr tn t + k))
          = (pre.filter (fun e => e.1 = t)).map Prod.snd) →
      (∀ t, (scatterEdges (csrAdr tn) rest cnt col).1 t = countSrc EAll t) ∧
      (∀ t : Int, 0 ≤ t → t < (ntree : Int) →
        (List.range ((scatterEdges (csrAdr tn) rest cnt col).1 t)).map
            (fun k => (scatterEdges (csrAdr tn) rest cnt col).2 (csrAdr tn t + k))
          = (EAll.filter (fun e => e.1 = t)).map Prod.snd) := by
  intro rest
  induction rest with
  | nil =>
    intro pre cnt col hsplit hcnt hrows
    have hpre : pre = EAll := by rw [hsplit, List.append_nil]
    subst hpre
    simp only [scatterEdges]
    exact ⟨hcnt, hrows⟩
  | cons e rest ih =>
    intro pre cnt col hsplit hcnt hrows
    obtain ⟨r, c⟩ := e
    have hsplit' : EAll = (pre ++ [(r, c)]) ++ rest := by
      rw [hsplit, List.append_assoc]; rfl
    have hrc : (r, c) ∈ EAll := by
      rw [hsplit]; exact List.mem_append_right _ (List.mem_cons_self _ _)
    have hrr := hrange _ hrc
    have hcntbound : ∀ t : Int, countSrc pre t + countSrc ((r, c) :: rest) t = tn t := by
      intro t
      rw [htn t, hsplit, countSrc_split]
    have hcr : cnt r < tn r := by
      have h1 := hcntbound r
      have h2 : countSrc ((r, c) :: rest) r = countSrc rest r + 1 := by
        simp [countSrc, List.filter_cons]
      rw [hcnt r]
      omega
    simp only [scatterEdges]
    apply ih (pre ++ [(r, c)]) _ _ hsplit'
    · intro t
      rw [countSrc_split]
      by_cases hteq : r = t
      · subst hteq
        rw [Function.update_same, hcnt r]
        simp [countSrc]
      · rw [Function.update_noteq (by exact fun h => hteq h.symm), hcnt t]
        simp [countSrc, hteq]
    · intro t h0 h1
      by_cases hteq : r = t
      · subst hteq
        rw [Function.update_same, List.range_succ, List.map_append]
        have hfil : ((pre ++ [(r, c)]).filter (fun e => e.1 = r)).map Prod.snd
            = (pre.filter (fun e => e.1 = r)).map Prod.snd ++ [c] := by
          rw [List.filter_append]
          simp
        rw [hfil]
        congr 1
        · rw [← hrows r h0 h1]
          apply List.map_congr_left
          intro k hk
          simp only [List.mem_range] at hk
          exact Function.update_noteq (by omega) _ _
        · simp
      · rw [Function.update_noteq (by exact fun h => hteq h.symm)]
        have hfil : ((pre ++ [(r, c)]).filter (fun e => e.1 = t)).map Prod.snd
            = (pre.filter (fun e => e.1 = t)).map Prod.snd := by
          rw [List.filter_append]
          simp [hteq]
        rw [hfil, ← hrows t h0 h1]
        apply List.map_congr_left
        intro k hk
        simp only [List.mem_range] at hk
        have hkt : k < tn t := by
          have h1' := hcntbound t
          have := hcnt t
          omega
        exact Function.update_noteq
          (csr_pos_disjoint tn t r h0 hrr.1 (fun h => hteq h.symm) k (cnt r) hkt hcr) _ _

/-- The tree-adjacency CSR graph built by `mj_island`
(engine_island.c:341-358) from the collector output. -/
def edgeGraph (ntree : Nat) (tn : Int → Nat) (E : List (Int × Int)) : FFGraph :=
  { nr := ntree
    rownnz := (scatterEdges (csrAdr tn) E (fun _ => 0) (fun _ => 0)).1
    rowadr := csrAdr tn
    colind := (scatterEdges (csrAdr tn) E (fun _ => 0) (fun _ => 0)).2 }

theorem edgeGraph_spec (ntree : Nat) (tn : Int → Nat) (E : List (Int × Int))
    (hrange : ∀ e ∈ E, 0 ≤ e.1 ∧ e.1 < (ntree : Int))
    (htn : ∀ t, tn t = countSrc E t) :
    (∀ t, (edgeGraph ntree tn E).rownnz t = countSrc E t) ∧
    (∀ t : Int, 0 ≤ t → t < (ntree : Int) →
      (edgeGraph ntree tn E).row t = (E.filter (fun e => e.1 = t)).map Prod.snd) := by
  have h := scatterEdges_go tn ntree E hrange htn E [] (fun _ => 0) (fun _ => 0)
    rfl (fun t => by simp [countSrc]) (fun t _ _ => by simp)
  exact ⟨h.1, fun t h0 h1 => h.2 t h0 h1⟩

/-- Membership in a CSR row is exactly having a record with that
source. -/
theorem edgeGraph_mem (ntree : Nat) (tn : Int → Nat) (E : List (Int × Int))
    (hrange : ∀ e ∈ E, 0 ≤ e.1 ∧ e.1 < (ntree : Int))
    (htn : ∀ t, tn t = countSrc E t)
    (t : Int) (h0 : 0 ≤ t) (h1 : t < (ntree : Int)) (w : Int) :
    w ∈ (edgeGraph ntree tn E).row t ↔ (t, w) ∈ E := by
  rw [(edgeGraph_spec ntree tn E hrange htn).2 t h0 h1]
  simp only [List.mem_map, List.mem_filter]
  constructor
  · rintro ⟨e, ⟨he, hsrc⟩, hsnd⟩
    have hsrc' : e.1 = t := by simpa using hsrc
    have : e = (t, w) := by
      obtain ⟨a, b⟩ := e
      simp only at hsrc' hsnd
      rw [hsrc', hsnd]
    rw [← this]; exact he
  · intro h
    exact ⟨(t, w), ⟨h, by simp⟩, rfl⟩

/-- The built graph is a valid flood-fill input whenever the collector
state is well-formed. -/
theorem edgeGraph_valid (m : MjModel) (d : MjData) (tn : Int → Nat)
    (E : List (Int × Int)) (hok : EdgesOk m d tn E) :
    FFValid (edgeGraph (m.ntree) tn E) := by
  obtain ⟨hflip, hcnt, hrng, _⟩ := hok
  have hrange : ∀ e ∈ E, 0 ≤ e.1 ∧ e.1 < ((m.ntree : Nat) : Int) :=
    fun e he => ⟨(hrng e he).1, (hrng e he).2.1⟩
  constructor
  · intro v hv w hw
    have hmem := (edgeGraph_mem m.ntree tn E hrange hcnt (v : Int)
      (Int.ofNat_nonneg v) (by exact_mod_cast hv) w).mp hw
    exact ⟨(hrng _ hmem).2.2.1, (hrng _ hmem).2.2.2⟩
  · intro v hv w hw
    have hmem := (edgeGraph_mem m.ntree tn E hrange hcnt (v : Int)
      (Int.ofNat_nonneg v) (by exact_mod_cast hv) w).mp hw
    have hflipm := hflip _ hmem
    have hwrng := hrng _ hmem
    exact (edgeGraph_mem m.ntree tn E hrange hcnt w hwrng.2.2.1 hwrng.2.2.2
      (v : Int)).mpr hflipm

/-- Connectivity in the built graph is record connectivity. -/
theorem edgeGraph_conn (m : MjModel) (d : MjData) (tn : Int → Nat)
    (E : List (Int × Int)) (hok : EdgesOk m d tn E) (a b : Int) :
    ffConn (edgeGraph (m.ntree) tn E) a b ↔ EConn E a b := by
  obtain ⟨hflip, hcnt, hrng, _⟩ := hok
  have hrange : ∀ e ∈ E, 0 ≤ e.1 ∧ e.1 < ((m.ntree : Nat) : Int) :=
    fun e he => ⟨(hrng e he).1, (hrng e he).2.1⟩
  have hadj : ∀ x y : Int, ffAdj (edgeGraph (m.ntree) tn E) x y ↔ (x, y) ∈ E := by
    intro x y
    constructor
    · rintro ⟨h0, h1, h2⟩
      exact (edgeGraph_mem m.ntree tn E hrange hcnt x h0 h1 y).mp h2
    · intro h
      have h1 := hrng _ h
      exact ⟨h1.1, h1.2.1, (edgeGraph_mem m.ntree tn E hrange hcnt x h1.1 h1.2.1 y).mpr h⟩
  constructor
  · intro h
    exact Relation.ReflTransGen.mono (fun x y hxy => (hadj x y).mp hxy) h
  · intro h
    exact Relation.ReflTransGen.mono (fun x y hxy => (hadj x y).mpr hxy) h

/-- A tree's row is nonempty iff some record has it as source. -/
theorem edgeGraph_rownnz_ne (ntree : Nat) (tn : Int → Nat) (E : List (Int × Int))
    (hrange : ∀ e ∈ E, 0 ≤ e.1 ∧ e.1 < (ntree : Int))
    (htn : ∀ t, tn t = countSrc E t) (t : Int) :
    (edgeGraph ntree tn E).rownnz t ≠ 0 ↔ ∃ x, (t, x) ∈ E := by
  rw [(edgeGraph_spec ntree tn E hrange htn).1 t]
  simp only [countSrc]
  constructor
  · intro h
    rcases hne : E.filter (fun e => e.1 = t) with _ | ⟨e, es⟩
    · rw [hne] at h; simp at h
    · have he : e ∈ E.filter (fun e => e.1 = t) := by rw [hne]; simp
      rw [List.mem_filter] at he
      have hsrc : e.1 = t := by simpa using he.2
      refine ⟨e.2, ?_⟩
      have : e = (t, e.2) := by
        obtain ⟨a, b⟩ := e
        simp only at hsrc ⊢
        rw [hsrc]
      rw [← this]; exact he.1
  · rintro ⟨x, hx⟩
    intro hlen
    rw [List.length_eq_zero] at hlen
    have : (t, x) ∈ E.filter (fun e => e.1 = t) := by
      rw [List.mem_filter]; exact ⟨hx, by simp⟩
    rw [hlen] at this
    cases this

/-- Walk an intrusive next-linked list from a head address until the `-1`
sentinel (the traversal downstream solvers perform), fueled. -/
def walk (nxt : Int → Int) : Int → Nat → List Int
  | _, 0 => []
  | adr, fuel + 1 => if adr = -1 then [] else adr :: walk nxt (nxt adr) fuel

/-- Members of island `k` among the first `n` elements, ascending. -/
def islMembers (idv : Nat → Int) (n : Nat) (k : Int) : List Int :=
  List.map (fun j : Nat => (j : Int)) ((List.range n).filter (fun j => idv j = k))

/-- Island ids discovered among the first `n` elements. -/
def foundIds (idv : Nat → Int) (n : Nat) : Finset Int :=
  ((Finset.range n).image (fun j => idv j)).filter (fun k => ¬ k = -1)

/-- Invariant of the threading sweeps after the first `n` elements: the
island array records the ids, unthreaded elements have next-link `-1`,
each discovered island's last/head scratch entries frame its member list,
the next-links chain the members in order, and the found counter counts
the discovered ids. -/
def TSInv (idv : Nat → Int) (n : Nat) (st : ThreadSt) : Prop :=
  (∀ j : Nat, j < n → st.isl (j : Int) = idv j) ∧
  (∀ j : Nat, j < n → idv j = -1 → st.nxt (j : Int) = -1) ∧
  (∀ k : Int, ¬ k = -1 →
    (islMembers idv n k = [] → st.last k = -1) ∧
    (islMembers idv n k ≠ [] →
      (islMembers idv n k).getLast? = some (st.last k) ∧
      (islMembers idv n k).head? = some (st.adr k) ∧
      List.Chain' (fun a b => st.nxt a = b) (islMembers idv n k))) ∧
  st.nfound = (foundIds idv n).card

theorem islMembers_mem {idv : Nat → Int} {n : Nat} {k : Int} {x : Int} :
    x ∈ islMembers idv n k ↔ ∃ j : Nat, j < n ∧ idv j = k ∧ x = (j : Int) := by
  unfold islMembers
  rw [List.mem_map]
  constructor
  · rintro ⟨j, hj, hx⟩
    rw [List.mem_filter, List.mem_range] at hj
    exact ⟨j, hj.1, by simpa using hj.2, hx.symm⟩
  · rintro ⟨j, hj, hid, hx⟩
    exact ⟨j, List.mem_filter.mpr ⟨List.mem_range.mpr hj, by simpa using hid⟩, hx.symm⟩

theorem islMembers_nonneg {idv : Nat → Int} {n : Nat} {k : Int} {x : Int}
    (h : x ∈ islMembers idv n k) : 0 ≤ x := by
  obtain ⟨j, _, _, hx⟩ := islMembers_mem.mp h
  rw [hx]; exact Int.ofNat_nonneg j

theorem islMembers_succ (idv : Nat → Int) (n : Nat) (k : Int) :
    islMembers idv (n + 1) k
      = islMembers idv n k ++ (if idv n = k then [(n : Int)] else []) := by
  simp only [islMembers, List.range_succ, List.filter_append, List.map_append]
  by_cases h : idv n = k
  · simp [h]
  · simp [h]

theorem islMembers_pairwise (idv : Nat → Int) (n : Nat) (k : Int) :
    List.Pairwise (fun a b : Int => a < b) (islMembers idv n k) := by
  unfold islMembers
  refine List.Pairwise.map (fun j : Nat => (j : Int)) (fun a b h => by
      show ((a : Int) < (b : Int))
      exact_mod_cast h)
    (List.Pairwise.filter _ (List.pairwise_lt_range n))

theorem chain_eq_on {l : List Int} {f g : Int → Int}
    (h : ∀ i, (hi : i + 1 < l.length) → f (l.get ⟨i, by omega⟩) = g (l.get ⟨i, by omega⟩))
    (hch : List.Chain' (fun a b => f a = b) l) :
    List.Chain' (fun a b => g a = b) l := by
  rw [List.chain'_iff_get] at hch ⊢
  intro i hi
  rw [← h i (by omega)]
  exact hch i hi

/-- Interior members (every position but the last) of a pairwise-`<` list
differ from its last element. -/
theorem interior_ne_getLast {l : List Int}
    (hpw : List.Pairwise (fun a b : Int => a < b) l)
    (i : Nat) (hi : i + 1 < l.length) {x : Int} (hx : l.getLast? = some x) :
    l.get ⟨i, by omega⟩ ≠ x := by
  rw [List.getLast?_eq_getElem?] at hx
  rw [List.getElem?_eq_getElem (by omega)] at hx
  injection hx with hx
  have hg : l.get ⟨l.length - 1, by omega⟩ = x := by
    rw [← hx]
    simp [List.get_eq_getElem]
  rw [← hg]
  have hlt := (List.pairwise_iff_get.mp hpw) ⟨i, by omega⟩ ⟨l.length - 1, by omega⟩ (by
    simp only [Fin.mk_lt_mk]
    omega)
  exact Int.ne_of_lt hlt

theorem islMembers_eq_nil_iff {idv : Nat → Int} {n : Nat} {k : Int} :
    islMembers idv n k = [] ↔ ∀ j, j < n → ¬ idv j = k := by
  rw [List.eq_nil_iff_forall_not_mem]
  constructor
  · intro h j hj hk
    exact h ((j : Int)) (islMembers_mem.mpr ⟨j, hj, hk, rfl⟩)
  · intro h x hx
    obtain ⟨j, hj, hk, _⟩ := islMembers_mem.mp hx
    exact h j hj hk

theorem foundIds_mem {idv : Nat → Int} {n : Nat} {k : Int} :
    k ∈ foundIds idv n ↔ (∃ j, j < n ∧ idv j = k) ∧ ¬ k = -1 := by
  unfold foundIds
  rw [Finset.mem_filter, Finset.mem_image]
  simp only [Finset.mem_range]

theorem foundIds_succ (idv : Nat → Int) (n : Nat) :
    foundIds idv (n + 1)
      = if ¬ idv n = -1 then insert (idv n) (foundIds idv n) else foundIds idv n := by
  unfold foundIds
  rw [Finset.range_succ, Finset.image_insert, Finset.filter_insert]

/-- Threading step for an unthreaded element (`island = -1` in the DoF
sweep): record the id and the `-1` next-link. -/
theorem TSInv_unthreaded (idv : Nat → Int) (n : Nat) (st : ThreadSt)
    (hinv : TSInv idv n st) (hkv : idv n = -1) :
    TSInv idv (n + 1)
      { st with isl := Function.update st.isl (n : Int) (idv n)
                nxt := Function.update st.nxt (n : Int) (-1) } := by
  obtain ⟨hisl, hun, hper, hnf⟩ := hinv
  have hmem_ne : ∀ k : Int, ¬ k = -1 → ∀ x ∈ islMembers idv n k, x ≠ (n : Int) := by
    intro k hk x hx hxe
    obtain ⟨j, hj, hkj, hxj⟩ := islMembers_mem.mp hx
    have : j = n := by
      rw [hxj] at hxe
      exact_mod_cast hxe
    rw [this] at hkj
    rw [hkv] at hkj
    exact hk hkj.symm
  refine ⟨?_, ?_, ?_, ?_⟩
  · intro j hj
    dsimp only
    rcases Nat.lt_or_ge j n with h | h
    · rw [Function.update_noteq (by exact_mod_cast (by omega : ¬ j = n))]
      exact hisl j h
    · have hjn : j = n := by omega
      rw [hjn, Function.update_same]
  · intro j hj hjid
    dsimp only
    rcases Nat.lt_or_ge j n with h | h
    · rw [Function.update_noteq (by exact_mod_cast (by omega : ¬ j = n))]
      exact hun j h hjid
    · have hjn : j = n := by omega
      rw [hjn, Function.update_same]
  · intro k hk
    dsimp only
    have hms : islMembers idv (n + 1) k = islMembers idv n k := by
      rw [islMembers_succ, if_neg (by rw [hkv]; exact fun h => hk h.symm), List.append_nil]
    rw [hms]
    refine ⟨fun he => (hper k hk).1 he, fun hne => ?_⟩
    obtain ⟨hl, hh, hch⟩ := (hper k hk).2 hne
    refine ⟨hl, hh, ?_⟩
    refine chain_eq_on (fun i hi => ?_) hch
    exact (Function.update_noteq
      (hmem_ne k hk _ (List.get_mem _ _ _)) _ _).symm
  · show st.nfound = (foundIds idv (n + 1)).card
    rw [foundIds_succ, if_neg (by rw [hkv]; exact fun h => h rfl)]
    exact hnf

theorem head?_append_of_ne_nil {α : Type _} (l l' : List α) (h : l ≠ []) :
    (l ++ l').head? = l.head? := by
  cases l with
  | nil => exact absurd rfl h
  | cons a t => rfl

/-- Threading step for the first element of a new island: set the head
address, the last scratch, and bump the found counter. -/
theorem TSInv_first (idv : Nat → Int) (n : Nat) (st : ThreadSt)
    (hinv : TSInv idv n st) (hne : ¬ idv n = -1) (hlast : st.last (idv n) = -1) :
    TSInv idv (n + 1)
      { st with isl := Function.update st.isl (n : Int) (idv n)
                adr := Function.update st.adr (idv n) (n : Int)
                last := Function.update st.last (idv n) (n : Int)
                nfound := st.nfound + 1 } := by
  obtain ⟨hisl, hun, hper, hnf⟩ := hinv
  have hempty : islMembers idv n (idv n) = [] := by
    by_contra hne'
    obtain ⟨hl, _, _⟩ := (hper (idv n) hne).2 hne'
    rw [hlast] at hl
    have hm := mem_of_getLast?_eq hl
    have := islMembers_nonneg hm
    omega
  refine ⟨?_, ?_, ?_, ?_⟩
  · intro j hj
    dsimp only
    rcases Nat.lt_or_ge j n with h | h
    · rw [Function.update_noteq (by exact_mod_cast (by omega : ¬ j = n))]
      exact hisl j h
    · have hjn : j = n := by omega
      rw [hjn, Function.update_same]
  · intro j hj hjid
    dsimp only
    rcases Nat.lt_or_ge j n with h | h
    · exact hun j h hjid
    · have hjn : j = n := by omega
      rw [hjn] at hjid
      exact absurd hjid hne
  · intro k hk
    dsimp only
    by_cases hkeq : idv n = k
    · rw [← hkeq]
      rw [islMembers_succ, if_pos rfl, hempty, List.nil_append]
      refine ⟨fun h => absurd h (by simp), fun _ => ?_⟩
      rw [Function.update_same, Function.update_same]
      exact ⟨by simp, by simp, List.chain'_singleton _⟩
    · rw [islMembers_succ, if_neg hkeq, List.append_nil]
      rw [Function.update_noteq (fun h => hkeq h.symm),
        Function.update_noteq (fun h => hkeq h.symm)]
      exact hper k hk
  · show st.nfound + 1 = (foundIds idv (n + 1)).card
    rw [foundIds_succ, if_pos hne]
    have hnotmem : idv n ∉ foundIds idv n := by
      intro hmem
      obtain ⟨⟨j, hj, hkj⟩, _⟩ := foundIds_mem.mp hmem
      exact (islMembers_eq_nil_iff.mp hempty) j hj hkj
    rw [Finset.card_insert_of_not_mem hnotmem, hnf]

/-- Threading step appending an element to an existing island: link the
previous last element to it and update the last scratch. -/
theorem TSInv_append (idv : Nat → Int) (n : Nat) (st : ThreadSt)
    (hinv : TSInv idv n st) (hne : ¬ idv n = -1) (hlast : ¬ st.last (idv n) = -1) :
    TSInv idv (n + 1)
      { st with isl := Function.update st.isl (n : Int) (idv n)
                nxt := Function.update st.nxt (st.last (idv n)) (n : Int)
                last := Function.update st.last (idv n) (n : Int) } := by
  obtain ⟨hisl, hun, hper, hnf⟩ := hinv
  have hnonempty : islMembers idv n (idv n) ≠ [] := by
    intro h
    exact hlast ((hper (idv n) hne).1 h)
  obtain ⟨hl, hh, hch⟩ := (hper (idv n) hne).2 hnonempty
  have hpmem := mem_of_getLast?_eq hl
  obtain ⟨jp, hjp, hjpk, hjpx⟩ := islMembers_mem.mp hpmem
  refine ⟨?_, ?_, ?_, ?_⟩
  · intro j hj
    dsimp only
    rcases Nat.lt_or_ge j n with h | h
    · rw [Function.update_noteq (by exact_mod_cast (by omega : ¬ j = n))]
      exact hisl j h
    · have hjn : j = n := by omega
      rw [hjn, Function.update_same]
  · intro j hj hjid
    dsimp only
    rcases Nat.lt_or_ge j n with h | h
    · rw [Function.update_noteq (by
        rw [hjpx]
        have : ¬ j = jp := fun he => hne (by rw [← hjpk, ← he, hjid])
        exact_mod_cast this)]
      exact hun j h hjid
    · have hjn : j = n := by omega
      rw [hjn] at hjid
      exact absurd hjid hne
  · intro k hk
    dsimp only
    by_cases hkeq : idv n = k
    · rw [← hkeq]
      rw [islMembers_succ, if_pos rfl]
      refine ⟨fun h => absurd h (by simp), fun _ => ?_⟩
      rw [Function.update_same]
      refine ⟨List.getLast?_concat _, ?_, ?_⟩
      · rw [head?_append_of_ne_nil _ _ hnonempty, hh]
      · rw [List.chain'_append]
        refine ⟨?_, List.chain'_singleton _, ?_⟩
        · refine chain_eq_on (fun i hi => ?_) hch
          exact (Function.update_noteq
            (interior_ne_getLast (islMembers_pairwise idv n (idv n)) i hi hl) _ _).symm
        · intro x hx y hy
          rw [Option.mem_def, hl] at hx
          injection hx with hx
          simp only [List.head?_cons, Option.mem_some_iff] at hy
          rw [← hx, Function.update_same, hy]
    · rw [islMembers_succ, if_neg hkeq, List.append_nil]
      rw [Function.update_noteq (fun h => hkeq h.symm)]
      refine ⟨(hper k hk).1, fun hne' => ?_⟩
      obtain ⟨hl', hh', hch'⟩ := (hper k hk).2 hne'
      refine ⟨hl', hh', ?_⟩
      refine chain_eq_on (fun i hi => ?_) hch'
      refine (Function.update_noteq ?_ _ _).symm
      obtain ⟨ji, hji, hjik, hjix⟩ := islMembers_mem.mp (List.get_mem _ i _)
      rw [hjix, hjpx]
      have : ¬ ji = jp := fun he => hkeq (by rw [← hjpk, ← he, hjik])
      exact_mod_cast this
  · show st.nfound = (foundIds idv (n + 1)).card
    rw [foundIds_succ, if_pos hne]
    have hmemf : idv n ∈ foundIds idv n := by
      obtain ⟨x, hx⟩ := List.exists_mem_of_ne_nil _ hnonempty
      obtain ⟨j, hj, hkj, _⟩ := islMembers_mem.mp hx
      exact foundIds_mem.mpr ⟨⟨j, hj, hkj⟩, hne⟩
    rw [Finset.insert_eq_self.mpr hmemf]
    exact hnf

/-- A successful DoF-sweep step preserves the threading invariant. -/
theorem dofSweepStep_inv (m : MjModel) (ntree : Nat) (ti : Int → Int) (n : Nat)
    (st st' : ThreadSt)
    (hb : 0 ≤ m.dof_treeid n ∧ m.dof_treeid n < (ntree : Int))
    (hinv : TSInv (fun j => ti (m.dof_treeid j)) n st)
    (hrun : dofSweepStep m ntree ti st n = .ok st') :
    TSInv (fun j => ti (m.dof_treeid j)) (n + 1) st' := by
  have hread : treeRead ntree ti (m.dof_treeid n) = .ok (ti (m.dof_treeid n)) := by
    rw [treeRead, if_pos hb]
  simp only [dofSweepStep, hread] at hrun
  by_cases hiz : ti (m.dof_treeid n) = -1
  · rw [if_pos hiz] at hrun
    injection hrun with hrun
    rw [← hrun]
    exact TSInv_unthreaded (fun j => ti (m.dof_treeid j)) n st hinv hiz
  · rw [if_neg hiz] at hrun
    by_cases hfl : st.last (ti (m.dof_treeid n)) = -1
    · rw [if_pos hfl] at hrun
      injection hrun with hrun
      rw [← hrun]
      exact TSInv_first (fun j => ti (m.dof_treeid j)) n st hinv hiz hfl
    · rw [if_neg hfl] at hrun
      injection hrun with hrun
      rw [← hrun]
      exact TSInv_append (fun j => ti (m.dof_treeid j)) n st hinv hiz hfl

/-- A successful constraint-sweep step preserves the threading invariant;
success also certifies the row's first tree is a tree id with a genuine
island. -/
theorem efcSweepStep_inv (m : MjModel) (d : MjData) (ntree : Nat) (ti : Int → Int)
    (n : Nat) (st st' : ThreadSt)
    (hinv : TSInv (fun j => ti ((treeNext m d (-1) j 0).1)) n st)
    (hrun : efcSweepStep m d ntree ti st n = .ok st') :
    TSInv (fun j => ti ((treeNext m d (-1) j 0).1)) (n + 1) st' ∧
    (0 ≤ (treeNext m d (-1) n 0).1 ∧ (treeNext m d (-1) n 0).1 < (ntree : Int)) ∧
    ¬ ti ((treeNext m d (-1) n 0).1) = -1 := by
  simp only [efcSweepStep] at hrun
  by_cases hb : 0 ≤ (treeNext m d (-1) n 0).1 ∧ (treeNext m d (-1) n 0).1 < (ntree : Int)
  case neg =>
    rw [treeRead, if_neg hb] at hrun
    cases hrun
  case pos =>
    have hread : treeRead ntree ti ((treeNext m d (-1) n 0).1)
        = .ok (ti ((treeNext m d (-1) n 0).1)) := by
      rw [treeRead, if_pos hb]
    simp only [hread] at hrun
    by_cases hiz : ti ((treeNext m d (-1) n 0).1) = -1
    · rw [if_pos hiz] at hrun
      cases hrun
    · rw [if_neg hiz] at hrun
      refine ⟨?_, hb, hiz⟩
      by_cases hfl : st.last (ti ((treeNext m d (-1) n 0).1)) = -1
      · rw [if_pos hfl] at hrun
        injection hrun with hrun
        rw [← hrun]
        exact TSInv_first (fun j => ti ((treeNext m d (-1) j 0).1)) n st hinv hiz hfl
      · rw [if_neg hfl] at hrun
        injection hrun with hrun
        rw [← hrun]
        exact TSInv_append (fun j => ti ((treeNext m d (-1) j 0).1)) n st hinv hiz hfl

/-- The DoF sweep, run to completion, establishes the threading invariant
at `nv`. -/
theorem dofSweepLoop_inv (m : MjModel) (ntree : Nat) (ti : Int → Int)
    (hb : ∀ j : Nat, j < m.nv → 0 ≤ m.dof_treeid j ∧ m.dof_treeid j < (ntree : Int)) :
    ∀ cnt n st stF,
      n + cnt = m.nv →
      TSInv (fun j => ti (m.dof_treeid j)) n st →
      dofSweepLoop m ntree ti (List.range' n cnt) st = .ok stF →
      TSInv (fun j => ti (m.dof_treeid j)) m.nv stF := by
  intro cnt
  induction cnt with
  | zero =>
    intro n st stF hsum hinv hrun
    have hn : List.range' n 0 = [] := rfl
    rw [hn] at hrun
    simp only [dofSweepLoop] at hrun
    injection hrun with hrun
    rw [← hrun]
    have : n = m.nv := by omega
    rw [← this]
    exact hinv
  | succ cnt ih =>
    intro n st stF hsum hinv hrun
    have hc : List.range' n (cnt + 1) = n :: List.range' (n + 1) cnt := rfl
    rw [hc] at hrun
    simp only [dofSweepLoop] at hrun
    cases hstep : dofSweepStep m ntree ti st n with
    | error e =>
      simp only [hstep] at hrun
      cases hrun
    | ok st1 =>
      simp only [hstep] at hrun
      exact ih (n + 1) st1 stF (by omega)
        (dofSweepStep_inv m ntree ti n st st1 (hb n (by omega)) hinv hstep) hrun

/-- The constraint sweep, run to completion, establishes the threading
invariant at `nefc` and certifies every row's first tree. -/
theorem efcSweepLoop_inv (m : MjModel) (d : MjData) (ntree : Nat) (ti : Int → Int) :
    ∀ cnt n st stF,
      n + cnt = d.nefc →
      TSInv (fun j => ti ((treeNext m d (-1) j 0).1)) n st →
      efcSweepLoop m d ntree ti (List.range' n cnt) st = .ok stF →
      TSInv (fun j => ti ((treeNext m d (-1) j 0).1)) d.nefc stF ∧
      ∀ i : Nat, n ≤ i → i < d.nefc →
        (0 ≤ (treeNext m d (-1) i 0).1 ∧ (treeNext m d (-1) i 0).1 < (ntree : Int)) ∧
        ¬ ti ((treeNext m d (-1) i 0).1) = -1 := by
  intro cnt
  induction cnt with
  | zero =>
    intro n st stF hsum hinv hrun
    have hn : List.range' n 0 = [] := rfl
    rw [hn] at hrun
    simp only [efcSweepLoop] at hrun
    injection hrun with hrun
    rw [← hrun]
    constructor
    · have : n = d.nefc := by omega
      rw [← this]
      exact hinv
    · intro i h1 h2
      omega
  | succ cnt ih =>
    intro n st stF hsum hinv hrun
    have hc : List.range' n (cnt + 1) = n :: List.range' (n + 1) cnt := rfl
    rw [hc] at hrun
    simp only [efcSweepLoop] at hrun
    cases hstep : efcSweepStep m d ntree ti st n with
    | error e =>
      simp only [hstep] at hrun
      cases hrun
    | ok st1 =>
      simp only [hstep] at hrun
      obtain ⟨hinv1, hbnd, hne⟩ := efcSweepStep_inv m d ntree ti n st st1 hinv hstep
      obtain ⟨hfin, hall⟩ := ih (n + 1) st1 stF (by omega) hinv1 hrun
      refine ⟨hfin, fun i h1 h2 => ?_⟩
      rcases Nat.lt_or_ge n i with h | h
      · exact hall i (by omega) h2
      · have : i = n := by omega
        rw [this]
        exact ⟨hbnd, hne⟩

/-- Initial state satisfies the invariant at 0. -/
theorem TSInv_init (idv : Nat → Int) : TSInv idv 0 initThreadSt := by
  have hm : ∀ k : Int, islMembers idv 0 k = [] := fun k => rfl
  refine ⟨fun j hj => absurd hj (by omega), fun j hj _ => absurd hj (by omega),
    fun k _ => ⟨fun _ => rfl, fun hne => absurd (hm k) hne⟩, ?_⟩
  show 0 = (foundIds idv 0).card
  unfold foundIds
  simp

/-- What the `nxt` array looks like after the tail-finalization loop. -/
theorem finalizeTails_spec (last nxt : Int → Int) :
    ∀ K x, ((∃ k : Nat, k < K ∧ last (k : Int) = x) → finalizeTails last nxt K x = -1) ∧
      ((∀ k : Nat, k < K → ¬ last (k : Int) = x) → finalizeTails last nxt K x = nxt x) := by
  intro K
  induction K with
  | zero =>
    intro x
    exact ⟨fun ⟨k, hk, _⟩ => absurd hk (by omega), fun _ => rfl⟩
  | succ K ih =>
    intro x
    constructor
    · rintro ⟨k, hk, hkx⟩
      simp only [finalizeTails]
      by_cases hx : last (K : Int) = x
      · rw [hx, Function.update_same]
      · rcases Nat.lt_or_ge k K with h | h
        · rw [Function.update_noteq (fun h' => hx h'.symm)]
          exact (ih x).1 ⟨k, h, hkx⟩
        · have : k = K := by omega
          rw [this] at hkx
          exact absurd hkx hx
    · intro hall
      simp only [finalizeTails]
      rw [Function.update_noteq (fun h' => (hall K (by omega)) h'.symm)]
      exact (ih x).2 (fun k hk => hall k (by omega))

/-- Dissection of a successful `mj_islandCore` run into its phases. -/
theorem islandCore_dissect (m : MjModel) (d : MjData) (out : IslandOut)
    (hrun : mj_islandCore m d = .ok out) :
    ∃ tn E dsw esw,
      findEdges m d (countMaxEdge m d) = .ok (tn, E) ∧
      dofSweepLoop m m.ntree (ffFill (edgeGraph m.ntree tn E)).1
        (List.range m.nv) initThreadSt = .ok dsw ∧
      efcSweepLoop m d m.ntree (ffFill (edgeGraph m.ntree tn E)).1
        (List.range d.nefc) initThreadSt = .ok esw ∧
      dsw.nfound = (ffFill (edgeGraph m.ntree tn E)).2 ∧
      esw.nfound = (ffFill (edgeGraph m.ntree tn E)).2 ∧
      out = { nisland := (ffFill (edgeGraph m.ntree tn E)).2
              dof_island := dsw.isl
              dof_islandnext := finalizeTails dsw.last dsw.nxt
                (ffFill (edgeGraph m.ntree tn E)).2
              island_dofadr := dsw.adr
              efc_island := esw.isl
              efc_islandnext := finalizeTails esw.last esw.nxt
                (ffFill (edgeGraph m.ntree tn E)).2
              island_efcadr := esw.adr } := by
  simp only [mj_islandCore] at hrun
  cases hfe : findEdges m d (countMaxEdge m d) with
  | error e =>
    rw [hfe] at hrun
    cases hrun
  | ok fe =>
    simp only [hfe] at hrun
    obtain ⟨tn, E⟩ := fe
    refine ⟨tn, E, ?_⟩
    have hg : mj_floodFill m.ntree
        (scatterEdges (fun t => buildRowadr tn t.toNat) E (fun _ => 0) (fun _ => 0)).1
        (fun t => buildRowadr tn t.toNat)
        (scatterEdges (fun t => buildRowadr tn t.toNat) E (fun _ => 0) (fun _ => 0)).2
        = ffFill (edgeGraph m.ntree tn E) := rfl
    rw [hg] at hrun
    cases hdsw : dofSweepLoop m m.ntree (ffFill (edgeGraph m.ntree tn E)).1
        (List.range m.nv) initThreadSt with
    | error e =>
      rw [hdsw] at hrun
      cases hrun
    | ok dsw =>
      simp only [hdsw] at hrun
      refine ⟨dsw, ?_⟩
      by_cases hdn : dsw.nfound ≠ (ffFill (edgeGraph m.ntree tn E)).2
      · rw [if_pos hdn] at hrun
        cases hrun
      · rw [if_neg hdn] at hrun
        push_neg at hdn
        cases hesw : efcSweepLoop m d m.ntree (ffFill (edgeGraph m.ntree tn E)).1
            (List.range d.nefc) initThreadSt with
        | error e =>
          rw [hesw] at hrun
          cases hrun
        | ok esw =>
          simp only [hesw] at hrun
          refine ⟨esw, rfl, rfl, rfl, hdn, ?_⟩
          by_cases hen : esw.nfound ≠ (ffFill (edgeGraph m.ntree tn E)).2
          · rw [if_pos hen] at hrun
            cases hrun
          · rw [if_neg hen] at hrun
            push_neg at hen
            injection hrun with hrun
            exact ⟨hen, hrun.symm⟩

/-- The first tree discovered by `treeNext(m, d, -1, i, ...)` — the value
the constraint sweep uses as the row's representative — is one of the
row's incident trees. -/
theorem firstTree_mem (m : MjModel) (d : MjData) (i : Nat)
    (hne : rowTreeList m d i ≠ [])
    (hrange : ∀ t ∈ rowTreeList m d i, 0 ≤ t ∧ t < (m.ntree : Int)) :
    (treeNext m d (-1) i 0).1 ∈ rowTreeList m d i := by
  by_cases hs : mj_isSparse m = true
  · set len := d.efc_J_rownnz i with hlendef
    have hlen0 : len ≠ 0 := by
      intro hz
      apply hne
      rw [rowTreeList, if_pos hs, ← hlendef, hz]
      simp
    have hnn : ∀ p, p < len → entryS m d i p ≠ -1 := by
      intro p hp
      have hmem : entryS m d i p ∈ rowTreeList m d i :=
        (rowTreeList_sparse_mem m d i hs _).mpr ⟨p, hp, rfl⟩
      have := (hrange _ hmem).1
      omega
    have hrw1 : treeNext m d (-1) i 0 = treeNextSparseGo m d (-1) i 0 len := by
      simp [treeNext, hs, treeNextSparseAux]
    have hspec1 := treeNextSparseGo_spec m d (-1) i len 0
      (fun p _ h2 => hnn p (by omega))
    have hr11 : (treeNext m d (-1) i 0).1 ≠ -1 := by
      intro hz
      rw [hrw1] at hz
      obtain ⟨_, hall⟩ := hspec1.1 hz
      exact hnn 0 (by omega) (hall 0 (by omega) (by omega))
    obtain ⟨hle1, hlt1, hat1, _⟩ :=
      treeNextSparseGo_found m d (-1) i len 0 (hrw1 ▸ hr11)
    rw [← hrw1] at hlt1 hat1
    have hat1E : entryS m d i (treeNext m d (-1) i 0).2 = (treeNext m d (-1) i 0).1 := hat1
    exact (rowTreeList_sparse_mem m d i hs _).mpr
      ⟨(treeNext m d (-1) i 0).2, by omega, hat1E⟩
  · have hs' : mj_isSparse m = false := by simpa using hs
    have hnn : ∀ p, p < m.nv → d.efc_J (m.nv * i + p) = true → m.dof_treeid p ≠ -1 := by
      intro p hp hpat
      have hmem : m.dof_treeid p ∈ rowTreeList m d i :=
        (rowTreeList_dense_mem m d i hs' _).mpr ⟨p, hp, hpat, rfl⟩
      have := (hrange _ hmem).1
      omega
    have hrw1 : treeNext m d (-1) i 0 = treeNextDenseGo m d (-1) i 0 m.nv := by
      simp [treeNext, hs', treeNextDenseAux]
    have hspec1 := treeNextDenseGo_spec m d (-1) i m.nv 0
      (fun p _ h2 hp => hnn p (by omega) hp)
    have hr11 : (treeNext m d (-1) i 0).1 ≠ -1 := by
      intro hz
      rw [hrw1] at hz
      obtain ⟨_, hall⟩ := hspec1.1 hz
      have hex : ∃ c, c < m.nv ∧ d.efc_J (m.nv * i + c) = true := by
        by_contra hcon
        push_neg at hcon
        apply hne
        rw [rowTreeList, if_neg (by simp [hs'])]
        rw [List.map_eq_nil_iff, List.filter_eq_nil_iff]
        intro c hc
        simp only [List.mem_range] at hc
        simpa using hcon c hc
      obtain ⟨c, hc, hcp⟩ := hex
      exact hnn c hc hcp (hall c (by omega) (by omega) hcp)
    obtain ⟨hle1, hlt1, hpat1, hat1, _⟩ :=
      treeNextDenseGo_found m d (-1) i m.nv 0 (hrw1 ▸ hr11)
    rw [← hrw1] at hlt1 hpat1 hat1
    exact (rowTreeList_dense_mem m d i hs' _).mpr
      ⟨(treeNext m d (-1) i 0).2, by omega, hpat1, hat1⟩

/-- Specification-level tree adjacency: two trees are adjacent when some
active constraint row couples both. -/
def specAdj (m : MjModel) (d : MjData) (t t' : Int) : Prop :=
  ∃ i, i < d.nefc ∧ t ∈ rowTreeList m d i ∧ t' ∈ rowTreeList m d i

instance (m : MjModel) (d : MjData) (t t' : Int) : Decidable (specAdj m d t t') := by
  unfold specAdj
  infer_instance

theorem rtg_bind {α : Type _} {r s : α → α → Prop}
    (h : ∀ a b, r a b → Relation.ReflTransGen s a b) :
    ∀ a b, Relation.ReflTransGen r a b → Relation.ReflTransGen s a b := by
  intro a b hab
  induction hab with
  | refl => exact Relation.ReflTransGen.refl
  | tail _ hr ih => exact ih.trans (h _ _ hr)

/-- Record connectivity and spec adjacency connectivity agree, given a
well-formed collector state that completes every row. -/
theorem econn_iff_specConn (m : MjModel) (d : MjData) (tn : Int → Nat)
    (E : List (Int × Int)) (hok : EdgesOk m d tn E)
    (hdone : ∀ j, j < d.nefc → RowDone m d j E) (a b : Int) :
    EConn E a b ↔ Relation.ReflTransGen (specAdj m d) a b := by
  constructor
  · refine rtg_bind (fun x y hxy => ?_) a b
    obtain ⟨j, hj, h1, h2⟩ := hok.2.2.2 _ hxy
    exact Relation.ReflTransGen.single ⟨j, hj, h1, h2⟩
  · refine rtg_bind (fun x y hxy => ?_) a b
    obtain ⟨j, hj, h1, h2⟩ := hxy
    exact (hdone j hj).1 x h1 y h2

/-- A tree incident to a connectivity step has an incident record. -/
theorem specAdj_has_record (m : MjModel) (d : MjData) (tn : Int → Nat)
    (E : List (Int × Int)) (hdone : ∀ j, j < d.nefc → RowDone m d j E)
    {a b : Int} (h : specAdj m d a b) : (∃ x, (a, x) ∈ E) ∧ ∃ x, (b, x) ∈ E := by
  obtain ⟨j, hj, h1, h2⟩ := h
  exact ⟨(hdone j hj).2 a h1, (hdone j hj).2 b h2⟩

theorem valid_row_nonempty (m : MjModel) (d : MjData) (hv : Valid m d)
    (i : Nat) (hi : i < d.nefc) : rowTreeList m d i ≠ [] := by
  have hvr := hv.2.2.1 i hi
  unfold ValidRow at hvr
  cases hev : eventTreePair m d i with
  | some ab =>
    simp only [hev] at hvr
    obtain ⟨hnb, _, hm1, hm2⟩ := hvr
    intro hnil
    by_cases h1 : ab.1 = -1
    · by_cases h2 : ab.2 = -1
      · exact hnb ⟨h1, h2⟩
      · have := hm2 h2
        rw [hnil] at this
        cases this
    · have := hm1 h1
      rw [hnil] at this
      cases this
  | none =>
    simp only [hev] at hvr
    exact hvr

theorem transGen_specAdj_iff (m : MjModel) (d : MjData) (a b : Int) :
    Relation.TransGen (specAdj m d) a b ↔
      (Relation.ReflTransGen (specAdj m d) a b ∧
        (∃ j, j < d.nefc ∧ a ∈ rowTreeList m d j) ∧
        (∃ j, j < d.nefc ∧ b ∈ rowTreeList m d j)) := by
  constructor
  · intro h
    refine ⟨h.to_reflTransGen, ?_, ?_⟩
    · obtain ⟨c, hac, _⟩ := (Relation.TransGen.head'_iff).mp h
      obtain ⟨j, hj, h1, _⟩ := hac
      exact ⟨j, hj, h1⟩
    · obtain ⟨c, _, hcb⟩ := (Relation.TransGen.tail'_iff).mp h
      obtain ⟨j, hj, _, h2⟩ := hcb
      exact ⟨j, hj, h2⟩
  · rintro ⟨hrtg, ⟨j, hj, ha⟩, _⟩
    rcases hrtg.cases_head with heq | ⟨c, hac, hcb⟩
    · rw [← heq]
      exact Relation.TransGen.single ⟨j, hj, ha, ha⟩
    · exact Relation.TransGen.head' hac hcb

/-- Semantics of the `tree_island` scratch array built by `mj_island`: a
tree maps to `-1` iff it touches no active constraint row, and two
constrained trees get the same id iff they are spec-connected. -/
theorem tree_island_spec (m : MjModel) (d : MjData) (hv : Valid m d)
    (tn : Int → Nat) (E : List (Int × Int))
    (hfe : findEdges m d (countMaxEdge m d) = .ok (tn, E)) :
    (∀ t : Int, 0 ≤ t → t < (m.ntree : Int) →
      ((ffFill (edgeGraph m.ntree tn E)).1 t = -1 ↔
        ∀ j, j < d.nefc → t ∉ rowTreeList m d j)) ∧
    (∀ t t' : Int, 0 ≤ t → t < (m.ntree : Int) → 0 ≤ t' → t' < (m.ntree : Int) →
      ¬ (ffFill (edgeGraph m.ntree tn E)).1 t = -1 →
      ¬ (ffFill (edgeGraph m.ntree tn E)).1 t' = -1 →
      ((ffFill (edgeGraph m.ntree tn E)).1 t = (ffFill (edgeGraph m.ntree tn E)).1 t' ↔
        Relation.ReflTransGen (specAdj m d) t t')) := by
  obtain ⟨hokE, hdone⟩ := findEdges_spec m d (countMaxEdge m d) hv tn E hfe
  have hrangeE : ∀ e ∈ E, 0 ≤ e.1 ∧ e.1 < ((m.ntree : Nat) : Int) :=
    fun e he => ⟨(hokE.2.2.1 e he).1, (hokE.2.2.1 e he).2.1⟩
  have htnE := hokE.2.1
  have hval := edgeGraph_valid m d tn E hokE
  obtain ⟨S1, S2, S3⟩ := ffFill_spec (edgeGraph m.ntree tn E) hval
  have hsrc : ∀ t : Int, (∃ x, (t, x) ∈ E) ↔ ∃ j, j < d.nefc ∧ t ∈ rowTreeList m d j := by
    intro t
    constructor
    · rintro ⟨x, hx⟩
      obtain ⟨j, hj, h1, _⟩ := hokE.2.2.2 _ hx
      exact ⟨j, hj, h1⟩
    · rintro ⟨j, hj, ht⟩
      exact (hdone j hj).2 t ht
  have hisoc : ∀ t : Int, 0 ≤ t → t < (m.ntree : Int) →
      ((edgeGraph m.ntree tn E).rownnz t = 0 ↔ ∀ j, j < d.nefc → t ∉ rowTreeList m d j) := by
    intro t h0 h1
    constructor
    · intro hz j hj ht
      have := (edgeGraph_rownnz_ne m.ntree tn E hrangeE htnE t).mpr (hsrc t |>.mpr ⟨j, hj, ht⟩)
      exact this hz
    · intro hnone
      by_contra hnz
      obtain ⟨j, hj, ht⟩ := (hsrc t).mp
        ((edgeGraph_rownnz_ne m.ntree tn E hrangeE htnE t).mp hnz)
      exact hnone j hj ht
  constructor
  · intro t h0 h1
    rw [S1 t h0 h1]
    exact hisoc t h0 h1
  · intro t t' h0 h1 h0' h1' hne hne'
    have hnz : (edgeGraph m.ntree tn E).rownnz t ≠ 0 :=
      fun hz => hne ((S1 t h0 h1).mpr hz)
    have hnz' : (edgeGraph m.ntree tn E).rownnz t' ≠ 0 :=
      fun hz => hne' ((S1 t' h0' h1').mpr hz)
    rw [S3 t t' h0 h1 h0' h1' hnz hnz']
    rw [edgeGraph_conn m d tn E hokE]
    exact econn_iff_specConn m d tn E hokE hdone t t'

/-- C2: for every legal `(model, data)` with `nefc > 0` on which the
island builder succeeds, two DoFs receive the same island id (not `-1`)
iff their kinematic trees are transitively connected in the tree-adjacency
graph induced by the active constraint rows, and two constraint rows
receive the same island id iff the trees they couple are transitively
connected in that graph. -/
theorem c2_island_connectivity (m : MjModel) (d : MjData) (hv : Valid m d)
    (hnefc : 0 < d.nefc) (out : IslandOut) (hrun : mj_islandCore m d = .ok out) :
    (∀ i j : Nat, i < m.nv → j < m.nv →
      ((out.dof_island (i : Int) = out.dof_island (j : Int) ∧
        ¬ out.dof_island (i : Int) = -1) ↔
        Relation.TransGen (specAdj m d) (m.dof_treeid i) (m.dof_treeid j))) ∧
    (∀ i j : Nat, i < d.nefc → j < d.nefc →
      (out.efc_island (i : Int) = out.efc_island (j : Int) ↔
        ∀ t ∈ rowTreeList m d i, ∀ t' ∈ rowTreeList m d j,
          Relation.TransGen (specAdj m d) t t')) := by
  obtain ⟨tn, E, dsw, esw, hfe, hdsw, hesw, hdn, hen, hout⟩ := islandCore_dissect m d out hrun
  obtain ⟨hiso, hconn⟩ := tree_island_spec m d hv tn E hfe
  set ti := (ffFill (edgeGraph m.ntree tn E)).1 with hti
  have hdsw' : dofSweepLoop m m.ntree ti (List.range' 0 m.nv) initThreadSt = .ok dsw := by
    rw [← List.range_eq_range']
    exact hdsw
  have hTS := dofSweepLoop_inv m m.ntree ti hv.1 m.nv 0 initThreadSt dsw
    (by omega) (TSInv_init _) hdsw'
  have hisl : ∀ i : Nat, i < m.nv → dsw.isl (i : Int) = ti (m.dof_treeid i) := hTS.1
  have hesw' : efcSweepLoop m d m.ntree ti (List.range' 0 d.nefc) initThreadSt = .ok esw := by
    rw [← List.range_eq_range']
    exact hesw
  obtain ⟨hTSe, hrowfacts⟩ := efcSweepLoop_inv m d m.ntree ti d.nefc 0 initThreadSt esw
    (by omega) (TSInv_init _) hesw'
  have hisle : ∀ i : Nat, i < d.nefc →
      esw.isl (i : Int) = ti ((treeNext m d (-1) i 0).1) := hTSe.1
  constructor
  · intro i j hi hj
    rw [hout]
    dsimp only
    rw [hisl i hi, hisl j hj]
    have hba := hv.1 i hi
    have hbb := hv.1 j hj
    rw [transGen_specAdj_iff]
    constructor
    · rintro ⟨heq, hne⟩
      have hca : ∃ jj, jj < d.nefc ∧ m.dof_treeid i ∈ rowTreeList m d jj := by
        by_contra hc
        push_neg at hc
        exact hne ((hiso _ hba.1 hba.2).mpr (fun jj hjj ht => hc jj hjj ht))
      have hne' : ¬ ti (m.dof_treeid j) = -1 := by
        rw [← heq]
        exact hne
      have hcb : ∃ jj, jj < d.nefc ∧ m.dof_treeid j ∈ rowTreeList m d jj := by
        by_contra hc
        push_neg at hc
        exact hne' ((hiso _ hbb.1 hbb.2).mpr (fun jj hjj ht => hc jj hjj ht))
      exact ⟨(hconn _ _ hba.1 hba.2 hbb.1 hbb.2 hne hne').mp heq, hca, hcb⟩
    · rintro ⟨hrtg, hca, hcb⟩
      have hne : ¬ ti (m.dof_treeid i) = -1 := by
        intro hz
        obtain ⟨jj, hjj, ht⟩ := hca
        exact (hiso _ hba.1 hba.2).mp hz jj hjj ht
      have hne' : ¬ ti (m.dof_treeid j) = -1 := by
        intro hz
        obtain ⟨jj, hjj, ht⟩ := hcb
        exact (hiso _ hbb.1 hbb.2).mp hz jj hjj ht
      exact ⟨(hconn _ _ hba.1 hba.2 hbb.1 hbb.2 hne hne').mpr hrtg, hne⟩
  · intro i j hi hj
    rw [hout]
    dsimp only
    rw [hisle i hi, hisle j hj]
    obtain ⟨hbfi, hnefi⟩ := hrowfacts i (by omega) hi
    obtain ⟨hbfj, hnefj⟩ := hrowfacts j (by omega) hj
    have hrownei := valid_row_nonempty m d hv i hi
    have hrownej := valid_row_nonempty m d hv j hj
    have hfimem : (treeNext m d (-1) i 0).1 ∈ rowTreeList m d i :=
      firstTree_mem m d i hrownei (hv.2.1 i hi)
    have hfjmem : (treeNext m d (-1) j 0).1 ∈ rowTreeList m d j :=
      firstTree_mem m d j hrownej (hv.2.1 j hj)
    constructor
    · intro heq t ht t' ht'
      have hrtg : Relation.ReflTransGen (specAdj m d)
          ((treeNext m d (-1) i 0).1) ((treeNext m d (-1) j 0).1) :=
        (hconn _ _ hbfi.1 hbfi.2 hbfj.1 hbfj.2 hnefi hnefj).mp heq
      refine Relation.TransGen.head' ⟨i, hi, ht, hfimem⟩ ?_
      exact hrtg.trans (Relation.ReflTransGen.single ⟨j, hj, hfjmem, ht'⟩)
    · intro hall
      have htg := hall _ hfimem _ hfjmem
      exact (hconn _ _ hbfi.1 hbfi.2 hbfj.1 hbfj.2 hnefi hnefj).mpr htg.to_reflTransGen

/-- Concrete model: two DoFs in two distinct trees, two bodies/geoms,
dense Jacobian. -/
def mCon : MjModel :=
  { nv := 2
    ntree := 2
    ntendon := 0
    tendon_num := fun _ => 0
    tendon_limited := fun _ => false
    tendon_frictionloss := fun _ => false
    dof_treeid := fun j => if j = 0 then 0 else 1
    body_treeid := fun b => if b = 0 then 0 else 1
    geom_bodyid := fun g => g
    jnt_dofadr := fun _ => 0
    eq_type := fun _ => .CONNECT
    eq_obj1id := fun _ => 0
    eq_obj2id := fun _ => 0
    sparse := false }

/-- Concrete data for `mCon`: one frictionless contact between geoms 0 and
1 whose Jacobian row touches both DoFs. -/
def dCon : MjData :=
  { nefc := 1
    ncon := 1
    ne := 0
    nf := 0
    efc_type := fun _ => .CONTACT_FRICTIONLESS
    efc_id := fun _ => 0
    efc_J_rownnz := fun _ => 2
    efc_J_rowadr := fun _ => 0
    efc_J_colind := fun c => c
    efc_J := fun _ => true
    con_geom1 := fun _ => 0
    con_geom2 := fun _ => 1 }

/-- The island outputs computed on the concrete contact example. -/
def c2out : IslandOut :=
  match mj_islandCore mCon dCon with
  | .ok o => o
  | .error _ => default

/-- Witness for `c2_island_connectivity` on the concrete contact
example. -/
theorem c2_island_connectivity_witness :
    Valid mCon dCon ∧ 0 < dCon.nefc ∧
    ((c2out.dof_island ((0 : Nat) : Int) = c2out.dof_island ((1 : Nat) : Int) ∧
      ¬ c2out.dof_island ((0 : Nat) : Int) = -1) ↔
      Relation.TransGen (specAdj mCon dCon) (mCon.dof_treeid 0) (mCon.dof_treeid 1)) :=
  ⟨by decide, by decide,
    (c2_island_connectivity mCon dCon (by decide) (by decide) c2out rfl).1 0 1
      (by decide) (by decide)⟩

/-- C5 (amended): after a successful island build, every DoF whose
kinematic tree appears in no active constraint row has `dof_island = -1`
and `dof_islandnext = -1`. -/
theorem c5_tree_unconstrained_dof (m : MjModel) (d : MjData) (hv : Valid m d)
    (out : IslandOut) (hrun : mj_islandCore m d = .ok out)
    (i : Nat) (hi : i < m.nv)
    (hun : ∀ j, j < d.nefc → m.dof_treeid i ∉ rowTreeList m d j) :
    out.dof_island (i : Int) = -1 ∧ out.dof_islandnext (i : Int) = -1 := by
  obtain ⟨tn, E, dsw, esw, hfe, hdsw, hesw, hdn, hen, hout⟩ := islandCore_dissect m d out hrun
  obtain ⟨hiso, _⟩ := tree_island_spec m d hv tn E hfe
  set ti := (ffFill (edgeGraph m.ntree tn E)).1 with hti
  have hdsw' : dofSweepLoop m m.ntree ti (List.range' 0 m.nv) initThreadSt = .ok dsw := by
    rw [← List.range_eq_range']
    exact hdsw
  have hTS := dofSweepLoop_inv m m.ntree ti hv.1 m.nv 0 initThreadSt dsw
    (by omega) (TSInv_init _) hdsw'
  have hba := hv.1 i hi
  have hzi : ti (m.dof_treeid i) = -1 := (hiso _ hba.1 hba.2).mpr hun
  have hisl : dsw.isl (i : Int) = -1 := by
    rw [hTS.1 i hi]
    exact hzi
  have hnxt : dsw.nxt (i : Int) = -1 := hTS.2.1 i hi hzi
  constructor
  · rw [hout]
    dsimp only
    exact hisl
  · rw [hout]
    dsimp only
    refine ((finalizeTails_spec dsw.last dsw.nxt
      (ffFill (edgeGraph m.ntree tn E)).2 ((i : Nat) : Int)).2 ?_).trans hnxt
    intro k hk heq
    have hkne : ¬ ((k : Nat) : Int) = -1 := by
      intro h
      omega
    obtain ⟨hemp, hfull⟩ := hTS.2.2.1 ((k : Nat) : Int) hkne
    by_cases hm : islMembers (fun j => ti (m.dof_treeid j)) m.nv ((k : Nat) : Int) = []
    · have hlz := hemp hm
      rw [hlz] at heq
      omega
    · obtain ⟨hl, _, _⟩ := hfull hm
      rw [heq] at hl
      have hmem := mem_of_getLast?_eq hl
      obtain ⟨j', hj', hk', hx⟩ := islMembers_mem.mp hmem
      have hji : j' = i := by exact_mod_cast hx.symm
      rw [hji] at hk'
      have hk'' : ti (m.dof_treeid i) = ((k : Nat) : Int) := hk'
      exact hkne (by rw [← hk'']; exact hzi)

/-- Concrete model with two DoFs in two trees for the C5 witness: only
tree 0 is constrained. -/
def mC5 : MjModel :=
  { mCon with sparse := false }

/-- Concrete data for `mC5`: a single DoF-friction row on DoF 0, so tree 1
appears in no row. -/
def dC5 : MjData :=
  { nefc := 1
    ncon := 0
    ne := 0
    nf := 1
    efc_type := fun _ => .FRICTION_DOF
    efc_id := fun _ => 0
    efc_J_rownnz := fun _ => 1
    efc_J_rowadr := fun _ => 0
    efc_J_colind := fun _ => 0
    efc_J := fun idx => idx = 0
    con_geom1 := fun _ => 0
    con_geom2 := fun _ => 0 }

/-- The island outputs computed on the C5 example. -/
def c5out : IslandOut :=
  match mj_islandCore mC5 dC5 with
  | .ok o => o
  | .error _ => default

/-- Witness for `c5_tree_unconstrained_dof`: DoF 1 of the concrete
example. -/
theorem c5_tree_unconstrained_dof_witness :
    Valid mC5 dC5 ∧ (∀ j, j < dC5.nefc → mC5.dof_treeid 1 ∉ rowTreeList mC5 dC5 j) ∧
    c5out.dof_island ((1 : Nat) : Int) = -1 ∧
    c5out.dof_islandnext ((1 : Nat) : Int) = -1 :=
  ⟨by decide, by decide,
    c5_tree_unconstrained_dof mC5 dC5 (by decide) c5out rfl 1 (by decide) (by decide)⟩

theorem islMembers_length_le (idv : Nat → Int) (n : Nat) (k : Int) :
    (islMembers idv n k).length ≤ n := by
  unfold islMembers
  rw [List.length_map]
  calc ((List.range n).filter (fun j => idv j = k)).length
      ≤ (List.range n).length := List.length_filter_le _ _
    _ = n := List.length_range n

theorem islMembers_congr {f g : Nat → Int} {n : Nat}
    (h : ∀ j, j < n → f j = g j) (k : Int) :
    islMembers f n k = islMembers g n k := by
  unfold islMembers
  congr 1
  apply List.filter_congr
  intro a ha
  rw [List.mem_range] at ha
  simp [h a ha]

/-- Following the next-links from the head visits exactly a list that is
chained by the links, starts at the head, has no `-1` entries, and whose
last entry links to `-1`. -/
theorem walk_spec (nxt : Int → Int) :
    ∀ l : List Int, l ≠ [] →
      (∀ x ∈ l, ¬ x = -1) →
      List.Chain' (fun a b => nxt a = b) l →
      (∀ x, l.getLast? = some x → nxt x = -1) →
      ∀ fuel, l.length + 1 ≤ fuel →
      ∀ adr, l.head? = some adr →
      walk nxt adr fuel = l := by
  intro l
  induction l with
  | nil => intro h; exact absurd rfl h
  | cons a t ih =>
    intro _ hnem hch hlast fuel hfuel adr hadr
    simp only [List.head?_cons, Option.some_inj] at hadr
    obtain ⟨fuel', rfl⟩ : ∃ f', fuel = f' + 1 := ⟨fuel - 1, by omega⟩
    simp only [walk]
    rw [if_neg (by rw [← hadr]; exact hnem a (by simp))]
    rw [← hadr]
    cases t with
    | nil =>
      have hna : nxt a = -1 := hlast a (by simp)
      obtain ⟨f'', rfl⟩ : ∃ f'', fuel' = f'' + 1 := by
        refine ⟨fuel' - 1, ?_⟩
        simp only [List.length_cons, List.length_nil] at hfuel
        omega
      rw [hna]
      simp [walk]
    | cons b t' =>
      rw [List.chain'_cons] at hch
      congr 1
      rw [hch.1]
      refine ih (by simp) (fun x hx => hnem x (by simp [hx])) hch.2
        (fun x hx => hlast x (by rw [List.getLast?_cons_cons]; exact hx))
        fuel' (by simp only [List.length_cons] at hfuel ⊢; omega) b rfl

/-- If the found counter equals `K` and all ids lie in `{-1} ∪ [0, K)`,
every island `k < K` has at least one member. -/
theorem foundIds_full (idv : Nat → Int) (n : Nat) (K : Nat)
    (hrange : ∀ j, j < n → idv j = -1 ∨ (0 ≤ idv j ∧ idv j < (K : Int)))
    (hcard : (foundIds idv n).card = K) :
    ∀ k : Nat, k < K → islMembers idv n (k : Int) ≠ [] := by
  have hsub : foundIds idv n ⊆ (Finset.range K).image (fun j : Nat => (j : Int)) := by
    intro x hx
    obtain ⟨⟨j, hj, hkj⟩, hne⟩ := foundIds_mem.mp hx
    rcases hrange j hj with h | h
    · rw [hkj] at h
      exact absurd h hne
    · rw [hkj] at h
      rw [Finset.mem_image]
      refine ⟨x.toNat, Finset.mem_range.mpr (by omega), by omega⟩
  have hScard : ((Finset.range K).image (fun j : Nat => (j : Int))).card = K := by
    rw [Finset.card_image_of_injective _ (fun a b h => by exact_mod_cast h)]
    exact Finset.card_range K
  have heq : foundIds idv n = (Finset.range K).image (fun j : Nat => (j : Int)) :=
    Finset.eq_of_subset_of_card_le hsub (by rw [hScard, hcard])
  intro k hk hnil
  have hkf : ((k : Nat) : Int) ∈ foundIds idv n := by
    rw [heq, Finset.mem_image]
    exact ⟨k, Finset.mem_range.mpr hk, rfl⟩
  obtain ⟨⟨j, hj, hkj⟩, _⟩ := foundIds_mem.mp hkf
  exact (islMembers_eq_nil_iff.mp hnil) j hj hkj

/-- Master threading lemma: after a completed sweep with matching found
counter and finalized tails, walking island `k`'s list visits exactly its
members, in order. -/
theorem threaded_walk (idv : Nat → Int) (n : Nat) (st : ThreadSt) (K : Nat)
    (hTS : TSInv idv n st)
    (hrange : ∀ j, j < n → idv j = -1 ∨ (0 ≤ idv j ∧ idv j < (K : Int)))
    (hcard : st.nfound = K) :
    ∀ k : Nat, k < K →
      walk (finalizeTails st.last st.nxt K) (st.adr ((k : Nat) : Int)) (n + 1)
        = islMembers idv n ((k : Nat) : Int) := by
  intro k hk
  have hfull := foundIds_full idv n K hrange (by rw [← hTS.2.2.2, hcard])
  have hne := hfull k hk
  have hkne : ¬ ((k : Nat) : Int) = -1 := by intro h; omega
  obtain ⟨hl, hh, hch⟩ := (hTS.2.2.1 ((k : Nat) : Int) hkne).2 hne
  have hlastval : ∀ k' : Nat, k' < K →
      (islMembers idv n ((k' : Nat) : Int)).getLast? = some (st.last ((k' : Nat) : Int)) := by
    intro k' hk'
    have hkne' : ¬ ((k' : Nat) : Int) = -1 := by intro h; omega
    exact ((hTS.2.2.1 ((k' : Nat) : Int) hkne').2 (hfull k' hk')).1
  have hch' : List.Chain' (fun a b => finalizeTails st.last st.nxt K a = b)
      (islMembers idv n ((k : Nat) : Int)) := by
    refine chain_eq_on (fun i hi => ?_) hch
    refine ((finalizeTails_spec st.last st.nxt K _).2 ?_).symm
    intro k' hk' heq
    have hgl := hlastval k' hk'
    rw [heq] at hgl
    by_cases hkk : k' = k
    · rw [hkk] at hgl
      exact interior_ne_getLast (islMembers_pairwise idv n ((k : Nat) : Int)) i hi hgl rfl
    · have hmem := mem_of_getLast?_eq hgl
      obtain ⟨j1, hj1, hk1, hx1⟩ := islMembers_mem.mp hmem
      have hmem2 := List.get_mem (islMembers idv n ((k : Nat) : Int)) i (by omega)
      obtain ⟨j2, hj2, hk2, hx2⟩ := islMembers_mem.mp hmem2
      rw [hx1] at hx2
      have hj12 : j1 = j2 := by exact_mod_cast hx2
      rw [hj12] at hk1
      rw [hk1] at hk2
      exact hkk (by exact_mod_cast hk2)
  have hlast' : ∀ x, (islMembers idv n ((k : Nat) : Int)).getLast? = some x →
      finalizeTails st.last st.nxt K x = -1 := by
    intro x hx
    rw [hl] at hx
    injection hx with hx
    exact (finalizeTails_spec st.last st.nxt K x).1 ⟨k, hk, hx⟩
  have hnem : ∀ x ∈ islMembers idv n ((k : Nat) : Int), ¬ x = -1 := by
    intro x hx h
    have := islMembers_nonneg hx
    omega
  exact walk_spec (finalizeTails st.last st.nxt K) (islMembers idv n ((k : Nat) : Int))
    hne hnem hch' hlast' (n + 1)
    (by have := islMembers_length_le idv n ((k : Nat) : Int); omega) _ hh

/-- C4: after a successful island build, for every island `k` the walk
along `dof_islandnext` from `island_dofadr[k]` visits exactly the DoFs
with `dof_island = k`, in strictly ascending index order; and the
analogous property holds for constraint rows via `island_efcadr` and
`efc_islandnext`. -/
theorem c4_threaded_lists (m : MjModel) (d : MjData) (hv : Valid m d)
    (out : IslandOut) (hrun : mj_islandCore m d = .ok out) :
    ∀ k : Nat, k < out.nisland →
      (walk out.dof_islandnext (out.island_dofadr ((k : Nat) : Int)) (m.nv + 1)
          = islMembers (fun j => out.dof_island ((j : Nat) : Int)) m.nv ((k : Nat) : Int) ∧
        List.Pairwise (fun a b : Int => a < b)
          (walk out.dof_islandnext (out.island_dofadr ((k : Nat) : Int)) (m.nv + 1))) ∧
      (walk out.efc_islandnext (out.island_efcadr ((k : Nat) : Int)) (d.nefc + 1)
          = islMembers (fun j => out.efc_island ((j : Nat) : Int)) d.nefc ((k : Nat) : Int) ∧
        List.Pairwise (fun a b : Int => a < b)
          (walk out.efc_islandnext (out.island_efcadr ((k : Nat) : Int)) (d.nefc + 1))) := by
  obtain ⟨tn, E, dsw, esw, hfe, hdsw, hesw, hdn, hen, hout⟩ := islandCore_dissect m d out hrun
  obtain ⟨hokE, hdone⟩ := findEdges_spec m d (countMaxEdge m d) hv tn E hfe
  obtain ⟨_, S2, _⟩ := ffFill_spec (edgeGraph m.ntree tn E) (edgeGraph_valid m d tn E hokE)
  set ti := (ffFill (edgeGraph m.ntree tn E)).1 with hti
  have hdsw' : dofSweepLoop m m.ntree ti (List.range' 0 m.nv) initThreadSt = .ok dsw := by
    rw [← List.range_eq_range']
    exact hdsw
  have hTS := dofSweepLoop_inv m m.ntree ti hv.1 m.nv 0 initThreadSt dsw
    (by omega) (TSInv_init _) hdsw'
  have hesw' : efcSweepLoop m d m.ntree ti (List.range' 0 d.nefc) initThreadSt = .ok esw := by
    rw [← List.range_eq_range']
    exact hesw
  obtain ⟨hTSe, _⟩ := efcSweepLoop_inv m d m.ntree ti d.nefc 0 initThreadSt esw
    (by omega) (TSInv_init _) hesw'
  have hranged : ∀ j, j < m.nv → ti (m.dof_treeid j) = -1 ∨
      (0 ≤ ti (m.dof_treeid j) ∧
        ti (m.dof_treeid j) < (((ffFill (edgeGraph m.ntree tn E)).2 : Nat) : Int)) := by
    intro j hj
    by_cases h : ti (m.dof_treeid j) = -1
    · exact Or.inl h
    · exact Or.inr (S2 _ h)
  have hrangee : ∀ j, j < d.nefc → ti ((treeNext m d (-1) j 0).1) = -1 ∨
      (0 ≤ ti ((treeNext m d (-1) j 0).1) ∧
        ti ((treeNext m d (-1) j 0).1)
          < (((ffFill (edgeGraph m.ntree tn E)).2 : Nat) : Int)) := by
    intro j hj
    by_cases h : ti ((treeNext m d (-1) j 0).1) = -1
    · exact Or.inl h
    · exact Or.inr (S2 _ h)
  have hwd := threaded_walk (fun j => ti (m.dof_treeid j)) m.nv dsw
    (ffFill (edgeGraph m.ntree tn E)).2 hTS hranged hdn
  have hwe := threaded_walk (fun j => ti ((treeNext m d (-1) j 0).1)) d.nefc esw
    (ffFill (edgeGraph m.ntree tn E)).2 hTSe hrangee hen
  intro k hk
  rw [hout] at hk
  dsimp only at hk
  have hcongrd : islMembers (fun j => out.dof_island ((j : Nat) : Int)) m.nv ((k : Nat) : Int)
      = islMembers (fun j => ti (m.dof_treeid j)) m.nv ((k : Nat) : Int) := by
    refine islMembers_congr (fun j hj => ?_) _
    rw [hout]
    dsimp only
    exact hTS.1 j hj
  have hcongre : islMembers (fun j => out.efc_island ((j : Nat) : Int)) d.nefc ((k : Nat) : Int)
      = islMembers (fun j => ti ((treeNext m d (-1) j 0).1)) d.nefc ((k : Nat) : Int) := by
    refine islMembers_congr (fun j hj => ?_) _
    rw [hout]
    dsimp only
    exact hTSe.1 j hj
  constructor
  · have heq : walk out.dof_islandnext (out.island_dofadr ((k : Nat) : Int)) (m.nv + 1)
        = islMembers (fun j => out.dof_island ((j : Nat) : Int)) m.nv ((k : Nat) : Int) := by
      rw [hcongrd, hout]
      dsimp only
      exact hwd k hk
    refine ⟨heq, ?_⟩
    rw [heq]
    exact islMembers_pairwise _ _ _
  · have heq : walk out.efc_islandnext (out.island_efcadr ((k : Nat) : Int)) (d.nefc + 1)
        = islMembers (fun j => out.efc_island ((j : Nat) : Int)) d.nefc ((k : Nat) : Int) := by
      rw [hcongre, hout]
      dsimp only
      exact hwe k hk
    refine ⟨heq, ?_⟩
    rw [heq]
    exact islMembers_pairwise _ _ _

/-- The island outputs computed on the concrete contact example, for the
threading witness. -/
def c4out : IslandOut :=
  match mj_islandCore mCon dCon with
  | .ok o => o
  | .error _ => default

/-- Witness for `c4_threaded_lists`: island 0 of the concrete contact
example. -/
theorem c4_threaded_lists_witness :
    Valid mCon dCon ∧ 0 < c4out.nisland ∧
    ((walk c4out.dof_islandnext (c4out.island_dofadr ((0 : Nat) : Int)) (mCon.nv + 1)
        = islMembers (fun j => c4out.dof_island ((j : Nat) : Int)) mCon.nv ((0 : Nat) : Int) ∧
      List.Pairwise (fun a b : Int => a < b)
        (walk c4out.dof_islandnext (c4out.island_dofadr ((0 : Nat) : Int)) (mCon.nv + 1))) ∧
     (walk c4out.efc_islandnext (c4out.island_efcadr ((0 : Nat) : Int)) (dCon.nefc + 1)
        = islMembers (fun j => c4out.efc_island ((j : Nat) : Int)) dCon.nefc ((0 : Nat) : Int) ∧
      List.Pairwise (fun a b : Int => a < b)
        (walk c4out.efc_islandnext (c4out.island_efcadr ((0 : Nat) : Int)) (dCon.nefc + 1)))) :=
  ⟨by decide, by decide,
    c4_threaded_lists mCon dCon (by decide) c4out rfl 0 (by decide)⟩

/-- Column of the `p`-th stored entry of sparse row `i`. -/
def entryCol (d : MjData) (i p : Nat) : Nat :=
  d.efc_J_colind (d.efc_J_rowadr i + p)

/-- The sparse and dense Jacobian representations describe the same
nonzero pattern: each row's stored columns are exactly the dense row's
true columns, in ascending order. -/
def sparseMatchesDense (m : MjModel) (d : MjData) : Prop :=
  ∀ i, i < d.nefc →
    List.map (fun p => entryCol d i p) (List.range (d.efc_J_rownnz i))
      = (List.range m.nv).filter (fun c => d.efc_J (m.nv * i + c))

instance (m : MjModel) (d : MjData) : Decidable (sparseMatchesDense m d) := by
  unfold sparseMatchesDense
  infer_instance

/-- Correspondence between a sparse cursor `p` and a dense cursor `c` on
row `i`: the true columns at or after `c` are exactly the stored columns
at or after entry `p`. -/
def ScanRel (m : MjModel) (d : MjData) (i p c : Nat) : Prop :=
  p ≤ d.efc_J_rownnz i ∧ c ≤ m.nv ∧
  (∀ q, p ≤ q → q < d.efc_J_rownnz i → c ≤ entryCol d i q) ∧
  (∀ c', c ≤ c' → c' < m.nv → d.efc_J (m.nv * i + c') = true →
    ∃ q, p ≤ q ∧ q < d.efc_J_rownnz i ∧ entryCol d i q = c')

theorem rowMatch_cols {m : MjModel} {d : MjData} {i : Nat}
    (hrow : List.map (fun p => entryCol d i p) (List.range (d.efc_J_rownnz i))
      = (List.range m.nv).filter (fun c => d.efc_J (m.nv * i + c))) :
    ∀ p, p < d.efc_J_rownnz i →
      entryCol d i p < m.nv ∧ d.efc_J (m.nv * i + entryCol d i p) = true := by
  intro p hp
  have hmem : entryCol d i p
      ∈ List.map (fun p => entryCol d i p) (List.range (d.efc_J_rownnz i)) :=
    List.mem_map.mpr ⟨p, List.mem_range.mpr hp, rfl⟩
  rw [hrow] at hmem
  rw [List.mem_filter, List.mem_range] at hmem
  exact ⟨hmem.1, by simpa using hmem.2⟩

theorem rowMatch_sorted {m : MjModel} {d : MjData} {i : Nat}
    (hrow : List.map (fun p => entryCol d i p) (List.range (d.efc_J_rownnz i))
      = (List.range m.nv).filter (fun c => d.efc_J (m.nv * i + c))) :
    ∀ p q, p < q → q < d.efc_J_rownnz i → entryCol d i p < entryCol d i q := by
  intro p q hpq hq
  have pwL : List.Pairwise (fun a b : Nat => a < b)
      (List.map (fun p => entryCol d i p) (List.range (d.efc_J_rownnz i))) := by
    rw [hrow]
    exact List.Pairwise.filter _ (List.pairwise_lt_range m.nv)
  have hlen : (List.map (fun p => entryCol d i p) (List.range (d.efc_J_rownnz i))).length
      = d.efc_J_rownnz i := by
    rw [List.length_map, List.length_range]
  have := List.pairwise_iff_get.mp pwL ⟨p, by omega⟩ ⟨q, by omega⟩ (by
    simp only [Fin.mk_lt_mk]
    exact hpq)
  simpa [List.get_eq_getElem, List.getElem_map, List.getElem_range] using this

theorem rowMatch_complete {m : MjModel} {d : MjData} {i : Nat}
    (hrow : List.map (fun p => entryCol d i p) (List.range (d.efc_J_rownnz i))
      = (List.range m.nv).filter (fun c => d.efc_J (m.nv * i + c))) :
    ∀ c, c < m.nv → d.efc_J (m.nv * i + c) = true →
      ∃ p, p < d.efc_J_rownnz i ∧ entryCol d i p = c := by
  intro c hc ht
  have hmem : c ∈ (List.range m.nv).filter (fun c => d.efc_J (m.nv * i + c)) := by
    rw [List.mem_filter, List.mem_range]
    exact ⟨hc, by simpa using ht⟩
  rw [← hrow] at hmem
  obtain ⟨p, hp, he⟩ := List.mem_map.mp hmem
  exact ⟨p, List.mem_range.mp hp, he⟩

theorem scanRel_base {m : MjModel} {d : MjData} {i : Nat}
    (hrow : List.map (fun p => entryCol d i p) (List.range (d.efc_J_rownnz i))
      = (List.range m.nv).filter (fun c => d.efc_J (m.nv * i + c))) :
    ScanRel m d i 0 0 := by
  refine ⟨Nat.zero_le _, Nat.zero_le _, fun q _ _ => Nat.zero_le _, fun c' _ hn ht => ?_⟩
  obtain ⟨p, hp, he⟩ := rowMatch_complete hrow c' hn ht
  exact ⟨p, Nat.zero_le _, hp, he⟩

/-- Lockstep of the sparse and dense scans of one row under the cursor
correspondence: same discovered tree, corresponding updated cursors. -/
theorem scan_lockstep (m : MjModel) (d : MjData) (i : Nat)
    (hF1 : ∀ p, p < d.efc_J_rownnz i →
      entryCol d i p < m.nv ∧ d.efc_J (m.nv * i + entryCol d i p) = true)
    (hF2 : ∀ p q, p < q → q < d.efc_J_rownnz i → entryCol d i p < entryCol d i q)
    (tree : Int) :
    ∀ fuelD c p, c + fuelD = m.nv → ScanRel m d i p c →
      (treeNextSparseGo m d tree i p (d.efc_J_rownnz i - p)).1
        = (treeNextDenseGo m d tree i c fuelD).1 ∧
      ((treeNextDenseGo m d tree i c fuelD).1 ≠ -1 →
        p ≤ (treeNextSparseGo m d tree i p (d.efc_J_rownnz i - p)).2 ∧
        (treeNextSparseGo m d tree i p (d.efc_J_rownnz i - p)).2 < d.efc_J_rownnz i ∧
        (treeNextDenseGo m d tree i c fuelD).2
          = entryCol d i (treeNextSparseGo m d tree i p (d.efc_J_rownnz i - p)).2 ∧
        m.dof_treeid (entryCol d i (treeNextSparseGo m d tree i p (d.efc_J_rownnz i - p)).2)
          = (treeNextSparseGo m d tree i p (d.efc_J_rownnz i - p)).1 ∧
        ScanRel m d i (treeNextSparseGo m d tree i p (d.efc_J_rownnz i - p)).2
          (treeNextDenseGo m d tree i c fuelD).2) ∧
      ((treeNextDenseGo m d tree i c fuelD).1 = -1 → tree = -1 →
        (treeNextSparseGo m d tree i p (d.efc_J_rownnz i - p)).2 = d.efc_J_rownnz i ∧
        (treeNextDenseGo m d tree i c fuelD).2 = m.nv) := by
  intro fuelD
  induction fuelD with
  | zero =>
    intro c p hsum hrel
    have hc : c = m.nv := by omega
    have hple : d.efc_J_rownnz i ≤ p := by
      by_contra hlt
      push_neg at hlt
      have h1 := hrel.2.2.1 p (le_refl p) hlt
      have h2 := (hF1 p hlt).1
      omega
    have hp1 := hrel.1
    have hlp : d.efc_J_rownnz i - p = 0 := by omega
    rw [hlp]
    refine ⟨rfl, fun habs => absurd rfl habs, fun _ _ => ⟨?_, ?_⟩⟩
    · show p = d.efc_J_rownnz i
      omega
    · show c = m.nv
      exact hc
  | succ fuelD ih =>
    intro c p hsum hrel
    have hcnv : c < m.nv := by omega
    by_cases hpat : d.efc_J (m.nv * i + c) = true
    · obtain ⟨q, hpq, hq, hqc⟩ := hrel.2.2.2 c (le_refl c) hcnv hpat
      have hpcol : p < d.efc_J_rownnz i ∧ entryCol d i p = c := by
        rcases Nat.eq_or_lt_of_le hpq with he | hlt
        · rw [he]
          exact ⟨hq, hqc⟩
        · have h1 := hF2 p q hlt hq
          have h2 := hrel.2.2.1 p (le_refl p) (by omega)
          omega
      have hlen : d.efc_J_rownnz i - p = (d.efc_J_rownnz i - (p + 1)) + 1 := by omega
      rw [hlen]
      simp only [treeNextSparseGo, treeNextDenseGo]
      rw [if_pos hpat]
      have hpc' : d.efc_J_colind (d.efc_J_rowadr i + p) = c := hpcol.2
      rw [hpc']
      by_cases hne : m.dof_treeid c ≠ tree
      · rw [if_pos hne, if_pos hne]
        refine ⟨rfl, fun _ => ⟨le_refl p, hpcol.1, ?_, ?_, ?_⟩, fun habs htree => ?_⟩
        · show c = entryCol d i p
          exact hpcol.2.symm
        · show m.dof_treeid (entryCol d i p) = m.dof_treeid c
          rw [hpcol.2]
        · show ScanRel m d i p c
          exact hrel
        · exact absurd (habs.trans htree.symm) hne
      · rw [if_neg hne, if_neg hne]
        push_neg at hne
        have hrel' : ScanRel m d i (p + 1) (c + 1) := by
          refine ⟨by omega, by omega, ?_, ?_⟩
          · intro q' hq1 hq2
            have h3 := hF2 p q' (by omega) hq2
            have h4 := hpcol.2
            omega
          · intro c' hc1 hc2 ht
            obtain ⟨q', hq1, hq2, hq3⟩ := hrel.2.2.2 c' (by omega) hc2 ht
            refine ⟨q', ?_, hq2, hq3⟩
            rcases Nat.eq_or_lt_of_le hq1 with he | hlt
            · rw [← he] at hq3
              have h4 := hpcol.2
              omega
            · omega
        obtain ⟨ih1, ih2, ih3⟩ := ih (c + 1) (p + 1) (by omega) hrel'
        refine ⟨ih1, fun h => ?_, ih3⟩
        obtain ⟨ha, hb, hc', hd, he⟩ := ih2 h
        exact ⟨by omega, hb, hc', hd, he⟩
    · simp only [treeNextDenseGo]
      rw [if_neg hpat]
      have hrel' : ScanRel m d i p (c + 1) := by
        refine ⟨hrel.1, by omega, ?_, ?_⟩
        · intro q' hq1 hq2
          have h1 := hrel.2.2.1 q' hq1 hq2
          have h2 := (hF1 q' hq2).2
          rcases Nat.eq_or_lt_of_le h1 with he | h
          · rw [← he] at h2
            exact absurd h2 hpat
          · omega
        · intro c' hc1 hc2 ht
          exact hrel.2.2.2 c' (by omega) hc2 ht
      exact ih (c + 1) p (by omega) hrel'

theorem treeNextSparseGo_model (m : MjModel) (d : MjData) (b : Bool) (tree : Int) (i : Nat) :
    ∀ left j, treeNextSparseGo { m with sparse := b } d tree i j left
      = treeNextSparseGo m d tree i j left := by
  intro left
  induction left with
  | zero => intro j; rfl
  | succ left ih =>
    intro j
    simp only [treeNextSparseGo]
    rw [ih (j + 1)]
  
theorem treeNextDenseGo_model (m : MjModel) (d : MjData) (b : Bool) (tree : Int) (i : Nat) :
    ∀ left j, treeNextDenseGo { m with sparse := b } d tree i j left
      = treeNextDenseGo m d tree i j left := by
  intro left
  induction left with
  | zero => intro j; rfl
  | succ left ih =>
    intro j
    simp only [treeNextDenseGo]
    rw [ih (j + 1)]

theorem treeNext_sparse_eq (m : MjModel) (d : MjData) (tree : Int) (i j0 : Nat) :
    treeNext { m with sparse := true } d tree i j0
      = treeNextSparseGo m d tree i j0 (d.efc_J_rownnz i - j0) := by
  have hflag : mj_isSparse { m with sparse := true } = true := rfl
  rw [treeNext, hflag]
  simp only [if_true]
  rw [show treeNextSparseAux { m with sparse := true } d tree i j0
      = treeNextSparseGo { m with sparse := true } d tree i j0 (d.efc_J_rownnz i - j0) from rfl]
  rw [treeNextSparseGo_model]

theorem treeNext_dense_eq (m : MjModel) (d : MjData) (tree : Int) (i j0 : Nat) :
    treeNext { m with sparse := false } d tree i j0
      = treeNextDenseGo m d tree i j0 (m.nv - j0) := by
  have hflag : mj_isSparse { m with sparse := false } = false := rfl
  rw [treeNext, hflag]
  simp only [Bool.false_eq_true, if_false]
  rw [show treeNextDenseAux { m with sparse := false } d tree i j0
      = treeNextDenseGo { m with sparse := false } d tree i j0
        (({ m with sparse := false } : MjModel).nv - j0) from rfl]
  rw [treeNextDenseGo_model]

/-- Lockstep of the generic-row chain loop across representations. -/
theorem chain_lockstep (m : MjModel) (d : MjData) (nedge_max i : Nat)
    (hF1 : ∀ p, p < d.efc_J_rownnz i →
      entryCol d i p < m.nv ∧ d.efc_J (m.nv * i + entryCol d i p) = true)
    (hF2 : ∀ p q, p < q → q < d.efc_J_rownnz i → entryCol d i p < entryCol d i q) :
    ∀ fuelS fuelD p c (tree2 : Int) tn E,
      ScanRel m d i p c →
      p < d.efc_J_rownnz i →
      c = entryCol d i p →
      m.dof_treeid (entryCol d i p) = tree2 →
      d.efc_J_rownnz i - p < fuelS →
      m.nv - c < fuelD →
      edgeChain { m with sparse := true } d nedge_max i fuelS tree2 p tn E
        = edgeChain { m with sparse := false } d nedge_max i fuelD tree2 c tn E := by
  intro fuelS
  induction fuelS with
  | zero =>
    intro fuelD p c tree2 tn E _ _ _ _ hfs _
    omega
  | succ fuelS ih =>
    intro fuelD p c tree2 tn E hrel hp hc htree hfs hfd
    obtain ⟨fd, rfl⟩ : ∃ fd, fuelD = fd + 1 := ⟨fuelD - 1, by omega⟩
    have hcle : c < m.nv := by
      rw [hc]
      exact (hF1 p hp).1
    simp only [edgeChain]
    rw [treeNext_sparse_eq, treeNext_dense_eq]
    obtain ⟨h1, h2, _⟩ := scan_lockstep m d i hF1 hF2 tree2 (m.nv - c) c p
      (by omega) hrel
    rw [← h1]
    by_cases hcond : (treeNextSparseGo m d tree2 i p (d.efc_J_rownnz i - p)).1 > -1 ∧
        (treeNextSparseGo m d tree2 i p (d.efc_J_rownnz i - p)).1 ≠ tree2
    · rw [if_pos hcond, if_pos hcond]
      cases hae : addEdge tn E tree2
          (treeNextSparseGo m d tree2 i p (d.efc_J_rownnz i - p)).1 nedge_max with
      | error e => rfl
      | ok s =>
        obtain ⟨hle, hlt, hcnew, htnew, hrelnew⟩ := h2 (by
          rw [← h1]
          intro hz
          rw [hz] at hcond
          exact absurd hcond.1 (by omega))
        have hstrict : p < (treeNextSparseGo m d tree2 i p (d.efc_J_rownnz i - p)).2 := by
          rcases Nat.eq_or_lt_of_le hle with he | h
          · exfalso
            rw [← he] at htnew
            rw [htree] at htnew
            exact hcond.2 htnew.symm
          · exact h
        have hcstrict : c < (treeNextDenseGo m d tree2 i c (m.nv - c)).2 := by
          rw [hcnew, hc]
          exact hF2 p _ hstrict hlt
        exact ih fd (treeNextSparseGo m d tree2 i p (d.efc_J_rownnz i - p)).2
          (treeNextDenseGo m d tree2 i c (m.nv - c)).2
          (treeNextSparseGo m d tree2 i p (d.efc_J_rownnz i - p)).1 s.1 s.2
          hrelnew hlt hcnew htnew (by omega) (by omega)
    · rw [if_neg hcond, if_neg hcond]

/-- Representation parity of the generic row handler. -/
theorem findEdgesRow_parity (m : MjModel) (d : MjData) (nedge_max i : Nat)
    (hrow : List.map (fun p => entryCol d i p) (List.range (d.efc_J_rownnz i))
      = (List.range m.nv).filter (fun c => d.efc_J (m.nv * i + c)))
    (tn : Int → Nat) (E : List (Int × Int)) :
    findEdgesRow { m with sparse := true } d nedge_max i tn E
      = findEdgesRow { m with sparse := false } d nedge_max i tn E := by
  have hF1 := rowMatch_cols hrow
  have hF2 := rowMatch_sorted hrow
  have hbase := scanRel_base hrow
  simp only [findEdgesRow]
  simp only [treeNext_sparse_eq, treeNext_dense_eq]
  obtain ⟨h1, h2, h3⟩ := scan_lockstep m d i hF1 hF2 (-1) (m.nv - 0) 0 0 (by omega) hbase
  set a1 := treeNextSparseGo m d (-1) i 0 (d.efc_J_rownnz i - 0) with ha1
  set b1 := treeNextDenseGo m d (-1) i 0 (m.nv - 0) with hb1
  by_cases hr1 : a1.1 = -1
  · have hd1 : b1.1 = -1 := by rw [← h1]; exact hr1
    obtain ⟨he1, he2⟩ := h3 hd1 rfl
    rw [he1, he2]
    rw [Nat.sub_self, Nat.sub_self]
    rw [if_pos (show (treeNextSparseGo m d a1.1 i (d.efc_J_rownnz i) 0).1 = -1 from rfl)]
    rw [if_pos (show (treeNextDenseGo m d b1.1 i m.nv 0).1 = -1 from rfl)]
    rw [h1]
  · have hd1 : b1.1 ≠ -1 := by rw [← h1]; exact hr1
    obtain ⟨hle1, hlt1, hc1, ht1, hrel1⟩ := h2 hd1
    rw [h1]
    rw [h1] at ht1
    obtain ⟨g1, g2, g3⟩ := scan_lockstep m d i hF1 hF2 b1.1 (m.nv - b1.2) b1.2 a1.2
      (by
        have := (hF1 _ hlt1).1
        rw [← hc1] at this
        omega) hrel1
    set a2 := treeNextSparseGo m d b1.1 i a1.2 (d.efc_J_rownnz i - a1.2) with ha2
    set b2 := treeNextDenseGo m d b1.1 i b1.2 (m.nv - b1.2) with hb2
    by_cases hr2 : a2.1 = -1
    · rw [if_pos hr2, if_pos (by rw [← g1]; exact hr2)]
    · rw [if_neg hr2, if_neg (by rw [← g1]; exact hr2)]
      rw [g1]
      cases hae : addEdge tn E b1.1 b2.1 nedge_max with
      | error e => rfl
      | ok s =>
        have hslS : scanLen { m with sparse := true } d i = d.efc_J_rownnz i := rfl
        have hslD : scanLen { m with sparse := false } d i = m.nv := rfl
        rw [hslS, hslD]
        obtain ⟨gle, glt, gc, gt, grel⟩ := g2 (by rw [← g1]; exact hr2)
        rw [g1] at gt
        exact chain_lockstep m d nedge_max i hF1 hF2 (d.efc_J_rownnz i + 1) (m.nv + 1)
          a2.2 b2.2 b2.1 s.1 s.2 grel glt gc gt (by omega) (by omega)

theorem eventTreePair_model (m : MjModel) (d : MjData) (b : Bool) (i : Nat) :
    eventTreePair { m with sparse := b } d i = eventTreePair m d i := rfl

theorem findEdgesLoop_parity (m : MjModel) (d : MjData) (nedge_max : Nat)
    (h : sparseMatchesDense m d) :
    ∀ l : List Nat, (∀ x ∈ l, x < d.nefc) →
      ∀ prev tn E,
        findEdgesLoop { m with sparse := true } d nedge_max l prev tn E
          = findEdgesLoop { m with sparse := false } d nedge_max l prev tn E := by
  intro l
  induction l with
  | nil => intro _ prev tn E; rfl
  | cons i rest ih =>
    intro hmem prev tn E
    by_cases hskip : prev = some (d.efc_type i, d.efc_id i)
    · simp only [findEdgesLoop]
      rw [if_pos hskip, if_pos hskip]
      exact ih (fun x hx => hmem x (List.mem_cons_of_mem _ hx)) prev tn E
    · rw [findEdgesLoop_cons { m with sparse := true } d nedge_max i rest prev tn E hskip,
        findEdgesLoop_cons { m with sparse := false } d nedge_max i rest prev tn E hskip]
      rw [eventTreePair_model m d true i, eventTreePair_model m d false i]
      cases hev : eventTreePair m d i with
      | some ab =>
        dsimp only
        cases hae : addEdge tn E ab.1 ab.2 nedge_max with
        | error e => rfl
        | ok s =>
          exact ih (fun x hx => hmem x (List.mem_cons_of_mem _ hx)) _ s.1 s.2
      | none =>
        dsimp only
        rw [findEdgesRow_parity m d nedge_max i (h i (hmem i (List.mem_cons_self _ _))) tn E]
        cases hre : findEdgesRow { m with sparse := false } d nedge_max i tn E with
        | error e => rfl
        | ok s =>
          exact ih (fun x hx => hmem x (List.mem_cons_of_mem _ hx)) _ s.1 s.2

theorem tendonEdges_model (m : MjModel) (b : Bool) :
    ∀ n, tendonEdges { m with sparse := b } n = tendonEdges m n := by
  intro n
  induction n with
  | zero => rfl
  | succ n ih =>
    simp only [tendonEdges]
    rw [ih]

theorem countMaxEdge_model (m : MjModel) (d : MjData) (b : Bool) :
    countMaxEdge { m with sparse := b } d = countMaxEdge m d := by
  unfold countMaxEdge
  rw [tendonEdges_model]

/-- The representative (first) tree of a row is representation
independent. -/
theorem firstTree_parity (m : MjModel) (d : MjData) (i : Nat)
    (hrow : List.map (fun p => entryCol d i p) (List.range (d.efc_J_rownnz i))
      = (List.range m.nv).filter (fun c => d.efc_J (m.nv * i + c))) :
    (treeNext { m with sparse := true } d (-1) i 0).1
      = (treeNext { m with sparse := false } d (-1) i 0).1 := by
  rw [treeNext_sparse_eq, treeNext_dense_eq]
  exact (scan_lockstep m d i (rowMatch_cols hrow) (rowMatch_sorted hrow) (-1)
    (m.nv - 0) 0 0 (by omega) (scanRel_base hrow)).1

theorem efcSweepStep_parity (m : MjModel) (d : MjData) (ntree : Nat) (ti : Int → Int)
    (st : ThreadSt) (i : Nat)
    (hrow : List.map (fun p => entryCol d i p) (List.range (d.efc_J_rownnz i))
      = (List.range m.nv).filter (fun c => d.efc_J (m.nv * i + c))) :
    efcSweepStep { m with sparse := true } d ntree ti st i
      = efcSweepStep { m with sparse := false } d ntree ti st i := by
  simp only [efcSweepStep]
  rw [firstTree_parity m d i hrow]

theorem dofSweepLoop_model (m : MjModel) (b : Bool) :
    ∀ (ntree : Nat) (ti : Int → Int) (l : List Nat) (st : ThreadSt),
      dofSweepLoop { m with sparse := b } ntree ti l st = dofSweepLoop m ntree ti l st := by
  intro ntree ti l
  induction l with
  | nil => intro st; rfl
  | cons i rest ih =>
    intro st
    simp only [dofSweepLoop]
    rw [show dofSweepStep { m with sparse := b } ntree ti st i
        = dofSweepStep m ntree ti st i from rfl]
    cases dofSweepStep m ntree ti st i with
    | error e => rfl
    | ok st1 => exact ih st1

theorem efcSweepLoop_parity (m : MjModel) (d : MjData) (h : sparseMatchesDense m d) :
    ∀ l : List Nat, (∀ x ∈ l, x < d.nefc) →
      ∀ (ntree : Nat) (ti : Int → Int) (st : ThreadSt),
        efcSweepLoop { m with sparse := true } d ntree ti l st
          = efcSweepLoop { m with sparse := false } d ntree ti l st := by
  intro l
  induction l with
  | nil => intro _ ntree ti st; rfl
  | cons i rest ih =>
    intro hl ntree ti st
    simp only [efcSweepLoop]
    rw [efcSweepStep_parity m d ntree ti st i (h i (hl i (List.mem_cons_self _ _)))]
    cases efcSweepStep { m with sparse := false } d ntree ti st i with
    | error e => rfl
    | ok st1 => exact ih (fun x hx => hl x (List.mem_cons_of_mem _ hx)) ntree ti st1

/-- C9: on any data whose sparse and dense Jacobian representations carry
the same nonzero pattern, the island builder computes identical outputs in
sparse and dense mode (same nisland, dof_island, dof_islandnext,
island_dofadr, efc_island, efc_islandnext, island_efcadr — or the same
error). -/
theorem c9_dense_sparse_parity (m : MjModel) (d : MjData) (h : sparseMatchesDense m d) :
    mj_islandCore { m with sparse := true } d = mj_islandCore { m with sparse := false } d := by
  have hfe : findEdges { m with sparse := true } d
        (countMaxEdge { m with sparse := true } d)
      = findEdges { m with sparse := false } d
        (countMaxEdge { m with sparse := false } d) := by
    rw [countMaxEdge_model m d true, countMaxEdge_model m d false]
    unfold findEdges
    exact findEdgesLoop_parity m d (countMaxEdge m d) h (List.range d.nefc)
      (fun x hx => List.mem_range.mp hx) none (fun _ => 0) []
  simp only [mj_islandCore]
  rw [hfe]
  cases hfe2 : findEdges { m with sparse := false } d
      (countMaxEdge { m with sparse := false } d) with
  | error e => rfl
  | ok fe =>
    dsimp only
    rw [dofSweepLoop_model m true, dofSweepLoop_model m false]
    have he := efcSweepLoop_parity m d h (List.range d.nefc)
      (fun x hx => List.mem_range.mp hx)
    rw [he]

/-- Witness for `c9_dense_sparse_parity` on the concrete contact
example (whose sparse arrays carry the same pattern as its dense row). -/
theorem c9_dense_sparse_parity_witness :
    sparseMatchesDense mCon dCon ∧
    mj_islandCore { mCon with sparse := true } dCon
      = mj_islandCore { mCon with sparse := false } dCon :=
  ⟨by decide, c9_dense_sparse_parity mCon dCon (by decide)⟩
